import Mathlib

/-!
# A templated, iterable quadtree (`quadtree_unique.h`)

A shallow embedding of `tree::QuadTree<T, S>` and of its point iterator
`cpoint_iterator`, followed by theorems about insertion, subdivision and point queries.

Conventions of the embedding.

* The coordinate type `T` is any linearly ordered type with `+`, `/` and a literal `2`
  (the operations `split` and `coversPoint` use).  The drivers instantiate `T = double`;
  concrete runs below use `ℚ`, on values where the arithmetic is exact.
* `std::unique_ptr<QuadTree>` is `Node`: either `null` or `ptr tree`.
* A call that the C++ program may fail to complete returns an `Outcome`: `insert` recurses
  without a depth bound, so it takes a bound `fuel` on the depth of nested `insert` calls and
  answers `outOfFuel` when the bound is hit; the `while` loop of `operator++` takes a bound on
  its number of rounds.  Dereferencing a null child or an iterator that points at no element
  is `undefined`.
* A `std::vector<S>::const_iterator` is the index it points at (`none` for a
  value-initialised iterator).
* Where the identity of objects matters (the copy constructor), a `QuadTree` object lives
  at an address of a memory `Mem` and `children[i].ptr` holds an address, so that two
  pointers can hold the same address; the functions `Mem.insert`, `Mem.split`, `Mem.clear`
  and `Mem.copy` are `insert`, `split`, `clear` and the copy constructor on such objects.
-/

namespace tree

/-- The struct `Rect` (quadtree_unique.h:17-25). -/
structure Rect (T : Type) where
  xMin : T
  xMax : T
  yMin : T
  yMax : T
  deriving DecidableEq, Repr

/-- The overload set `bool within(const S& shape, const Rect<T>& area)`
(quadtree_unique.h:27-31), which the caller provides for each shape type. -/
class Boundable (S T : Type) where
  within : S → Rect T → Bool

export Boundable (within)

mutual
/-- The data members of `class QuadTree` (quadtree_unique.h:76-78): `area`, `elements`
and the array `children[4]`. -/
inductive QuadTree (T S : Type) where
  | mk (area : Rect T) (elements : List S) (c0 c1 c2 c3 : Node T S) : QuadTree T S
  deriving DecidableEq, Repr
/-- The struct `QuadTree::Node` (quadtree_unique.h:86-104): an owning pointer to a
subtree. -/
inductive Node (T S : Type) where
  | null : Node T S
  | ptr (tree : QuadTree T S) : Node T S
  deriving DecidableEq, Repr
end

/-- Result of running a piece of the program. -/
inductive Outcome (α : Type) where
  | done (a : α) : Outcome α
  | outOfFuel : Outcome α
  | undefined : Outcome α
  deriving DecidableEq, Repr

/-- Sequencing: a step that did not complete stops everything after it. -/
def Outcome.bind {α β : Type} : Outcome α → (α → Outcome β) → Outcome β
  | .done a, f => f a
  | .outOfFuel, _ => .outOfFuel
  | .undefined, _ => .undefined

/-- The constant `static const int MAX_OBJ = 10` (quadtree_unique.h:80-82). -/
def MAX_OBJ : Nat := 10

section Defs

variable {T S : Type}

namespace QuadTree

/-- The member `area`. -/
def area : QuadTree T S → Rect T
  | .mk a _ _ _ _ _ => a

/-- The member `elements`. -/
def elements : QuadTree T S → List S
  | .mk _ es _ _ _ _ => es

/-- The constructor `explicit QuadTree(Rect<T> a) : area(a)` (quadtree_unique.h:40): no
element, four null children. -/
def new (a : Rect T) : QuadTree T S :=
  .mk a [] .null .null .null .null

/-- The statement `elements.push_back(shape)`. -/
def push_back : QuadTree T S → S → QuadTree T S
  | .mk a es c0 c1 c2 c3, shape => .mk a (es ++ [shape]) c0 c1 c2 c3

/-- The function `QuadTree::isLeaf` (quadtree_unique.h:57-58):
`!static_cast<bool>(children[0].ptr)`, which looks at `children[0]` only. -/
def isLeaf : QuadTree T S → Bool
  | .mk _ _ .null _ _ _ => true
  | .mk _ _ (.ptr _) _ _ _ => false

/-- The function `QuadTree::clear` (quadtree_unique.h:132-139). -/
def clear : QuadTree T S → QuadTree T S
  | .mk a _ _ _ _ _ => .mk a [] .null .null .null .null

/-- The function `QuadTree::canContain` (quadtree_unique.h:172-174). -/
def canContain [Boundable S T] (t : QuadTree T S) (shape : S) : Bool :=
  within shape t.area

/-- The function `QuadTree::coversPoint` (quadtree_unique.h:165-169). -/
def coversPoint [LinearOrder T] (t : QuadTree T S) (x y : T) : Bool :=
  decide (x > t.area.xMin) && decide (x < t.area.xMax) &&
    decide (y > t.area.yMin) && decide (y < t.area.yMax)

end QuadTree

/-- The call `child.ptr->insert(shape)` on one slot of `children`, where `ins` is
`QuadTree::insert`: a null `ptr` is dereferenced. -/
def Node.insertWith (ins : QuadTree T S → S → Outcome (Bool × QuadTree T S)) :
    Node T S → S → Outcome (Bool × Node T S)
  | .null, _ => .undefined
  | .ptr t, shape => (ins t shape).bind fun r => .done (r.1, .ptr r.2)

/-- The tail of `QuadTree::insert` (quadtree_unique.h:155-161): the loop
`for(auto& child : children) if(child.ptr->insert(shape)) return true;` over the four
children in the order 0, 1, 2, 3, then `elements.push_back(shape); return true;`. -/
def insertChildren (ins : QuadTree T S → S → Outcome (Bool × QuadTree T S)) :
    QuadTree T S → S → Outcome (Bool × QuadTree T S)
  | .mk a es c0 c1 c2 c3, shape =>
    (c0.insertWith ins shape).bind fun r0 =>
    if r0.1 then .done (true, .mk a es r0.2 c1 c2 c3) else
    (c1.insertWith ins shape).bind fun r1 =>
    if r1.1 then .done (true, .mk a es r0.2 r1.2 c2 c3) else
    (c2.insertWith ins shape).bind fun r2 =>
    if r2.1 then .done (true, .mk a es r0.2 r1.2 r2.2 c3) else
    (c3.insertWith ins shape).bind fun r3 =>
    if r3.1 then .done (true, .mk a es r0.2 r1.2 r2.2 r3.2) else
    .done (true, .mk a (es ++ [shape]) r0.2 r1.2 r2.2 r3.2)

/-- The loop `for(auto& element : elements) newTree.insert(element);` of `QuadTree::split`
(quadtree_unique.h:192-194); the value `insert` returns is dropped. -/
def reinsert (ins : QuadTree T S → S → Outcome (Bool × QuadTree T S)) :
    QuadTree T S → List S → Outcome (QuadTree T S)
  | newTree, [] => .done newTree
  | newTree, element :: rest => (ins newTree element).bind fun r => reinsert ins r.2 rest

/-- The tree `newTree` that `QuadTree::split` builds before it re-inserts the elements
(quadtree_unique.h:180-190): the same area, no element, four fresh children. -/
def splitTree [Add T] [Div T] [OfNat T 2] (area : Rect T) : QuadTree T S :=
  let centerX := (area.xMax + area.xMin) / 2
  let centerY := (area.yMax + area.yMin) / 2
  .mk area []
    (.ptr (.new ⟨centerX, area.xMax, centerY, area.xMax⟩))
    (.ptr (.new ⟨area.xMin, centerX, centerY, area.xMax⟩))
    (.ptr (.new ⟨area.xMin, centerX, area.yMin, centerY⟩))
    (.ptr (.new ⟨centerX, area.xMax, area.yMin, centerY⟩))

/-- The function `QuadTree::split` (quadtree_unique.h:176-196), with `ins` for the calls
`newTree.insert(element)`; the result is the state of `*this` after `swap(*this, newTree)`. -/
def splitWith [Add T] [Div T] [OfNat T 2]
    (ins : QuadTree T S → S → Outcome (Bool × QuadTree T S)) (t : QuadTree T S) :
    Outcome (QuadTree T S) :=
  reinsert ins (splitTree t.area) t.elements

/-- The function `QuadTree::insert` (quadtree_unique.h:141-162).  `fuel` bounds the depth of
nested calls of `insert`; the result is the returned `bool` and the state of `*this` after
the call. -/
def QuadTree.insert [Boundable S T] [Add T] [Div T] [OfNat T 2] :
    Nat → QuadTree T S → S → Outcome (Bool × QuadTree T S)
  | 0, _, _ => .outOfFuel
  | fuel + 1, t, shape =>
    if !t.canContain shape then .done (false, t)
    else if t.isLeaf then
      if t.elements.length ≤ MAX_OBJ then .done (true, t.push_back shape)
      else (splitWith (QuadTree.insert fuel) t).bind fun t' =>
        insertChildren (QuadTree.insert fuel) t' shape
    else insertChildren (QuadTree.insert fuel) t shape

/-- The function `QuadTree::split` (quadtree_unique.h:176-196) as `insert` calls it with
`fuel` left for the nested calls. -/
def QuadTree.split [Boundable S T] [Add T] [Div T] [OfNat T 2] (fuel : Nat)
    (t : QuadTree T S) : Outcome (QuadTree T S) :=
  splitWith (QuadTree.insert fuel) t

/-- The driver loop `for(...) qTree.insert(tri);` (quadtree.cpp:47-57,
river_functions.h:101-103): the shapes are inserted one after another, each call with depth
bound `fuel`, and the values `insert` returns are dropped. -/
def insertAll [Boundable S T] [Add T] [Div T] [OfNat T 2] (fuel : Nat) :
    QuadTree T S → List S → Outcome (QuadTree T S)
  | t, [] => .done t
  | t, shape :: rest => (t.insert fuel shape).bind fun r => insertAll fuel r.2 rest

/-- The data members of `class QuadTree::cpoint_iterator` (quadtree_unique.h:122-125).
`x` and `y` are `none` while uninitialised, `node` is `none` for `nullptr`, and `it`, `stop`
(the member `end`) are positions in `node->elements`, `none` when value-initialised.  Two
`node` pointers are compared through the nodes they point at, which is exact whenever one of
them is null. -/
structure cpoint_iterator (T S : Type) where
  x : Option T
  y : Option T
  node : Option (QuadTree T S)
  it : Option Nat
  stop : Option Nat
  deriving DecidableEq, Repr

/-- The function `QuadTree::end`, that is `cpoint_iterator() : node(nullptr)`
(quadtree_unique.h:67-69, 111). -/
def QuadTree.end : cpoint_iterator T S :=
  ⟨none, none, none, none, none⟩

namespace cpoint_iterator

/-- The operator `cpoint_iterator::operator!=` (quadtree_unique.h:238-247). -/
def ne [DecidableEq T] [DecidableEq S] (c rhs : cpoint_iterator T S) : Bool :=
  if c.node ≠ rhs.node then true
  else if c.it ≠ rhs.it then true
  else false

/-- The operator `cpoint_iterator::operator==` (quadtree_unique.h:117). -/
def eq [DecidableEq T] [DecidableEq S] (c rhs : cpoint_iterator T S) : Bool :=
  !(c.ne rhs)

/-- The operator `cpoint_iterator::operator*` (quadtree_unique.h:113): `*it`, defined when
`it` points at an element of `node->elements`. -/
def deref (c : cpoint_iterator T S) : Outcome S :=
  match c.node, c.it with
  | some n, some i =>
    match n.elements.get? i with
    | some shape => .done shape
    | none => .undefined
  | _, _ => .undefined

/-- The loop `for(auto& child : node->children)` of `nextNode`
(quadtree_unique.h:229-236) over the children that are left: the first child that covers
the point becomes the current node; when none does, the cursor is left as it is. -/
def nextNodeLoop [LinearOrder T] (c : cpoint_iterator T S) (x y : T) :
    List (Node T S) → Outcome (cpoint_iterator T S)
  | [] => .done c
  | .null :: _ => .undefined
  | .ptr child :: rest =>
    if child.coversPoint x y then
      .done { c with node := some child, it := some 0, stop := some child.elements.length }
    else nextNodeLoop c x y rest

/-- The function `cpoint_iterator::nextNode` (quadtree_unique.h:218-237), without the line
it prints. -/
def nextNode [LinearOrder T] (c : cpoint_iterator T S) : Outcome (cpoint_iterator T S) :=
  match c.node with
  | none => .undefined
  | some (.mk a es c0 c1 c2 c3) =>
    if (QuadTree.mk a es c0 c1 c2 c3).isLeaf then .done { c with node := none, it := none }
    else
      match c.x, c.y with
      | some x, some y => nextNodeLoop c x y [c0, c1, c2, c3]
      | _, _ => .undefined

/-- The loop `while(it == end && node != nullptr) nextNode();` of `operator++`
(quadtree_unique.h:203-205), run for at most `fuel` rounds. -/
def skipExhausted [LinearOrder T] : Nat → cpoint_iterator T S → Outcome (cpoint_iterator T S)
  | 0, c => if c.it = c.stop ∧ c.node.isSome then .outOfFuel else .done c
  | fuel + 1, c =>
    if c.it = c.stop ∧ c.node.isSome then (nextNode c).bind (skipExhausted fuel) else .done c

/-- The operator `cpoint_iterator::operator++()` (quadtree_unique.h:198-207); `++it` needs
an iterator into a vector. -/
def incr [LinearOrder T] (fuel : Nat) (c : cpoint_iterator T S) :
    Outcome (cpoint_iterator T S) :=
  match c.it with
  | none => .undefined
  | some i => skipExhausted fuel { c with it := some (i + 1) }

end cpoint_iterator

/-- The cursor of a query at `(x, y)` that stands on the element at index `i` of `node`:
`it = node->elements.begin() + i` and `end = node->elements.end()`. -/
def cpoint_iterator.on (x y : T) (node : QuadTree T S) (i : Nat) : cpoint_iterator T S :=
  ⟨some x, some y, some node, some i, some node.elements.length⟩

/-- The function `QuadTree::beginAt` (quadtree_unique.h:63-65), that is the constructor
`cpoint_iterator(T x, T y, const QuadTree<T,S>& tree)` (quadtree_unique.h:250-264). -/
def QuadTree.beginAt [LinearOrder T] (tree : QuadTree T S) (x y : T) :
    Outcome (cpoint_iterator T S) :=
  if !tree.coversPoint x y then .done ⟨some x, some y, none, none, none⟩
  else
    let c : cpoint_iterator T S :=
      ⟨some x, some y, some tree, some 0, some tree.elements.length⟩
    if c.it = c.stop then c.nextNode else .done c

/-- The query loop of the drivers, `while(it != end) { ... *it ...; ++it; }`
(quadtree.cpp:59-64, and `std::count_if(first, last, ...)` in river_functions.h:113-117):
the shapes it reads, in order.  `fuel` bounds both the number of rounds and the rounds of the
loop inside each `++it`. -/
def drain [LinearOrder T] [DecidableEq S] :
    Nat → cpoint_iterator T S → Outcome (List S)
  | 0, c => if c.ne QuadTree.end then .outOfFuel else .done []
  | fuel + 1, c =>
    if c.ne QuadTree.end then
      c.deref.bind fun shape => (c.incr fuel).bind fun c' =>
        (drain fuel c').bind fun out => .done (shape :: out)
    else .done []

/-- A whole point query as the drivers run it: `beginAt(x, y)`, then the query loop up to
`end()`. -/
def QuadTree.query [LinearOrder T] [DecidableEq S] (fuel : Nat) (tree : QuadTree T S)
    (x y : T) : Outcome (List S) :=
  (tree.beginAt x y).bind (drain fuel)

end Defs

/-! ## The shapes of the test driver (`quadtree.cpp`) -/

/-- The struct `Point` (quadtree.cpp:12-15), with exact coordinates. -/
structure Point where
  x : ℚ
  y : ℚ
  z : ℚ
  deriving DecidableEq, Repr

/-- The struct `Triangle` (quadtree.cpp:17-20). -/
structure Triangle where
  p0 : Point
  p1 : Point
  p2 : Point
  deriving DecidableEq, Repr

/-- The member `points` as a list. -/
def Triangle.points (shape : Triangle) : List Point :=
  [shape.p0, shape.p1, shape.p2]

/-- The overload `bool within(const Triangle& shape, const Rect<double>& r)`
(quadtree.cpp:22-30). -/
def Triangle.within (shape : Triangle) (r : Rect ℚ) : Bool :=
  shape.points.all fun p =>
    !(decide (p.x < r.xMin) || decide (p.x > r.xMax) ||
      decide (p.y < r.yMin) || decide (p.y > r.yMax))

instance : Boundable Triangle ℚ := ⟨Triangle.within⟩

/-- A triangle whose three corners are the point `(x, y, 0)`. -/
def Triangle.at (x y : ℚ) : Triangle :=
  ⟨⟨x, y, 0⟩, ⟨x, y, 0⟩, ⟨x, y, 0⟩⟩

/-! ## Sample trees -/

/-- The area `[0, 10] × [0, 10]` of the tree the test driver builds (quadtree.cpp:46). -/
def sampleArea : Rect ℚ := ⟨0, 10, 0, 10⟩

/-- Eleven point-like triangles spread over the four quadrants of `sampleArea`. -/
def sampleShapes : List Triangle :=
  [.at 1 1, .at 6 6, .at 1 6, .at 6 1, .at 2 2, .at 7 7, .at 2 7, .at 7 2, .at 3 3, .at 8 8,
   .at 3 8]

/-- The leaf that holds `sampleShapes`. -/
def sampleLeaf : QuadTree ℚ Triangle :=
  .mk sampleArea sampleShapes .null .null .null .null

/-- The tree after one more shape, `Triangle.at 8 3`, went into `sampleLeaf`: the root has
been subdivided once. -/
def sampleSplit : QuadTree ℚ Triangle :=
  .mk sampleArea []
    (.ptr (.mk ⟨5, 10, 5, 10⟩ [.at 6 6, .at 7 7, .at 8 8] .null .null .null .null))
    (.ptr (.mk ⟨0, 5, 5, 10⟩ [.at 1 6, .at 2 7, .at 3 8] .null .null .null .null))
    (.ptr (.mk ⟨0, 5, 0, 5⟩ [.at 1 1, .at 2 2, .at 3 3] .null .null .null .null))
    (.ptr (.mk ⟨5, 10, 0, 5⟩ [.at 6 1, .at 7 2, .at 8 3] .null .null .null .null))

/-- A triangle of `sampleArea` that spans its centre: it fits the area and none of its
quadrants. -/
def wideTriangle : Triangle :=
  ⟨⟨1, 1, 0⟩, ⟨9, 1, 0⟩, ⟨5, 9, 0⟩⟩

/-- The tree after `wideTriangle` went into `sampleLeaf`: the root has been subdivided and
keeps `wideTriangle` among its own elements. -/
def sampleOverflow : QuadTree ℚ Triangle :=
  .mk sampleArea [wideTriangle]
    (.ptr (.mk ⟨5, 10, 5, 10⟩ [.at 6 6, .at 7 7, .at 8 8] .null .null .null .null))
    (.ptr (.mk ⟨0, 5, 5, 10⟩ [.at 1 6, .at 2 7, .at 3 8] .null .null .null .null))
    (.ptr (.mk ⟨0, 5, 0, 5⟩ [.at 1 1, .at 2 2, .at 3 3] .null .null .null .null))
    (.ptr (.mk ⟨5, 10, 0, 5⟩ [.at 6 1, .at 7 2] .null .null .null .null))

/-- The tree after `Triangle.at 5 7`, a point of the line between the two upper quadrants,
went into `sampleOverflow`: `children[0]` holds it. -/
def sampleFirstFit : QuadTree ℚ Triangle :=
  .mk sampleArea [wideTriangle]
    (.ptr (.mk ⟨5, 10, 5, 10⟩ [.at 6 6, .at 7 7, .at 8 8, .at 5 7] .null .null .null .null))
    (.ptr (.mk ⟨0, 5, 5, 10⟩ [.at 1 6, .at 2 7, .at 3 8] .null .null .null .null))
    (.ptr (.mk ⟨0, 5, 0, 5⟩ [.at 1 1, .at 2 2, .at 3 3] .null .null .null .null))
    (.ptr (.mk ⟨5, 10, 0, 5⟩ [.at 6 1, .at 7 2] .null .null .null .null))

/-- Twelve point-like triangles of the upper left quadrant `[0, 5] × [5, 10]` of
`sampleArea`. -/
def deepShapes : List Triangle :=
  [.at 1 9, .at 1 6, .at 3 6, .at 2 6, .at 4 6, .at 1 7, .at 3 7, .at 2 7, .at 4 7, .at 1 5,
   .at 3 5, .at 2 5]

/-- The leaf over `[0, 5] × [5, 10]` that holds the first eleven of `deepShapes`: the state
of `children[1]` of the root when the twelfth of `deepShapes` reaches it. -/
def deepLeaf : QuadTree ℚ Triangle :=
  .mk ⟨0, 5, 5, 10⟩ (deepShapes.take 11) .null .null .null .null

/-- The subtree over `[0, 5] × [5, 10]` after the twelve `deepShapes` went into an empty
tree over `sampleArea`. -/
def deepChild : QuadTree ℚ Triangle :=
  .mk ⟨0, 5, 5, 10⟩ [.at 1 9]
    (.ptr (.new ⟨5 / 2, 5, 15 / 2, 5⟩))
    (.ptr (.new ⟨0, 5 / 2, 15 / 2, 5⟩))
    (.ptr (.mk ⟨0, 5 / 2, 5, 15 / 2⟩ [.at 1 6, .at 2 6, .at 1 7, .at 2 7, .at 1 5, .at 2 5]
      .null .null .null .null))
    (.ptr (.mk ⟨5 / 2, 5, 5, 15 / 2⟩ [.at 3 6, .at 4 6, .at 3 7, .at 4 7, .at 3 5]
      .null .null .null .null))

/-- The tree after the twelve `deepShapes` went into an empty tree over `sampleArea`. -/
def deepTree : QuadTree ℚ Triangle :=
  .mk sampleArea []
    (.ptr (.new ⟨5, 10, 5, 10⟩))
    (.ptr deepChild)
    (.ptr (.new ⟨0, 5, 0, 5⟩))
    (.ptr (.new ⟨5, 10, 0, 5⟩))

/-- Twelve point-like triangles of the lower left quadrant `[0, 5] × [0, 5]` of
`sampleArea`, three in each of its quadrants. -/
def gridShapes : List Triangle :=
  [.at 1 1, .at 3 3, .at 1 3, .at 3 1, .at 2 2, .at 4 4, .at 2 4, .at 4 2, .at 1 2, .at 3 4,
   .at 1 4, .at 3 2]

/-- The leaf over `[0, 5/2] × [0, 5/2]` of `gridTree`. -/
def gridCell : QuadTree ℚ Triangle :=
  .mk ⟨0, 5 / 2, 0, 5 / 2⟩ [.at 1 1, .at 2 2, .at 1 2] .null .null .null .null

/-- The subtree over `[0, 5] × [0, 5]` of `gridTree`: it holds no element of its own. -/
def gridChild : QuadTree ℚ Triangle :=
  .mk ⟨0, 5, 0, 5⟩ []
    (.ptr (.mk ⟨5 / 2, 5, 5 / 2, 5⟩ [.at 3 3, .at 4 4, .at 3 4] .null .null .null .null))
    (.ptr (.mk ⟨0, 5 / 2, 5 / 2, 5⟩ [.at 1 3, .at 2 4, .at 1 4] .null .null .null .null))
    (.ptr gridCell)
    (.ptr (.mk ⟨5 / 2, 5, 0, 5 / 2⟩ [.at 3 1, .at 4 2, .at 3 2] .null .null .null .null))

/-- The tree after the twelve `gridShapes` went into an empty tree over `sampleArea`. -/
def gridTree : QuadTree ℚ Triangle :=
  .mk sampleArea []
    (.ptr (.new ⟨5, 10, 5, 10⟩))
    (.ptr (.new ⟨0, 5, 5, 10⟩))
    (.ptr gridChild)
    (.ptr (.new ⟨5, 10, 0, 5⟩))

/-! ## Predicates on trees -/

section Predicates

variable {T S : Type}

mutual
/-- All the shapes stored in a tree: the elements of the node, then those of the subtrees
of `children[0]`, ..., `children[3]`. -/
def QuadTree.shapes : QuadTree T S → List S
  | .mk _ es c0 c1 c2 c3 => es ++ (c0.shapes ++ (c1.shapes ++ (c2.shapes ++ c3.shapes)))
/-- All the shapes stored below a child slot. -/
def Node.shapes : Node T S → List S
  | .null => []
  | .ptr t => t.shapes
end

/-- The child slot holds no tree. -/
def Node.isNull : Node T S → Bool
  | .null => true
  | .ptr _ => false

mutual
/-- Every node of the tree has its four child slots all null or all set. -/
def QuadTree.allOrNone : QuadTree T S → Bool
  | .mk _ _ c0 c1 c2 c3 =>
    (c1.isNull == c0.isNull) && (c2.isNull == c0.isNull) && (c3.isNull == c0.isNull) &&
      c0.allOrNone && c1.allOrNone && c2.allOrNone && c3.allOrNone
/-- The same below a child slot. -/
def Node.allOrNone : Node T S → Bool
  | .null => true
  | .ptr t => t.allOrNone
end

mutual
/-- Every element of every node of the tree is `within` the area of its node. -/
def QuadTree.contained [Boundable S T] : QuadTree T S → Bool
  | .mk a es c0 c1 c2 c3 =>
    es.all (fun e => within e a) &&
      c0.contained && c1.contained && c2.contained && c3.contained
/-- The same below a child slot. -/
def Node.contained [Boundable S T] : Node T S → Bool
  | .null => true
  | .ptr t => t.contained
end

/-- The trees a program can build: a freshly constructed tree, and what `insert` and
`clear` leave behind when called on such a tree. -/
inductive Built [Boundable S T] [Add T] [Div T] [OfNat T 2] : QuadTree T S → Prop where
  | new (a : Rect T) : Built (QuadTree.new a)
  | insert {t : QuadTree T S} (fuel : Nat) (shape : S) (b : Bool) (t' : QuadTree T S) :
      Built t → t.insert fuel shape = .done (b, t') → Built t'
  | clear {t : QuadTree T S} : Built t → Built t.clear

/-- The area of the tree a child slot points at. -/
def Node.area? : Node T S → Option (Rect T)
  | .null => none
  | .ptr t => some t.area

/-- The areas of `children[0], ..., children[3]`. -/
def QuadTree.childAreas : QuadTree T S → List (Option (Rect T))
  | .mk _ _ c0 c1 c2 c3 => [c0.area?, c1.area?, c2.area?, c3.area?]

/-- The areas of the four children `split` builds for a node with area `a`. -/
def splitAreas [Add T] [Div T] [OfNat T 2] (a : Rect T) : List (Option (Rect T)) :=
  (splitTree a : QuadTree T Unit).childAreas

/-- What one call `ins t shape` of an insertion routine guarantees when it completes; the
routine is `QuadTree.insert fuel` throughout. -/
structure InsertSpec [Boundable S T] [Add T] [Div T] [OfNat T 2]
    (ins : QuadTree T S → S → Outcome (Bool × QuadTree T S)) : Prop where
  area : ∀ {t shape r}, ins t shape = .done r → r.2.area = t.area
  result : ∀ {t shape r}, ins t shape = .done r →
    r.1 = within shape t.area ∧ (r.1 = false → r.2 = t)
  internal : ∀ {t shape r}, ins t shape = .done r → t.isLeaf = false → r.2.isLeaf = false
  childAreas : ∀ {t shape r}, ins t shape = .done r → t.isLeaf = false →
    r.2.childAreas = t.childAreas
  subdivided : ∀ {t shape r}, ins t shape = .done r → t.isLeaf = true →
    r.2.isLeaf = true ∨ r.2.childAreas = splitAreas t.area
  allOrNone : ∀ {t shape r}, ins t shape = .done r →
    t.allOrNone = true → r.2.allOrNone = true
  contained : ∀ {t shape r}, ins t shape = .done r →
    t.contained = true → r.2.contained = true
  shapes : ∀ {t shape r}, ins t shape = .done r → t.allOrNone = true →
    t.contained = true → r.1 = true →
    (r.2.shapes : Multiset S) = shape ::ₘ (t.shapes : Multiset S)

end Predicates

/-! ## Copies, nodes and calls -/

section Copies

variable {T S : Type}

mutual
/-- The copy constructor of `QuadTree`, which the compiler generates: `area` and `elements`
are copied and each slot of `children` goes through the copy constructor of `Node`. -/
def QuadTree.copy : QuadTree T S → QuadTree T S
  | .mk a es c0 c1 c2 c3 => .mk a es c0.copy c1.copy c2.copy c3.copy
/-- The copy constructor `Node(const Node& rhs)` (quadtree_unique.h:92-97): a null `ptr`
stays null, any other is reset to a new `QuadTree` copied from `*rhs.ptr`. -/
def Node.copy : Node T S → Node T S
  | .null => .null
  | .ptr t => .ptr t.copy
end

mutual
/-- All the nodes of a tree: the root, then the nodes below `children[0]`, ...,
`children[3]`. -/
def QuadTree.nodes : QuadTree T S → List (QuadTree T S)
  | .mk a es c0 c1 c2 c3 =>
    .mk a es c0 c1 c2 c3 :: (c0.nodes ++ (c1.nodes ++ (c2.nodes ++ c3.nodes)))
/-- All the nodes below a child slot. -/
def Node.nodes : Node T S → List (QuadTree T S)
  | .null => []
  | .ptr t => t.nodes
end

/-- The member `children` as the list `children[0], ..., children[3]`. -/
def QuadTree.childList : QuadTree T S → List (Node T S)
  | .mk _ _ c0 c1 c2 c3 => [c0, c1, c2, c3]

/-- The trees a program can reach: as `Built`, and the copies of such trees. -/
inductive Reachable [Boundable S T] [Add T] [Div T] [OfNat T 2] : QuadTree T S → Prop where
  | new (a : Rect T) : Reachable (QuadTree.new a)
  | insert {t : QuadTree T S} (fuel : Nat) (shape : S) (b : Bool) (t' : QuadTree T S) :
      Reachable t → t.insert fuel shape = .done (b, t') → Reachable t'
  | clear {t : QuadTree T S} : Reachable t → Reachable t.clear
  | copy {t : QuadTree T S} : Reachable t → Reachable t.copy

/-- A call that changes a tree: `insert(shape)` or `clear()`. -/
inductive Call (S : Type) where
  | insert (shape : S) : Call S
  | clear : Call S

end Copies

/-! ## Trees in memory -/

section Memory

variable {T S : Type}

/-- The data members of one `QuadTree` object in memory (quadtree_unique.h:76-78): `area`,
`elements`, and for each slot of `children` the address `ptr` holds, `none` for a null
`ptr`. -/
structure Object (T S : Type) where
  area : Rect T
  elements : List S
  c0 : Option Nat
  c1 : Option Nat
  c2 : Option Nat
  c3 : Option Nat
  deriving DecidableEq, Repr

/-- The memory: the `QuadTree` objects created so far, each at its index as address.  A new
object gets an address that was never in use: the address of an object that was destroyed
or released is not used again. -/
abbrev Mem (T S : Type) := List (Object T S)

/-- The pointer `children[i].ptr` of an object. -/
def Object.child (o : Object T S) : Nat → Option Nat
  | 0 => o.c0
  | 1 => o.c1
  | 2 => o.c2
  | _ => o.c3

/-- The function `QuadTree::isLeaf` (quadtree_unique.h:57-58) on an object in memory. -/
def Object.isLeaf (o : Object T S) : Bool :=
  o.c0.isNone

/-- The copy constructor `Node(const Node& rhs)` (quadtree_unique.h:92-97) in memory, with
`cp` for `new QuadTree<T, S>(*rhs.ptr.get())`: a null `ptr` stays null, any other is reset
to the address of the new object. -/
def Mem.copySlot (cp : Mem T S → Nat → Outcome (Mem T S × Nat)) (m : Mem T S) :
    Option Nat → Outcome (Mem T S × Option Nat)
  | none => .done (m, none)
  | some k => (cp m k).bind fun r => .done (r.1, some r.2)

/-- The copy constructor of `Node` on the four slots of `children` of the object `o`, in the
order 0, 1, 2, 3: the memory after the copies and the four new pointers. -/
def Mem.copySlots (cp : Mem T S → Nat → Outcome (Mem T S × Nat)) (m : Mem T S)
    (o : Object T S) :
    Outcome (Mem T S × Option Nat × Option Nat × Option Nat × Option Nat) :=
  (Mem.copySlot cp m o.c0).bind fun r0 =>
  (Mem.copySlot cp r0.1 o.c1).bind fun r1 =>
  (Mem.copySlot cp r1.1 o.c2).bind fun r2 =>
  (Mem.copySlot cp r2.1 o.c3).bind fun r3 =>
  .done (r3.1, r0.2, r1.2, r2.2, r3.2)

/-- The copy constructor of `QuadTree`, which the compiler generates, run on the object at
address `p` to build a new object: `new QuadTree<T, S>(*rhs.ptr.get())`
(quadtree_unique.h:95) and `auto tree2 = qTree;` (quadtree.cpp:58).  The result is the
memory after the call and the address of the new object; `fuel` bounds the depth of the
nested calls. -/
def Mem.copy : Nat → Mem T S → Nat → Outcome (Mem T S × Nat)
  | 0, _, _ => .outOfFuel
  | fuel + 1, m, p =>
    match m[p]? with
    | none => .undefined
    | some o =>
      (Mem.copySlots (Mem.copy fuel) m o).bind fun r =>
      .done (r.1 ++ [⟨o.area, o.elements, r.2.1, r.2.2.1, r.2.2.2.1, r.2.2.2.2⟩],
        r.1.length)

/-- One slot of `children` read as a value, with `rd` to read the tree at an address. -/
def Mem.readSlot (rd : Nat → Outcome (QuadTree T S)) : Option Nat → Outcome (Node T S)
  | none => .done .null
  | some k => (rd k).bind fun t => .done (.ptr t)

/-- The tree the memory holds at address `p`, read through the pointers down to depth
`fuel`. -/
def Mem.read : Nat → Mem T S → Nat → Outcome (QuadTree T S)
  | 0, _, _ => .outOfFuel
  | fuel + 1, m, p =>
    match m[p]? with
    | none => .undefined
    | some o =>
      (Mem.readSlot (Mem.read fuel m) o.c0).bind fun c0 =>
      (Mem.readSlot (Mem.read fuel m) o.c1).bind fun c1 =>
      (Mem.readSlot (Mem.read fuel m) o.c2).bind fun c2 =>
      (Mem.readSlot (Mem.read fuel m) o.c3).bind fun c3 =>
      .done (.mk o.area o.elements c0 c1 c2 c3)

/-- The statement `elements.push_back(shape)` on the object at address `p`. -/
def Mem.push_back (m : Mem T S) (p : Nat) (shape : S) : Outcome (Mem T S) :=
  match m[p]? with
  | none => .undefined
  | some o => .done (m.set p { o with elements := o.elements ++ [shape] })

/-- The tail of `QuadTree::insert` (quadtree_unique.h:155-161) on the object at address
`p`: the loop `for(auto& child : children) if(child.ptr->insert(shape)) return true;` over
the slots that are left, then `elements.push_back(shape); return true;`.  A null `ptr` is
dereferenced. -/
def Mem.insertChildren (ins : Mem T S → Nat → S → Outcome (Bool × Mem T S)) (p : Nat)
    (shape : S) : List Nat → Mem T S → Outcome (Bool × Mem T S)
  | [], m => (Mem.push_back m p shape).bind fun m1 => .done (true, m1)
  | i :: rest, m =>
    match m[p]? with
    | none => .undefined
    | some o =>
      match o.child i with
      | none => .undefined
      | some k =>
        (ins m k shape).bind fun r =>
        if r.1 then .done (true, r.2) else Mem.insertChildren ins p shape rest r.2

/-- The loop `for(auto& element : elements) newTree.insert(element);` of `QuadTree::split`
(quadtree_unique.h:192-194), with `newTree` at address `n`. -/
def Mem.reinsert (ins : Mem T S → Nat → S → Outcome (Bool × Mem T S)) (n : Nat) :
    List S → Mem T S → Outcome (Mem T S)
  | [], m => .done m
  | element :: rest, m => (ins m n element).bind fun r => Mem.reinsert ins n rest r.2

/-- The call `swap(*this, newTree)` of `QuadTree::split` (quadtree_unique.h:195), which is
`std::swap` on the objects at addresses `a` and `b`: `T tmp(std::move(a)); a = std::move(b);
b = std::move(tmp);`.  `Node` declares a copy constructor and `operator=(Node rhs)` and no
move operation, so each step moves `area` and `elements` and copies the four slots of
`children` through the copy constructor of `Node`. -/
def Mem.swap (cp : Mem T S → Nat → Outcome (Mem T S × Nat)) (m : Mem T S) (a b : Nat) :
    Outcome (Mem T S) :=
  match m[a]? with
  | none => .undefined
  | some oa =>
    (Mem.copySlots cp m oa).bind fun rt =>
    match rt.1[b]? with
    | none => .undefined
    | some ob =>
      (Mem.copySlots cp rt.1 ob).bind fun ra =>
      let m1 := ra.1.set a ⟨ob.area, ob.elements, ra.2.1, ra.2.2.1, ra.2.2.2.1, ra.2.2.2.2⟩
      (Mem.copySlots cp m1
        ⟨oa.area, oa.elements, rt.2.1, rt.2.2.1, rt.2.2.2.1, rt.2.2.2.2⟩).bind fun rb =>
      .done (rb.1.set b
        ⟨oa.area, oa.elements, rb.2.1, rb.2.2.1, rb.2.2.2.1, rb.2.2.2.2⟩)

/-- The objects `QuadTree::split` creates before it re-inserts the elements
(quadtree_unique.h:180-190), for a memory whose first unused address is `n`: the local
`newTree` with the area `area` at address `n`, and the four children `new` makes for it at
the addresses `n + 1` to `n + 4`. -/
def Mem.splitObjects [Add T] [Div T] [OfNat T 2] (area : Rect T) (n : Nat) :
    List (Object T S) :=
  let centerX := (area.xMax + area.xMin) / 2
  let centerY := (area.yMax + area.yMin) / 2
  [⟨area, [], some (n + 1), some (n + 2), some (n + 3), some (n + 4)⟩,
   ⟨⟨centerX, area.xMax, centerY, area.xMax⟩, [], none, none, none, none⟩,
   ⟨⟨area.xMin, centerX, centerY, area.xMax⟩, [], none, none, none, none⟩,
   ⟨⟨area.xMin, centerX, area.yMin, centerY⟩, [], none, none, none, none⟩,
   ⟨⟨centerX, area.xMax, area.yMin, centerY⟩, [], none, none, none, none⟩]

/-- The function `QuadTree::split` (quadtree_unique.h:176-196) on the object at address
`p`, with `ins` for `insert` and `cp` for the copy constructor of `QuadTree`: `newTree` and
its four children are created, the elements are re-inserted into `newTree`, and `newTree`
is swapped with `*this`. -/
def Mem.split [Add T] [Div T] [OfNat T 2]
    (ins : Mem T S → Nat → S → Outcome (Bool × Mem T S))
    (cp : Mem T S → Nat → Outcome (Mem T S × Nat)) (m : Mem T S) (p : Nat) :
    Outcome (Mem T S) :=
  match m[p]? with
  | none => .undefined
  | some o =>
    (Mem.reinsert ins m.length o.elements (m ++ Mem.splitObjects o.area m.length)).bind
      fun m2 => Mem.swap cp m2 p m.length

/-- The function `QuadTree::insert` (quadtree_unique.h:141-162) on the object at address
`p`.  `fuel` bounds the depth of the nested calls; the result is the returned `bool` and
the memory after the call. -/
def Mem.insert [Boundable S T] [Add T] [Div T] [OfNat T 2] :
    Nat → Mem T S → Nat → S → Outcome (Bool × Mem T S)
  | 0, _, _, _ => .outOfFuel
  | fuel + 1, m, p, shape =>
    match m[p]? with
    | none => .undefined
    | some o =>
      if !within shape o.area then .done (false, m)
      else if o.isLeaf then
        if o.elements.length ≤ MAX_OBJ then
          (Mem.push_back m p shape).bind fun m1 => .done (true, m1)
        else (Mem.split (Mem.insert fuel) (Mem.copy fuel) m p).bind fun m1 =>
          Mem.insertChildren (Mem.insert fuel) p shape [0, 1, 2, 3] m1
      else Mem.insertChildren (Mem.insert fuel) p shape [0, 1, 2, 3] m

/-- The function `QuadTree::clear` (quadtree_unique.h:132-139) on the object at address
`p`: `release` gives the four children up without destroying them. -/
def Mem.clear (m : Mem T S) (p : Nat) : Outcome (Mem T S) :=
  match m[p]? with
  | none => .undefined
  | some o => .done (m.set p ⟨o.area, [], none, none, none, none⟩)

/-- The effect of one call on the object at address `p`; the value `insert` returns is
dropped, as in the drivers. -/
def Call.runAt [Boundable S T] [Add T] [Div T] [OfNat T 2] (fuel : Nat) (p : Nat) :
    Call S → Mem T S → Outcome (Mem T S)
  | .insert shape, m => (Mem.insert fuel m p shape).bind fun r => .done r.2
  | .clear, m => Mem.clear m p

/-- A sequence of calls made on the object at address `p`, one after another. -/
def Mem.calls [Boundable S T] [Add T] [Div T] [OfNat T 2] (fuel : Nat) (p : Nat) :
    List (Call S) → Mem T S → Outcome (Mem T S)
  | [], m => .done m
  | c :: rest, m => (c.runAt fuel p m).bind fun m1 => Mem.calls fuel p rest m1

/-- A whole point query against the tree object at address `p`: `beginAt(x, y)`, then the
query loop up to `end()`.  The cursor reads `area`, `elements` and `children` of the
objects it reaches from `p` and nothing else, so the query is the query against the tree
the memory holds at `p`. -/
def Mem.query [LinearOrder T] [DecidableEq S] (fuel : Nat) (m : Mem T S) (p : Nat)
    (x y : T) : Outcome (List S) :=
  (Mem.read fuel m p).bind fun tree => tree.query fuel x y

/-- Every pointer in the memory holds the address of an object of the memory. -/
def Mem.closed (m : Mem T S) : Bool :=
  m.all fun o => [o.c0, o.c1, o.c2, o.c3].all fun c => c.all fun k => decide (k < m.length)

/-- No slot of `children` of the object points into the set `R` of addresses. -/
@[reducible] def Object.avoids (R : Nat → Prop) (o : Object T S) : Prop :=
  ∀ i k, o.child i = some k → ¬ R k

/-- No object outside the set `R` of addresses points into `R`. -/
@[reducible] def Mem.avoids (R : Nat → Prop) (m : Mem T S) : Prop :=
  ∀ q o, ¬ R q → m[q]? = some o → o.avoids R

/-- The addresses of `R` are in use, and no object outside `R` points into `R`. -/
@[reducible] def Mem.Guards (R : Nat → Prop) (m : Mem T S) : Prop :=
  (∀ q, R q → q < m.length) ∧ Mem.avoids R m

/-- The memory `m1` comes after `m` and leaves the objects at the addresses of `R` as they
are, with no pointer into `R` from outside. -/
@[reducible] def Mem.Keeps (R : Nat → Prop) (m m1 : Mem T S) : Prop :=
  (∀ q, R q → m1[q]? = m[q]?) ∧ m.length ≤ m1.length ∧ Mem.Guards R m1

/-- The memory `m1` comes after `m`: it has the objects of `m` as they are, and maybe more
objects. -/
@[reducible] def Mem.Extends (m m1 : Mem T S) : Prop :=
  (∀ q, q < m.length → m1[q]? = m[q]?) ∧ m.length ≤ m1.length

end Memory

/-- The tree `sampleOverflow` in memory: the root at address 0, its children at the
addresses 1 to 4. -/
def sampleMem : Mem ℚ Triangle :=
  [⟨sampleArea, [wideTriangle], some 1, some 2, some 3, some 4⟩,
   ⟨⟨5, 10, 5, 10⟩, [.at 6 6, .at 7 7, .at 8 8], none, none, none, none⟩,
   ⟨⟨0, 5, 5, 10⟩, [.at 1 6, .at 2 7, .at 3 8], none, none, none, none⟩,
   ⟨⟨0, 5, 0, 5⟩, [.at 1 1, .at 2 2, .at 3 3], none, none, none, none⟩,
   ⟨⟨5, 10, 0, 5⟩, [.at 6 1, .at 7 2], none, none, none, none⟩]

/-- The memory after `Mem.copy` ran on the object at address 0 of `sampleMem`: the copies
of the four children at the addresses 5 to 8, the copy of the root at address 9. -/
def sampleCopied : Mem ℚ Triangle :=
  sampleMem ++
  [⟨⟨5, 10, 5, 10⟩, [.at 6 6, .at 7 7, .at 8 8], none, none, none, none⟩,
   ⟨⟨0, 5, 5, 10⟩, [.at 1 6, .at 2 7, .at 3 8], none, none, none, none⟩,
   ⟨⟨0, 5, 0, 5⟩, [.at 1 1, .at 2 2, .at 3 3], none, none, none, none⟩,
   ⟨⟨5, 10, 0, 5⟩, [.at 6 1, .at 7 2], none, none, none, none⟩,
   ⟨sampleArea, [wideTriangle], some 5, some 6, some 7, some 8⟩]

/-- A memory in which two objects share their children: `sampleMem` and, at address 5, an
object whose four pointers hold the addresses 1 to 4 as those of the object at address 0
do.  The copy constructor does not build such a memory. -/
def sharedMem : Mem ℚ Triangle :=
  sampleMem ++ [⟨sampleArea, [wideTriangle], some 1, some 2, some 3, some 4⟩]


/-! ## Invariants of the nodes -/

section Invariants

variable {T S : Type}

mutual
/-- Every element of every node of the tree is `within` the area of its node and `within`
each of the areas `above`, which stand for the areas of the ancestors of the root of this
tree. -/
def QuadTree.containedUnder [Boundable S T] (above : List (Rect T)) : QuadTree T S → Bool
  | .mk a es c0 c1 c2 c3 =>
    es.all (fun e => within e a && above.all (fun r => within e r)) &&
      c0.containedUnder (a :: above) && c1.containedUnder (a :: above) &&
      c2.containedUnder (a :: above) && c3.containedUnder (a :: above)
/-- The same below a child slot. -/
def Node.containedUnder [Boundable S T] (above : List (Rect T)) : Node T S → Bool
  | .null => true
  | .ptr t => t.containedUnder above
end

/-- The child slot holds no tree whose area the shape is `within`. -/
def Node.refuses [Boundable S T] (shape : S) : Node T S → Bool
  | .null => true
  | .ptr t => !within shape t.area

mutual
/-- Every element that an internal node of the tree holds itself is `within` the area of
none of the four children of that node. -/
def QuadTree.overflowOnly [Boundable S T] : QuadTree T S → Bool
  | .mk a es c0 c1 c2 c3 =>
    ((QuadTree.mk a es c0 c1 c2 c3).isLeaf ||
      es.all (fun e => c0.refuses e && c1.refuses e && c2.refuses e && c3.refuses e)) &&
      c0.overflowOnly && c1.overflowOnly && c2.overflowOnly && c3.overflowOnly
/-- The same below a child slot. -/
def Node.overflowOnly [Boundable S T] : Node T S → Bool
  | .null => true
  | .ptr t => t.overflowOnly
end

mutual
/-- Every leaf of the tree holds at most `MAX_OBJ + 1` elements. -/
def QuadTree.leafCapacity : QuadTree T S → Bool
  | .mk a es c0 c1 c2 c3 =>
    (!(QuadTree.mk a es c0 c1 c2 c3).isLeaf || decide (es.length ≤ MAX_OBJ + 1)) &&
      c0.leafCapacity && c1.leafCapacity && c2.leafCapacity && c3.leafCapacity
/-- The same below a child slot. -/
def Node.leafCapacity : Node T S → Bool
  | .null => true
  | .ptr t => t.leafCapacity
end

end Invariants

/-! ## Leaves and coincident points -/

/-- A leaf with area `a` that holds the elements `es`: the state of a node whose four
`children` are null. -/
def QuadTree.leaf {T S : Type} (a : Rect T) (es : List S) : QuadTree T S :=
  .mk a es .null .null .null .null

/-- The point-like triangle at `(1, 1)`. -/
def clusterPoint : Triangle := Triangle.at 1 1

/-- The leaf over the square `[lo, hi] × [lo, hi]` that holds eleven copies of
`clusterPoint`. -/
def clusterLeafAt (lo hi : ℚ) : QuadTree ℚ Triangle :=
  .leaf ⟨lo, hi, lo, hi⟩ (List.replicate 11 clusterPoint)

/-- The tree over `sampleArea` after eleven inserts of `clusterPoint`. -/
def clusterLeaf : QuadTree ℚ Triangle := clusterLeafAt 0 10

/-! ## Basic facts -/

section Basic

variable {T S : Type}

theorem Outcome.bind_eq_done {α β : Type} {o : Outcome α} {f : α → Outcome β} {b : β} :
    o.bind f = .done b ↔ ∃ a, o = .done a ∧ f a = .done b := by
  cases o <;> simp [Outcome.bind]

theorem Node.insertWith_eq_done {ins : QuadTree T S → S → Outcome (Bool × QuadTree T S)}
    {c : Node T S} {shape : S} {r : Bool × Node T S}
    (h : c.insertWith ins shape = .done r) :
    ∃ t t', c = .ptr t ∧ ins t shape = .done (r.1, t') ∧ r.2 = .ptr t' := by
  cases c with
  | null => simp [Node.insertWith] at h
  | ptr t =>
    simp only [Node.insertWith, Outcome.bind_eq_done] at h
    obtain ⟨⟨b, t'⟩, h1, h2⟩ := h
    cases h2
    exact ⟨t, t', rfl, h1, rfl⟩

theorem QuadTree.isLeaf_mk (a : Rect T) (es : List S) (c0 c1 c2 c3 : Node T S) :
    (QuadTree.mk a es c0 c1 c2 c3).isLeaf = c0.isNull := by
  cases c0 <;> rfl

theorem QuadTree.shapes_mk (a : Rect T) (es : List S) (c0 c1 c2 c3 : Node T S) :
    ((QuadTree.mk a es c0 c1 c2 c3).shapes : Multiset S) =
      (es : Multiset S) + (c0.shapes + (c1.shapes + (c2.shapes + c3.shapes))) := by
  simp [QuadTree.shapes]

/-- A leaf all of whose child slots agree has its own elements as only shapes. -/
theorem QuadTree.shapes_of_isLeaf {t : QuadTree T S} (hl : t.isLeaf = true)
    (hq : t.allOrNone = true) : t.shapes = t.elements := by
  obtain ⟨a, es, c0, c1, c2, c3⟩ := t
  cases c0 <;> cases c1 <;> cases c2 <;> cases c3 <;>
    simp_all [QuadTree.isLeaf, QuadTree.allOrNone, Node.isNull, QuadTree.shapes, Node.shapes,
      QuadTree.elements]

theorem QuadTree.clear_eq_new (t : QuadTree T S) : t.clear = QuadTree.new t.area := by
  obtain ⟨a, es, c0, c1, c2, c3⟩ := t
  rfl

/-- An internal node whose child slots agree has four children. -/
theorem QuadTree.four_children {t : QuadTree T S} (hq : t.allOrNone = true)
    (hl : t.isLeaf = false) :
    ∃ es k0 k1 k2 k3, t = .mk t.area es (.ptr k0) (.ptr k1) (.ptr k2) (.ptr k3) := by
  obtain ⟨a, es, c0, c1, c2, c3⟩ := t
  cases c0 <;> cases c1 <;> cases c2 <;> cases c3 <;>
    simp_all [QuadTree.isLeaf, QuadTree.allOrNone, Node.isNull, QuadTree.area]

theorem cpoint_iterator.deref_of_lt {t : QuadTree T S} (px py : Option T)
    (stop : Option Nat) {i : Nat} (h : i < t.elements.length) :
    (⟨px, py, some t, some i, stop⟩ : cpoint_iterator T S).deref =
      .done t.elements[i] := by
  simp [cpoint_iterator.deref, List.getElem?_eq_getElem h]

/-- Inversion of the child loop of `insert`: the children are tried in order, the first one
that accepts the shape ends the loop, and when none accepts the shape joins `elements`. -/
theorem insertChildren_eq_done {ins : QuadTree T S → S → Outcome (Bool × QuadTree T S)}
    {a : Rect T} {es : List S} {c0 c1 c2 c3 : Node T S} {shape : S}
    {r : Bool × QuadTree T S}
    (h : insertChildren ins (.mk a es c0 c1 c2 c3) shape = .done r) :
    ∃ r0, c0.insertWith ins shape = .done r0 ∧
      ((r0.1 = true ∧ r = (true, .mk a es r0.2 c1 c2 c3)) ∨
       (r0.1 = false ∧ ∃ r1, c1.insertWith ins shape = .done r1 ∧
        ((r1.1 = true ∧ r = (true, .mk a es r0.2 r1.2 c2 c3)) ∨
         (r1.1 = false ∧ ∃ r2, c2.insertWith ins shape = .done r2 ∧
          ((r2.1 = true ∧ r = (true, .mk a es r0.2 r1.2 r2.2 c3)) ∨
           (r2.1 = false ∧ ∃ r3, c3.insertWith ins shape = .done r3 ∧
            ((r3.1 = true ∧ r = (true, .mk a es r0.2 r1.2 r2.2 r3.2)) ∨
             (r3.1 = false ∧
               r = (true, .mk a (es ++ [shape]) r0.2 r1.2 r2.2 r3.2))))))))) := by
  simp only [insertChildren] at h
  rw [Outcome.bind_eq_done] at h
  obtain ⟨r0, h0, h⟩ := h
  refine ⟨r0, h0, ?_⟩
  by_cases b0 : r0.1 = true
  · rw [if_pos b0] at h
    exact Or.inl ⟨b0, (Outcome.done.inj h).symm⟩
  rw [if_neg b0, Outcome.bind_eq_done] at h
  obtain ⟨r1, h1, h⟩ := h
  refine Or.inr ⟨by simpa using b0, r1, h1, ?_⟩
  by_cases b1 : r1.1 = true
  · rw [if_pos b1] at h
    exact Or.inl ⟨b1, (Outcome.done.inj h).symm⟩
  rw [if_neg b1, Outcome.bind_eq_done] at h
  obtain ⟨r2, h2, h⟩ := h
  refine Or.inr ⟨by simpa using b1, r2, h2, ?_⟩
  by_cases b2 : r2.1 = true
  · rw [if_pos b2] at h
    exact Or.inl ⟨b2, (Outcome.done.inj h).symm⟩
  rw [if_neg b2, Outcome.bind_eq_done] at h
  obtain ⟨r3, h3, h⟩ := h
  refine Or.inr ⟨by simpa using b2, r3, h3, ?_⟩
  by_cases b3 : r3.1 = true
  · rw [if_pos b3] at h
    exact Or.inl ⟨b3, (Outcome.done.inj h).symm⟩
  rw [if_neg b3] at h
  exact Or.inr ⟨by simpa using b3, (Outcome.done.inj h).symm⟩

/-- Whenever the child loop of `insert` completes, the call returns `true`. -/
theorem insertChildren_fst {ins : QuadTree T S → S → Outcome (Bool × QuadTree T S)}
    {t : QuadTree T S} {shape : S} {r : Bool × QuadTree T S}
    (h : insertChildren ins t shape = .done r) : r.1 = true := by
  obtain ⟨a, es, c0, c1, c2, c3⟩ := t
  obtain ⟨r0, -, ⟨-, rfl⟩ | ⟨-, r1, -, ⟨-, rfl⟩ | ⟨-, r2, -, ⟨-, rfl⟩ |
    ⟨-, r3, -, ⟨-, rfl⟩ | ⟨-, rfl⟩⟩⟩⟩⟩ := insertChildren_eq_done h <;> rfl

end Basic

/-! ## Elements and areas -/

section Elements

variable {T S : Type} [Boundable S T]

theorem QuadTree.contained_elements {t : QuadTree T S} (hk : t.contained = true) :
    ∀ e ∈ t.elements, within e t.area = true := by
  obtain ⟨a, es, c0, c1, c2, c3⟩ := t
  simp only [QuadTree.contained, Bool.and_eq_true, List.all_eq_true] at hk
  exact hk.1.1.1.1

theorem QuadTree.push_back_facts (t : QuadTree T S) (shape : S) :
    (t.push_back shape).area = t.area ∧ (t.push_back shape).isLeaf = t.isLeaf ∧
    (t.push_back shape).allOrNone = t.allOrNone ∧
    (within shape t.area = true → t.contained = true →
      (t.push_back shape).contained = true) ∧
    ((t.push_back shape).shapes : Multiset S) = shape ::ₘ (t.shapes : Multiset S) := by
  obtain ⟨a, es, c0, c1, c2, c3⟩ := t
  refine ⟨rfl, ?_, ?_, ?_, ?_⟩
  · simp [QuadTree.push_back, QuadTree.isLeaf_mk]
  · simp [QuadTree.push_back, QuadTree.allOrNone]
  · intro hw
    have hw' : within shape a = true := hw
    simp only [QuadTree.push_back, QuadTree.contained, Bool.and_eq_true, List.all_eq_true]
    rintro ⟨⟨⟨⟨q, k0⟩, k1⟩, k2⟩, k3⟩
    refine ⟨⟨⟨⟨?_, k0⟩, k1⟩, k2⟩, k3⟩
    intro x hx
    rcases List.mem_append.mp hx with hx | hx
    · exact q x hx
    · rw [List.mem_singleton.mp hx]; exact hw'
  · rw [QuadTree.push_back, QuadTree.shapes_mk, QuadTree.shapes_mk, ← Multiset.coe_add es,
      ← Multiset.singleton_add, ← Multiset.coe_singleton]
    abel

end Elements

/-! ## What `insert` preserves -/

section Preservation

variable {T S : Type} [Boundable S T] [Add T] [Div T] [OfNat T 2]

/-- Inversion of one call of `insert` with `fuel + 1`. -/
theorem QuadTree.insert_succ (fuel : Nat)
    (t : QuadTree T S) (shape : S) :
    t.insert (fuel + 1) shape =
      if !t.canContain shape then .done (false, t)
      else if t.isLeaf then
        if t.elements.length ≤ MAX_OBJ then .done (true, t.push_back shape)
        else (splitWith (QuadTree.insert fuel) t).bind fun t' =>
          insertChildren (QuadTree.insert fuel) t' shape
      else insertChildren (QuadTree.insert fuel) t shape := rfl

/-- A call of `insert` that completes returns whether the shape fits the area, and a call
that returns `false` leaves the tree as it was. -/
theorem QuadTree.insert_result {fuel : Nat}
    {t : QuadTree T S} {shape : S} {r : Bool × QuadTree T S}
    (h : t.insert fuel shape = .done r) :
    r.1 = within shape t.area ∧ (r.1 = false → r.2 = t) := by
  cases fuel with
  | zero => simp [QuadTree.insert] at h
  | succ fuel =>
    rw [QuadTree.insert_succ] at h
    by_cases hc : t.canContain shape = true
    · have hw : within shape t.area = true := hc
      simp only [hc, Bool.not_true, Bool.false_eq_true, if_false] at h
      have h1 : r.1 = true := by
        split at h
        · split at h
          · cases h; rfl
          · obtain ⟨t', -, h⟩ := Outcome.bind_eq_done.mp h
            exact insertChildren_fst h
        · exact insertChildren_fst h
      exact ⟨by rw [h1, hw], fun hf => by rw [h1] at hf; cases hf⟩
    · have hc' : t.canContain shape = false := by simpa using hc
      have hw : within shape t.area = false := hc'
      simp only [hc', Bool.not_false, if_true] at h
      cases h
      exact ⟨hw.symm, fun _ => rfl⟩

/-- What the call `child.ptr->insert(shape)` on a child slot guarantees. -/
theorem Node.insertWith_spec {ins : QuadTree T S → S → Outcome (Bool × QuadTree T S)}
    (hins : InsertSpec ins) {c : Node T S} {shape : S} {r : Bool × Node T S}
    (h : c.insertWith ins shape = .done r) :
    c.isNull = false ∧ r.2.isNull = false ∧ r.2.area? = c.area? ∧
    (r.1 = false → r.2 = c) ∧
    (c.allOrNone = true → r.2.allOrNone = true) ∧
    (c.contained = true → r.2.contained = true) ∧
    (c.allOrNone = true → c.contained = true → r.1 = true →
      (r.2.shapes : Multiset S) = shape ::ₘ (c.shapes : Multiset S)) := by
  obtain ⟨t, t', rfl, h1, h2⟩ := Node.insertWith_eq_done h
  obtain ⟨b, c'⟩ := r
  simp only at h1 h2
  subst h2
  refine ⟨rfl, rfl, ?_, ?_, ?_, ?_, ?_⟩
  · simpa [Node.area?] using hins.area h1
  · intro hb
    have := (hins.result h1).2 hb
    simp only at this
    rw [this]
  · simpa [Node.allOrNone] using hins.allOrNone h1
  · simpa [Node.contained] using hins.contained h1
  · simpa [Node.allOrNone, Node.contained, Node.shapes] using hins.shapes h1

/-- What the child loop of `insert` guarantees when it completes. -/
theorem insertChildren_spec {ins : QuadTree T S → S → Outcome (Bool × QuadTree T S)}
    (hins : InsertSpec ins) {t : QuadTree T S} {shape : S} {r : Bool × QuadTree T S}
    (h : insertChildren ins t shape = .done r) :
    r.2.area = t.area ∧ t.isLeaf = false ∧ r.2.isLeaf = false ∧
    r.2.childAreas = t.childAreas ∧
    (t.allOrNone = true → r.2.allOrNone = true) ∧
    (within shape t.area = true → t.contained = true → r.2.contained = true) ∧
    (t.allOrNone = true → t.contained = true →
      (r.2.shapes : Multiset S) = shape ::ₘ (t.shapes : Multiset S)) := by
  obtain ⟨a, es, c0, c1, c2, c3⟩ := t
  obtain ⟨r0, h0, hrest⟩ := insertChildren_eq_done h
  obtain ⟨n0, n0', g0, u0, a0, k0, p0⟩ := Node.insertWith_spec hins h0
  have hleaf : (QuadTree.mk a es c0 c1 c2 c3).isLeaf = false := by
    rw [QuadTree.isLeaf_mk]; exact n0
  rcases hrest with ⟨b0, rfl⟩ | ⟨b0, r1, h1, hrest⟩
  · refine ⟨rfl, hleaf, by rw [QuadTree.isLeaf_mk]; exact n0', ?_, ?_, ?_, ?_⟩
    · simp_all [QuadTree.childAreas]
    · simp only [QuadTree.allOrNone, Bool.and_eq_true, beq_iff_eq]
      rintro ⟨⟨⟨⟨⟨⟨f1, f2⟩, f3⟩, q0⟩, q1⟩, q2⟩, q3⟩
      simp_all
    · simp only [QuadTree.contained, Bool.and_eq_true]
      rintro hw ⟨⟨⟨⟨q, k0'⟩, k1'⟩, k2'⟩, k3'⟩
      simp_all
    · simp only [QuadTree.allOrNone, QuadTree.contained, Bool.and_eq_true, beq_iff_eq]
      rintro ⟨⟨⟨⟨⟨⟨f1, f2⟩, f3⟩, q0⟩, q1⟩, q2⟩, q3⟩
        ⟨⟨⟨⟨q, k0'⟩, k1'⟩, k2'⟩, k3'⟩
      rw [QuadTree.shapes_mk, QuadTree.shapes_mk, p0 q0 k0' b0]
      simp only [← Multiset.singleton_add]
      abel
  obtain ⟨n1, n1', g1, u1, a1, k1, p1⟩ := Node.insertWith_spec hins h1
  rcases hrest with ⟨b1, rfl⟩ | ⟨b1, r2, h2, hrest⟩
  · have e0 := u0 b0
    refine ⟨rfl, hleaf, by rw [QuadTree.isLeaf_mk]; exact n0', ?_, ?_, ?_, ?_⟩
    · simp_all [QuadTree.childAreas]
    · simp only [QuadTree.allOrNone, Bool.and_eq_true, beq_iff_eq]
      rintro ⟨⟨⟨⟨⟨⟨f1, f2⟩, f3⟩, q0⟩, q1⟩, q2⟩, q3⟩
      simp_all
    · simp only [QuadTree.contained, Bool.and_eq_true]
      rintro hw ⟨⟨⟨⟨q, k0'⟩, k1'⟩, k2'⟩, k3'⟩
      simp_all
    · simp only [QuadTree.allOrNone, QuadTree.contained, Bool.and_eq_true, beq_iff_eq]
      rintro ⟨⟨⟨⟨⟨⟨f1, f2⟩, f3⟩, q0⟩, q1⟩, q2⟩, q3⟩
        ⟨⟨⟨⟨q, k0'⟩, k1'⟩, k2'⟩, k3'⟩
      rw [QuadTree.shapes_mk, QuadTree.shapes_mk, e0, p1 q1 k1' b1]
      simp only [← Multiset.singleton_add]
      abel
  obtain ⟨n2, n2', g2, u2, a2, k2, p2⟩ := Node.insertWith_spec hins h2
  rcases hrest with ⟨b2, rfl⟩ | ⟨b2, r3, h3, hrest⟩
  · have e0 := u0 b0
    have e1 := u1 b1
    refine ⟨rfl, hleaf, by rw [QuadTree.isLeaf_mk]; exact n0', ?_, ?_, ?_, ?_⟩
    · simp_all [QuadTree.childAreas]
    · simp only [QuadTree.allOrNone, Bool.and_eq_true, beq_iff_eq]
      rintro ⟨⟨⟨⟨⟨⟨f1, f2⟩, f3⟩, q0⟩, q1⟩, q2⟩, q3⟩
      simp_all
    · simp only [QuadTree.contained, Bool.and_eq_true]
      rintro hw ⟨⟨⟨⟨q, k0'⟩, k1'⟩, k2'⟩, k3'⟩
      simp_all
    · simp only [QuadTree.allOrNone, QuadTree.contained, Bool.and_eq_true, beq_iff_eq]
      rintro ⟨⟨⟨⟨⟨⟨f1, f2⟩, f3⟩, q0⟩, q1⟩, q2⟩, q3⟩
        ⟨⟨⟨⟨q, k0'⟩, k1'⟩, k2'⟩, k3'⟩
      rw [QuadTree.shapes_mk, QuadTree.shapes_mk, e0, e1, p2 q2 k2' b2]
      simp only [← Multiset.singleton_add]
      abel
  obtain ⟨n3, n3', g3, u3, a3, k3, p3⟩ := Node.insertWith_spec hins h3
  rcases hrest with ⟨b3, rfl⟩ | ⟨b3, rfl⟩
  · have e0 := u0 b0
    have e1 := u1 b1
    have e2 := u2 b2
    refine ⟨rfl, hleaf, by rw [QuadTree.isLeaf_mk]; exact n0', ?_, ?_, ?_, ?_⟩
    · simp_all [QuadTree.childAreas]
    · simp only [QuadTree.allOrNone, Bool.and_eq_true, beq_iff_eq]
      rintro ⟨⟨⟨⟨⟨⟨f1, f2⟩, f3⟩, q0⟩, q1⟩, q2⟩, q3⟩
      simp_all
    · simp only [QuadTree.contained, Bool.and_eq_true]
      rintro hw ⟨⟨⟨⟨q, k0'⟩, k1'⟩, k2'⟩, k3'⟩
      simp_all
    · simp only [QuadTree.allOrNone, QuadTree.contained, Bool.and_eq_true, beq_iff_eq]
      rintro ⟨⟨⟨⟨⟨⟨f1, f2⟩, f3⟩, q0⟩, q1⟩, q2⟩, q3⟩
        ⟨⟨⟨⟨q, k0'⟩, k1'⟩, k2'⟩, k3'⟩
      rw [QuadTree.shapes_mk, QuadTree.shapes_mk, e0, e1, e2, p3 q3 k3' b3]
      simp only [← Multiset.singleton_add]
      abel
  · have e0 := u0 b0
    have e1 := u1 b1
    have e2 := u2 b2
    have e3 := u3 b3
    refine ⟨rfl, hleaf, by rw [QuadTree.isLeaf_mk]; exact n0', ?_, ?_, ?_, ?_⟩
    · simp_all [QuadTree.childAreas]
    · simp only [QuadTree.allOrNone, Bool.and_eq_true, beq_iff_eq]
      rintro ⟨⟨⟨⟨⟨⟨f1, f2⟩, f3⟩, q0⟩, q1⟩, q2⟩, q3⟩
      simp_all
    · simp only [QuadTree.contained, Bool.and_eq_true]
      rintro hw ⟨⟨⟨⟨q, k0'⟩, k1'⟩, k2'⟩, k3'⟩
      have hw' : within shape a = true := hw
      simp_all
    · simp only [QuadTree.allOrNone, QuadTree.contained, Bool.and_eq_true, beq_iff_eq]
      rintro ⟨⟨⟨⟨⟨⟨f1, f2⟩, f3⟩, q0⟩, q1⟩, q2⟩, q3⟩
        ⟨⟨⟨⟨q, k0'⟩, k1'⟩, k2'⟩, k3'⟩
      rw [QuadTree.shapes_mk, QuadTree.shapes_mk, e0, e1, e2, e3,
        ← Multiset.coe_add es, ← Multiset.singleton_add, ← Multiset.coe_singleton]
      abel

/-- What the re-insertion loop of `split` guarantees when it completes. -/
theorem reinsert_spec {ins : QuadTree T S → S → Outcome (Bool × QuadTree T S)}
    (hins : InsertSpec ins) {es : List S} {t t1 : QuadTree T S}
    (h : reinsert ins t es = .done t1) :
    t1.area = t.area ∧ (t.isLeaf = false → t1.isLeaf = false) ∧
    (t.isLeaf = false → t1.childAreas = t.childAreas) ∧
    (t.allOrNone = true → t1.allOrNone = true) ∧
    (t.contained = true → t1.contained = true) ∧
    (t.allOrNone = true → t.contained = true → (∀ e ∈ es, within e t.area = true) →
      (t1.shapes : Multiset S) = (es : Multiset S) + (t.shapes : Multiset S)) := by
  induction es generalizing t with
  | nil =>
    simp only [reinsert, Outcome.done.injEq] at h
    subst h
    simp
  | cons e es ih =>
    simp only [reinsert, Outcome.bind_eq_done] at h
    obtain ⟨r, h1, h2⟩ := h
    obtain ⟨i1, i2, i6, i3, i4, i5⟩ := ih h2
    have ha := hins.area h1
    refine ⟨i1.trans ha, fun hl => i2 (hins.internal h1 hl),
      fun hl => (i6 (hins.internal h1 hl)).trans (hins.childAreas h1 hl),
      fun hq => i3 (hins.allOrNone h1 hq), fun hk => i4 (hins.contained h1 hk), ?_⟩
    intro hq hk hall
    have he : within e t.area = true := hall e (List.mem_cons_self _ _)
    have hr : r.1 = true := by rw [(hins.result h1).1, he]
    rw [i5 (hins.allOrNone h1 hq) (hins.contained h1 hk)
      (fun x hx => by rw [ha]; exact hall x (List.mem_cons_of_mem _ hx)),
      hins.shapes h1 hq hk hr, ← Multiset.cons_coe, ← Multiset.singleton_add,
      ← Multiset.singleton_add]
    abel

theorem splitTree_facts (a : Rect T) :
    (splitTree a : QuadTree T S).area = a ∧ (splitTree a : QuadTree T S).isLeaf = false ∧
    (splitTree a : QuadTree T S).allOrNone = true ∧
    (splitTree a : QuadTree T S).contained = true ∧
    (splitTree a : QuadTree T S).shapes = [] ∧
    (splitTree a : QuadTree T S).childAreas = splitAreas a := by
  simp [splitTree, QuadTree.new, QuadTree.area, QuadTree.isLeaf, QuadTree.allOrNone,
    Node.allOrNone, Node.isNull, QuadTree.contained, Node.contained, QuadTree.shapes,
    Node.shapes, splitAreas, QuadTree.childAreas, Node.area?]

/-- One more level of calls keeps the guarantees of `insert`. -/
theorem QuadTree.insert_succ_spec {fuel : Nat}
    (hins : InsertSpec (QuadTree.insert fuel : QuadTree T S → S → _))
    {t : QuadTree T S} {shape : S} {r : Bool × QuadTree T S}
    (h : t.insert (fuel + 1) shape = .done r) :
    r.2.area = t.area ∧ (t.isLeaf = false → r.2.isLeaf = false) ∧
    (t.isLeaf = false → r.2.childAreas = t.childAreas) ∧
    (t.isLeaf = true → r.2.isLeaf = true ∨ r.2.childAreas = splitAreas t.area) ∧
    (t.allOrNone = true → r.2.allOrNone = true) ∧
    (t.contained = true → r.2.contained = true) ∧
    (t.allOrNone = true → t.contained = true → r.1 = true →
      (r.2.shapes : Multiset S) = shape ::ₘ (t.shapes : Multiset S)) := by
  rw [QuadTree.insert_succ] at h
  by_cases hc : t.canContain shape = true
  · have hw : within shape t.area = true := hc
    simp only [hc, Bool.not_true, Bool.false_eq_true, if_false] at h
    by_cases hl : t.isLeaf = true
    · simp only [hl, if_true] at h
      by_cases hn : t.elements.length ≤ MAX_OBJ
      · simp only [hn, if_true, Outcome.done.injEq] at h
        subst h
        obtain ⟨p1, p2, p3, p4, p5⟩ := t.push_back_facts shape
        refine ⟨p1, fun hf => ?_, fun hf => ?_, fun _ => Or.inl (p2.trans hl),
          fun hq => ?_, p4 hw, fun _ _ _ => p5⟩
        · rw [hl] at hf; cases hf
        · rw [hl] at hf; cases hf
        · rw [p3]; exact hq
      · simp only [hn, if_false, Outcome.bind_eq_done] at h
        obtain ⟨t1, h1, h2⟩ := h
        obtain ⟨s1, s2, s3, s4, s5, s6⟩ := splitTree_facts (S := S) t.area
        obtain ⟨i1, i2, i6, i3, i4, i5⟩ := reinsert_spec hins h1
        obtain ⟨j1, j2, j3, j7, j4, j5, j6⟩ := insertChildren_spec hins h2
        rw [s1] at i1
        have hw1 : within shape t1.area = true := by rw [i1]; exact hw
        refine ⟨j1.trans i1, fun _ => j3, fun hf => ?_,
          fun _ => Or.inr (j7.trans ((i6 s2).trans s6)), fun _ => j4 (i3 s3),
          fun _ => j5 hw1 (i4 s4), ?_⟩
        · rw [hl] at hf; cases hf
        intro hq hk _
        have hall : ∀ e ∈ t.elements,
            within e (splitTree t.area : QuadTree T S).area = true := by
          rw [s1]; exact t.contained_elements hk
        rw [j6 (i3 s3) (i4 s4), i5 s3 s4 hall, s5, QuadTree.shapes_of_isLeaf hl hq]
        simp
    · simp only [hl, if_false] at h
      obtain ⟨j1, j2, j3, j7, j4, j5, j6⟩ := insertChildren_spec hins h
      refine ⟨j1, fun _ => j3, fun _ => j7, fun hf => ?_, j4, j5 hw, fun hq hk _ => j6 hq hk⟩
      rw [hf] at hl; exact absurd rfl hl
  · have hc' : t.canContain shape = false := by simpa using hc
    simp only [hc', Bool.not_false, if_true, Outcome.done.injEq] at h
    subst h
    refine ⟨rfl, id, fun _ => rfl, Or.inl, id, id, fun _ _ hf => ?_⟩
    cases hf

/-- The guarantees of `insert` hold for every bound on the depth of its calls. -/
theorem QuadTree.insert_spec (fuel : Nat) :
    InsertSpec (QuadTree.insert fuel : QuadTree T S → S → _) := by
  induction fuel with
  | zero =>
    constructor <;> intro t shape r h <;> simp [QuadTree.insert] at h
  | succ fuel ih =>
    constructor
    · intro t shape r h; exact (QuadTree.insert_succ_spec ih h).1
    · intro t shape r h; exact QuadTree.insert_result h
    · intro t shape r h; exact (QuadTree.insert_succ_spec ih h).2.1
    · intro t shape r h; exact (QuadTree.insert_succ_spec ih h).2.2.1
    · intro t shape r h; exact (QuadTree.insert_succ_spec ih h).2.2.2.1
    · intro t shape r h; exact (QuadTree.insert_succ_spec ih h).2.2.2.2.1
    · intro t shape r h; exact (QuadTree.insert_succ_spec ih h).2.2.2.2.2.1
    · intro t shape r h; exact (QuadTree.insert_succ_spec ih h).2.2.2.2.2.2

end Preservation

/-! ## Trees built by `insert` and `clear` -/

section BuiltTrees

variable {T S : Type} [Boundable S T] [Add T] [Div T] [OfNat T 2]

/-- Every tree a program can build has its child slots all null or all set in every node,
and every element within the area of its node. -/
theorem Built.invariant {t : QuadTree T S} (hb : Built t) :
    t.allOrNone = true ∧ t.contained = true := by
  induction hb with
  | new a =>
    simp [QuadTree.new, QuadTree.allOrNone, QuadTree.contained, Node.allOrNone,
      Node.contained, Node.isNull]
  | insert fuel shape b t' _ h ih =>
    exact ⟨(QuadTree.insert_spec fuel).allOrNone h ih.1,
      (QuadTree.insert_spec fuel).contained h ih.2⟩
  | @clear t _ _ =>
    obtain ⟨a, es, c0, c1, c2, c3⟩ := t
    simp [QuadTree.clear, QuadTree.allOrNone, QuadTree.contained, Node.allOrNone,
      Node.contained, Node.isNull]

/-- The children of a subdivided root of a tree a program can build have the areas `split`
gave them. -/
theorem Built.childAreas {t : QuadTree T S} (hb : Built t) (hl : t.isLeaf = false) :
    t.childAreas = splitAreas t.area := by
  induction hb with
  | new a => simp [QuadTree.new, QuadTree.isLeaf] at hl
  | @insert t fuel shape b t' _ h ih =>
    have spec := QuadTree.insert_spec (T := T) (S := S) fuel
    have ha : t'.area = t.area := spec.area h
    by_cases hl0 : t.isLeaf = true
    · rcases spec.subdivided h hl0 with h1 | h1
      · have h1' : t'.isLeaf = true := h1
        rw [hl] at h1'; cases h1'
      · have h1' : t'.childAreas = splitAreas t.area := h1
        rw [h1', ha]
    · have hl1 : t.isLeaf = false := by simpa using hl0
      have h1 : t'.childAreas = t.childAreas := spec.childAreas h hl1
      rw [h1, ha]; exact ih hl1
  | @clear t _ _ =>
    obtain ⟨a, es, c0, c1, c2, c3⟩ := t
    simp [QuadTree.clear, QuadTree.isLeaf] at hl

/-- A run of inserts keeps the area of the root. -/
theorem insertAll_area {fuel : Nat} {shapes : List S} {t t' : QuadTree T S}
    (h : insertAll fuel t shapes = .done t') : t'.area = t.area := by
  induction shapes generalizing t with
  | nil =>
    simp only [insertAll, Outcome.done.injEq] at h
    rw [h]
  | cons e es ih =>
    simp only [insertAll, Outcome.bind_eq_done] at h
    obtain ⟨r, h1, h2⟩ := h
    exact (ih h2).trans ((QuadTree.insert_spec fuel).area h1)

/-- A run of inserts on a tree a program can build gives such a tree. -/
theorem Built.insertAll (fuel : Nat) (shapes : List S) {t t' : QuadTree T S}
    (hb : Built t) (h : insertAll fuel t shapes = .done t') : Built t' := by
  induction shapes generalizing t with
  | nil =>
    simp only [tree.insertAll, Outcome.done.injEq] at h
    rw [← h]; exact hb
  | cons e es ih =>
    simp only [tree.insertAll, Outcome.bind_eq_done] at h
    obtain ⟨r, h1, h2⟩ := h
    exact ih (Built.insert fuel e r.1 r.2 hb h1) h2

/-- Inserting fitting shapes into a leaf that has room for them appends them, in order. -/
theorem insertAll_leaf (a : Rect T) (fuel : Nat) (shapes : List S) :
    ∀ es : List S, es.length + shapes.length ≤ MAX_OBJ + 1 →
      (∀ s ∈ shapes, within s a = true) →
      insertAll (fuel + 1) (QuadTree.mk a es .null .null .null .null) shapes =
        .done (.mk a (es ++ shapes) .null .null .null .null) := by
  induction shapes with
  | nil => intro es _ _; simp [insertAll]
  | cons e rest ih =>
    intro es hlen hfit
    have he : within e a = true := hfit e (List.mem_cons_self _ _)
    have hn : es.length ≤ MAX_OBJ := by
      simp only [List.length_cons] at hlen; omega
    have h1 : (QuadTree.mk a es .null .null .null .null : QuadTree T S).insert (fuel + 1) e =
        .done (true, .mk a (es ++ [e]) .null .null .null .null) := by
      simp [QuadTree.insert_succ, QuadTree.canContain, QuadTree.area, he, QuadTree.isLeaf,
        QuadTree.elements, hn, QuadTree.push_back]
    simp only [insertAll, h1, Outcome.bind]
    rw [ih (es ++ [e]) (by simp only [List.length_append, List.length_cons,
      List.length_nil] at hlen ⊢; omega) (fun s hs => hfit s (List.mem_cons_of_mem _ hs))]
    simp

theorem sampleLeaf_built : Built sampleLeaf :=
  Built.insertAll 1 sampleShapes (Built.new sampleArea) (by decide!)

theorem sampleOverflow_built : Built sampleOverflow :=
  Built.insertAll 3 (sampleShapes ++ [wideTriangle]) (Built.new sampleArea) (by decide!)

end BuiltTrees

/-! ## Cursors on the elements of one node -/

section Cursors

variable {T S : Type} [LinearOrder T]

theorem cpoint_iterator.nextNode_leaf {c : cpoint_iterator T S} {t : QuadTree T S}
    (hn : c.node = some t) (hl : t.isLeaf = true) :
    c.nextNode = .done { c with node := none, it := none } := by
  obtain ⟨a, es, c0, c1, c2, c3⟩ := t
  simp only [cpoint_iterator.nextNode, hn, hl, if_true]

theorem cpoint_iterator.skipExhausted_of_ne {c : cpoint_iterator T S} (h : c.it ≠ c.stop)
    (fuel : Nat) : c.skipExhausted fuel = .done c := by
  cases fuel <;> simp [cpoint_iterator.skipExhausted, h]

theorem cpoint_iterator.skipExhausted_of_null {c : cpoint_iterator T S} (h : c.node = none)
    (fuel : Nat) : c.skipExhausted fuel = .done c := by
  cases fuel <;> simp [cpoint_iterator.skipExhausted, h]

/-- On the own elements of a node, `++` from an element that is not the last one moves to
the next element. -/
theorem cpoint_iterator.incr_on (x y : T) (t : QuadTree T S) (i fuel : Nat)
    (h : i + 1 < t.elements.length) :
    (cpoint_iterator.on x y t i).incr fuel = .done (cpoint_iterator.on x y t (i + 1)) := by
  simp only [cpoint_iterator.incr, cpoint_iterator.on]
  exact cpoint_iterator.skipExhausted_of_ne (by simp; omega) fuel

/-- On a leaf, `++` from the element at index `i` moves to the next element, and from the
last element to a cursor with a null node. -/
theorem cpoint_iterator.incr_leaf {t : QuadTree T S} (hl : t.isLeaf = true)
    (px py : Option T) (i fuel : Nat) :
    (⟨px, py, some t, some i, some t.elements.length⟩ : cpoint_iterator T S).incr
        (fuel + 1) =
      if i + 1 = t.elements.length then
        .done ⟨px, py, none, none, some t.elements.length⟩
      else .done ⟨px, py, some t, some (i + 1), some t.elements.length⟩ := by
  simp only [cpoint_iterator.incr]
  by_cases h : i + 1 = t.elements.length
  · rw [if_pos h]
    simp only [cpoint_iterator.skipExhausted, h, Option.isSome_some, and_self, if_true]
    rw [cpoint_iterator.nextNode_leaf rfl hl]
    simp only [Outcome.bind]
    exact cpoint_iterator.skipExhausted_of_null rfl fuel
  · rw [if_neg h]
    exact cpoint_iterator.skipExhausted_of_ne (by simpa using h) (fuel + 1)

/-- When `nextNode` leaves an exhausted cursor as it is, the loop of `operator++` never
ends. -/
theorem cpoint_iterator.skipExhausted_stuck {c : cpoint_iterator T S} (hi : c.it = c.stop)
    (hn : c.node.isSome = true) (hnext : c.nextNode = .done c) (fuel : Nat) :
    c.skipExhausted fuel = .outOfFuel := by
  induction fuel with
  | zero => simp [cpoint_iterator.skipExhausted, hi, hn]
  | succ fuel ih => simp [cpoint_iterator.skipExhausted, hi, hn, hnext, Outcome.bind, ih]

end Cursors

/-! ## The query loop -/

section QueryLoop

variable {T S : Type} [LinearOrder T] [DecidableEq S]

theorem drain_of_end {c : cpoint_iterator T S} (hn : c.node = none)
    (hi : c.it = none) (fuel : Nat) : drain fuel c = .done [] := by
  cases fuel <;> simp [drain, cpoint_iterator.ne, QuadTree.end, hn, hi]

/-- The query loop started on the element at index `i` of a leaf reads the elements from
`i` on and stops. -/
theorem drain_leaf {t : QuadTree T S} (hl : t.isLeaf = true)
    (px py : Option T) (k : Nat) :
    ∀ i n, i + (k + 1) = t.elements.length →
      drain (n + k + 2) (⟨px, py, some t, some i, some t.elements.length⟩ :
        cpoint_iterator T S) = .done (t.elements.drop i) := by
  induction k with
  | zero =>
    intro i n hi
    have hlt : i < t.elements.length := by omega
    have hd : t.elements.drop i = [t.elements[i]] := by
      rw [List.drop_eq_getElem_cons hlt, List.drop_of_length_le (by omega)]
    rw [show n + 0 + 2 = (n + 1) + 1 from rfl, drain]
    simp only [cpoint_iterator.ne, QuadTree.end]
    simp only [ne_eq, reduceCtorEq, not_false_eq_true, if_true]
    rw [cpoint_iterator.incr_leaf hl, if_pos (by omega),
      cpoint_iterator.deref_of_lt _ _ _ hlt, hd]
    simp only [Outcome.bind]
    rw [drain_of_end rfl rfl]
  | succ k ih =>
    intro i n hi
    have hlt : i < t.elements.length := by omega
    have hd : t.elements.drop i = t.elements[i] :: t.elements.drop (i + 1) :=
      List.drop_eq_getElem_cons hlt
    have e : n + (k + 1) + 2 = (n + k + 2) + 1 := by omega
    rw [e, drain]
    simp only [cpoint_iterator.ne, QuadTree.end]
    simp only [ne_eq, reduceCtorEq, not_false_eq_true, if_true]
    rw [show n + k + 2 = (n + k + 1) + 1 from rfl, cpoint_iterator.incr_leaf hl,
      if_neg (by omega)]
    simp only [Outcome.bind]
    rw [show n + k + 1 + 1 = n + k + 2 from rfl, ih (i + 1) n (by omega),
      cpoint_iterator.deref_of_lt _ _ _ hlt, hd]

/-- A point query on a leaf whose area covers the point strictly reads the elements of the
leaf, in order, and stops. -/
theorem QuadTree.query_leaf {t : QuadTree T S} (hl : t.isLeaf = true)
    {x y : T} (hc : t.coversPoint x y = true) (n : Nat) :
    t.query (n + t.elements.length + 1) x y = .done t.elements := by
  simp only [QuadTree.query, QuadTree.beginAt, hc, Bool.not_true, Bool.false_eq_true,
    if_false]
  by_cases he : t.elements.length = 0
  · have he' : t.elements = [] := List.length_eq_zero.mp he
    simp only [he, if_true]
    rw [cpoint_iterator.nextNode_leaf rfl hl]
    simp only [Outcome.bind]
    rw [drain_of_end rfl rfl, he']
  · have hne : (some 0 : Option Nat) ≠ some t.elements.length := by
      simp; omega
    simp only [hne, if_false, Outcome.bind]
    obtain ⟨k, hk⟩ : ∃ k, t.elements.length = k + 1 := ⟨t.elements.length - 1, by omega⟩
    have := drain_leaf hl (some x) (some y) k 0 n (by omega)
    rw [List.drop_zero] at this
    rw [← this]
    have e : n + t.elements.length + 1 = n + k + 2 := by omega
    rw [e]

/-- A query on a tree without element and without child is over at once, wherever the
point lies. -/
theorem QuadTree.beginAt_new (a : Rect T) (x y : T) :
    ∃ c, (QuadTree.new a : QuadTree T S).beginAt x y = .done c ∧
      c.eq QuadTree.end = true := by
  by_cases hc : (QuadTree.new a : QuadTree T S).coversPoint x y = true
  · refine ⟨⟨some x, some y, none, none, some 0⟩, ?_, ?_⟩
    · simp only [QuadTree.beginAt, hc, Bool.not_true, Bool.false_eq_true, if_false]
      simp [QuadTree.new, QuadTree.elements, cpoint_iterator.nextNode, QuadTree.isLeaf]
    · simp [cpoint_iterator.eq, cpoint_iterator.ne, QuadTree.end]
  · refine ⟨⟨some x, some y, none, none, none⟩, ?_, ?_⟩
    · simp [QuadTree.beginAt, hc]
    · simp [cpoint_iterator.eq, cpoint_iterator.ne, QuadTree.end]

/-- The query loop does not end when `++` does not return on its first element. -/
theorem drain_of_incr_stuck {c : cpoint_iterator T S} {shape : S}
    (hne : c.ne QuadTree.end = true) (hderef : c.deref = .done shape)
    (hincr : ∀ fuel, c.incr fuel = .outOfFuel) (fuel : Nat) :
    drain fuel c = .outOfFuel := by
  cases fuel with
  | zero => simp [drain, hne]
  | succ fuel => simp only [drain, hne, if_true, hincr, hderef, Outcome.bind]

end QueryLoop

/-! ## The areas of the children -/

section ChildAreas

variable {T S : Type} [LinearOrder T] [Add T] [Div T] [OfNat T 2]

/-- None of the four children `split` builds covers a point of a midline of the parent. -/
theorem splitAreas_not_cover (a : Rect T) (x y : T)
    (hmid : x = (a.xMax + a.xMin) / 2 ∨ y = (a.yMax + a.yMin) / 2)
    {k0 k1 k2 k3 : QuadTree T S}
    (h : [some k0.area, some k1.area, some k2.area, some k3.area] = splitAreas a) :
    k0.coversPoint x y = false ∧ k1.coversPoint x y = false ∧
    k2.coversPoint x y = false ∧ k3.coversPoint x y = false := by
  have hs : splitAreas a =
      [some ⟨(a.xMax + a.xMin) / 2, a.xMax, (a.yMax + a.yMin) / 2, a.xMax⟩,
       some ⟨a.xMin, (a.xMax + a.xMin) / 2, (a.yMax + a.yMin) / 2, a.xMax⟩,
       some ⟨a.xMin, (a.xMax + a.xMin) / 2, a.yMin, (a.yMax + a.yMin) / 2⟩,
       some ⟨(a.xMax + a.xMin) / 2, a.xMax, a.yMin, (a.yMax + a.yMin) / 2⟩] := rfl
  rw [hs] at h
  simp only [List.cons.injEq, Option.some.injEq, and_true] at h
  obtain ⟨h0, h1, h2, h3⟩ := h
  simp only [QuadTree.coversPoint, h0, h1, h2, h3]
  rcases hmid with hx | hy
  · subst hx; simp
  · subst hy; simp

end ChildAreas

/-! ## C1: `insert` fails exactly on shapes that do not fit -/

section C1

variable {T S : Type} [Boundable S T] [Add T] [Div T] [OfNat T 2]

/-- Claim C1.  For every tree (in particular every tree built from an empty tree by inserts
and clears) and every shape: a shape that does not fit the root area makes `insert` return
`false` at once, and whenever `insert` returns, it returns `false` exactly when
`within(shape, area)` is false, and then the tree it leaves is the tree before the call. -/
theorem insert_false_iff_not_within (t : QuadTree T S) (shape : S) :
    (within shape t.area = false → ∀ fuel, t.insert (fuel + 1) shape = .done (false, t)) ∧
    (∀ fuel b t', t.insert fuel shape = .done (b, t') →
      ((b = false ↔ within shape t.area = false) ∧ (b = false → t' = t))) := by
  constructor
  · intro hw fuel
    have hc : t.canContain shape = false := hw
    simp [QuadTree.insert_succ, hc]
  · intro fuel b t' h
    obtain ⟨h1, h2⟩ := QuadTree.insert_result h
    exact ⟨by rw [← h1], h2⟩

/-- Witness for C1: a triangle at `(-1, -1)` is refused by the tree over `[0, 10] × [0, 10]`,
which stays as it was. -/
theorem insert_false_iff_not_within_witness :
    within (Triangle.at (-1) (-1)) sampleSplit.area = false ∧
    sampleSplit.insert 1 (Triangle.at (-1) (-1)) = .done (false, sampleSplit) ∧
    ((false = false ↔ within (Triangle.at (-1) (-1)) sampleSplit.area = false) ∧
      (false = false → sampleSplit = sampleSplit)) :=
  ⟨by decide!,
   (insert_false_iff_not_within sampleSplit (Triangle.at (-1) (-1))).1 (by decide!) 0,
   (insert_false_iff_not_within sampleSplit (Triangle.at (-1) (-1))).2 1 false sampleSplit
     (by decide!)⟩

end C1

/-! ## C2: `insert` conserves the stored shapes -/

section C2

variable {T S : Type} [Boundable S T] [Add T] [Div T] [OfNat T 2]

/-- Claim C2.  Conservation: for every tree built from an empty tree by inserts (and clears)
and every shape that fits the root area, whenever `insert` returns it returns `true` and the
multiset of the shapes stored anywhere in the tree is the multiset before the call plus that
one shape, so the number of stored shapes rises by exactly one; this covers the calls that
subdivide nodes. -/
theorem insert_conserves_shapes (t : QuadTree T S) (hb : Built t) (shape : S)
    (hfit : within shape t.area = true) (fuel : Nat) (b : Bool) (t' : QuadTree T S)
    (h : t.insert fuel shape = .done (b, t')) :
    b = true ∧ (t'.shapes : Multiset S) = shape ::ₘ (t.shapes : Multiset S) ∧
    t'.shapes.length = t.shapes.length + 1 := by
  have hb1 : b = true := by
    have := (QuadTree.insert_result h).1
    simp only at this
    rw [this, hfit]
  have hs := (QuadTree.insert_spec fuel).shapes h hb.invariant.1 hb.invariant.2 hb1
  simp only at hs
  refine ⟨hb1, hs, ?_⟩
  have := congrArg Multiset.card hs
  simpa using this

/-- Witness for C2: the twelfth insert into the test area subdivides the root and conserves
the twelve shapes. -/
theorem insert_conserves_shapes_witness :
    sampleLeaf.insert 3 (Triangle.at 8 3) = .done (true, sampleSplit) ∧
    (sampleSplit.shapes : Multiset Triangle) =
      Triangle.at 8 3 ::ₘ (sampleLeaf.shapes : Multiset Triangle) ∧
    sampleSplit.shapes.length = sampleLeaf.shapes.length + 1 :=
  ⟨by decide!,
   (insert_conserves_shapes sampleLeaf sampleLeaf_built (Triangle.at 8 3) (by decide!) 3 true
      sampleSplit (by decide!)).2⟩

end C2

/-! ## C3: the sequence a point query yields -/

section C3

/-- Claim C3 fails on the code.  The twelve `gridShapes` go into an empty tree over
`[0, 10] × [0, 10]`; the root and its child over `[0, 5] × [0, 5]` are subdivided and hold
no element of their own.  The point `(1, 1)` lies strictly inside the root and on no
subdivision line; the nodes that cover it are the root, that child and the leaf `gridCell`,
which holds three shapes.  The constructor of the cursor calls `nextNode` once, not while
the current node is exhausted: `beginAt(1, 1)` stands on the child, with `it == end`, and
differs from `end()`, so the first `*it` of the query reads no element, where the claim
says the query yields the three shapes of `gridCell`.

The same claim fails on `deepTree` at `(1, 9)`, strictly inside and on no subdivision line:
the query reads one element and then `++` never returns, because no child of the node over
`[0, 5] × [5, 10]` covers the point and `nextNode` leaves the cursor as it is. -/
theorem query_does_not_yield_path :
    insertAll 4 (QuadTree.new sampleArea) gridShapes = .done gridTree ∧
    gridTree.coversPoint 1 1 = true ∧ gridChild.coversPoint 1 1 = true ∧
    gridCell.coversPoint 1 1 = true ∧
    gridTree.elements ++ gridChild.elements ++ gridCell.elements =
      [Triangle.at 1 1, Triangle.at 2 2, Triangle.at 1 2] ∧
    gridTree.beginAt 1 1 = .done (cpoint_iterator.on 1 1 gridChild 0) ∧
    (cpoint_iterator.on 1 1 gridChild 0).ne QuadTree.end = true ∧
    (cpoint_iterator.on 1 1 gridChild 0).deref = .undefined ∧
    (∀ fuel, gridTree.query (fuel + 1) 1 1 = .undefined) ∧
    insertAll 4 (QuadTree.new sampleArea) deepShapes = .done deepTree ∧
    deepTree.beginAt 1 9 = .done (cpoint_iterator.on 1 9 deepChild 0) ∧
    (cpoint_iterator.on 1 9 deepChild 0).deref = .done (Triangle.at 1 9) ∧
    (cpoint_iterator.on 1 9 deepChild 1).nextNode =
      .done (cpoint_iterator.on 1 9 deepChild 1) ∧
    (∀ fuel, (cpoint_iterator.on 1 9 deepChild 0).incr fuel = .outOfFuel) ∧
    (∀ fuel, deepTree.query fuel 1 9 = .outOfFuel) := by
  have gbegin : gridTree.beginAt 1 1 = .done (cpoint_iterator.on 1 1 gridChild 0) := by
    decide!
  have gne : (cpoint_iterator.on 1 1 gridChild 0).ne QuadTree.end = true := by decide!
  have gderef : (cpoint_iterator.on 1 1 gridChild 0).deref = .undefined := by decide!
  have hnext : (cpoint_iterator.on 1 9 deepChild 1).nextNode =
      .done (cpoint_iterator.on 1 9 deepChild 1) := by decide!
  have hincr : ∀ fuel, (cpoint_iterator.on 1 9 deepChild 0).incr fuel = .outOfFuel :=
    fun fuel => cpoint_iterator.skipExhausted_stuck (c := cpoint_iterator.on 1 9 deepChild 1)
      rfl rfl hnext fuel
  have hbegin : deepTree.beginAt 1 9 = .done (cpoint_iterator.on 1 9 deepChild 0) := by
    decide!
  have hderef : (cpoint_iterator.on 1 9 deepChild 0).deref = .done (Triangle.at 1 9) := by
    decide!
  refine ⟨by decide!, by decide!, by decide!, by decide!, by decide!, gbegin, gne, gderef,
    fun fuel => ?_, by decide!, hbegin, hderef, hnext, hincr, fun fuel => ?_⟩
  · simp only [QuadTree.query, gbegin, Outcome.bind, drain, gne, if_true, gderef]
  · simp only [QuadTree.query, hbegin, Outcome.bind]
    exact drain_of_incr_stuck (by decide!) hderef hincr fuel

end C3

/-! ## C4: `clear` -/

section C4

variable {T S : Type} [Boundable S T] [LinearOrder T] [Add T] [Div T] [OfNat T 2]
  [DecidableEq S]

/-- Claim C4.  For every tree and every sequence of inserts into it that leaves the tree
`t'`: after `clear()` the tree is a leaf, the root holds no element and has the area the
tree had before the inserts, and for every point, covered by the root or not, `beginAt`
returns a cursor that equals `end()`. -/
theorem clear_resets_tree (t : QuadTree T S) (shapes : List S) (fuel : Nat)
    (t' : QuadTree T S) (h : insertAll fuel t shapes = .done t') :
    t'.clear.isLeaf = true ∧ t'.clear.elements = [] ∧ t'.clear.area = t'.area ∧
    t'.clear.area = t.area ∧
    ∀ x y : T, ∃ c, t'.clear.beginAt x y = .done c ∧ c.eq QuadTree.end = true := by
  have ha := insertAll_area h
  rw [QuadTree.clear_eq_new]
  refine ⟨rfl, rfl, rfl, ha, fun x y => QuadTree.beginAt_new t'.area x y⟩

/-- Witness for C4: the twelve sample shapes go into an empty tree, which is then
cleared. -/
theorem clear_resets_tree_witness :
    insertAll 3 (QuadTree.new sampleArea) (sampleShapes ++ [Triangle.at 8 3]) =
      .done sampleSplit ∧
    sampleSplit.clear.isLeaf = true ∧ sampleSplit.clear.elements = [] ∧
    sampleSplit.clear.area = sampleSplit.area ∧ sampleSplit.clear.area = sampleArea ∧
    ∀ x y : ℚ, ∃ c, sampleSplit.clear.beginAt x y = .done c ∧ c.eq QuadTree.end = true :=
  ⟨by decide!,
   clear_resets_tree (QuadTree.new sampleArea) (sampleShapes ++ [Triangle.at 8 3]) 3
     sampleSplit (by decide!)⟩

end C4

/-! ## C5: the areas of the children `split` builds -/

section C5

/-- Claim C5 fails on the code.  While the twelve `deepShapes` go into an empty tree over
`[0, 10] × [0, 10]`, the last insert reaches the leaf over `[0, 5] × [5, 10]` that holds the
first eleven of them and calls `split` on it.  That call builds the children `[5/2, 5] × [15/2, 5]`, `[0, 5/2] × [15/2, 5]`,
`[0, 5/2] × [5, 15/2]` and `[5/2, 5] × [5, 15/2]`: the upper bound in `y` of `children[0]` and
`children[1]` is `area.xMax = 5`, not `area.yMax = 10`.  The first child is not the quadrant
`[5/2, 5] × [15/2, 10]`, and the point `(1, 9)`, strictly inside the parent and on neither
midline, is covered by none of the four children. -/
theorem split_upper_children_use_xMax :
    insertAll 4 (QuadTree.new sampleArea) deepShapes = .done deepTree ∧
    deepTree.childAreas.get? 1 = some (some deepLeaf.area) ∧
    ((deepLeaf.split 2).bind fun t => .done t.childAreas) = .done deepChild.childAreas ∧
    deepLeaf.insert 3 (Triangle.at 2 5) = .done (true, deepChild) ∧
    deepChild.childAreas =
      [some ⟨5 / 2, 5, 15 / 2, 5⟩, some ⟨0, 5 / 2, 15 / 2, 5⟩,
       some ⟨0, 5 / 2, 5, 15 / 2⟩, some ⟨5 / 2, 5, 5, 15 / 2⟩] ∧
    splitAreas deepLeaf.area = deepChild.childAreas ∧
    (⟨5 / 2, 5, 15 / 2, 5⟩ : Rect ℚ) ≠ ⟨5 / 2, 5, 15 / 2, 10⟩ ∧
    deepLeaf.coversPoint 1 9 = true ∧
    (1 : ℚ) ≠ (deepLeaf.area.xMax + deepLeaf.area.xMin) / 2 ∧
    (9 : ℚ) ≠ (deepLeaf.area.yMax + deepLeaf.area.yMin) / 2 ∧
    (deepChild.childAreas.map fun a =>
      a.map fun r => (QuadTree.new r : QuadTree ℚ Triangle).coversPoint 1 9) =
      [some false, some false, some false, some false] ∧
    (QuadTree.new ⟨0, 5 / 2, 15 / 2, 10⟩ : QuadTree ℚ Triangle).coversPoint 1 9 = true := by
  decide!

end C5

/-! ## C6: eleven shapes in an empty tree -/

section C6

variable {T S : Type} [Boundable S T] [Add T] [Div T] [OfNat T 2]

/-- Claim C6, amended.  For every root area and every list of `MAX_OBJ + 1 = 11` shapes
that each fit it, inserting them one after another into an empty tree triggers no
subdivision: the root is still a leaf and holds the eleven shapes in insertion order.  The
root is subdivided by the next insert of a fitting shape: whenever that insert returns, it
returns `true` and the root is no longer a leaf and has four children. -/
theorem eleven_inserts_keep_leaf (a : Rect T) (shapes : List S)
    (hlen : shapes.length = MAX_OBJ + 1) (hfit : ∀ s ∈ shapes, within s a = true) :
    (∀ fuel, insertAll (fuel + 1) (QuadTree.new a) shapes =
      .done (.mk a shapes .null .null .null .null)) ∧
    (QuadTree.mk a shapes .null .null .null .null : QuadTree T S).isLeaf = true ∧
    (∀ shape, within shape a = true → ∀ fuel b t',
      (QuadTree.mk a shapes .null .null .null .null : QuadTree T S).insert fuel shape =
        .done (b, t') →
      b = true ∧ t'.isLeaf = false ∧
      ∃ es k0 k1 k2 k3, t' = .mk a es (.ptr k0) (.ptr k1) (.ptr k2) (.ptr k3)) := by
  refine ⟨fun fuel => ?_, rfl, ?_⟩
  · have := insertAll_leaf a fuel shapes [] (by simp [hlen]) hfit
    simpa [QuadTree.new] using this
  · intro shape hw fuel b t' h
    have hq : (QuadTree.mk a shapes .null .null .null .null : QuadTree T S).allOrNone
        = true := by
      simp [QuadTree.allOrNone, Node.allOrNone, Node.isNull]
    have hb : b = true := by
      have := (QuadTree.insert_result h).1
      simp only [QuadTree.area] at this
      rw [this, hw]
    have ha : t'.area = a := (QuadTree.insert_spec fuel).area h
    have hq' : t'.allOrNone = true := (QuadTree.insert_spec fuel).allOrNone h hq
    have hl' : t'.isLeaf = false := by
      cases fuel with
      | zero => simp [QuadTree.insert] at h
      | succ fuel =>
        rw [QuadTree.insert_succ] at h
        have hc : (QuadTree.mk a shapes .null .null .null .null : QuadTree T S).canContain
            shape = true := hw
        have hn : ¬ (QuadTree.mk a shapes .null .null .null .null :
            QuadTree T S).elements.length ≤ MAX_OBJ := by
          simp [QuadTree.elements, hlen]
        simp only [hc, Bool.not_true, Bool.false_eq_true, if_false, QuadTree.isLeaf, if_true,
          hn, Outcome.bind_eq_done] at h
        obtain ⟨t1, -, h2⟩ := h
        exact (insertChildren_spec (QuadTree.insert_spec fuel) h2).2.2.1
    obtain ⟨es, k0, k1, k2, k3, e⟩ := QuadTree.four_children hq' hl'
    rw [ha] at e
    exact ⟨hb, hl', es, k0, k1, k2, k3, e⟩

/-- Counterexample to C6 as stated: after the eleven sample shapes went into the empty tree
over `[0, 10] × [0, 10]`, the root is a leaf that holds all eleven. -/
theorem eleven_inserts_no_subdivision :
    sampleShapes.length = MAX_OBJ + 1 ∧
    (sampleShapes.all fun s => within s sampleArea) = true ∧
    insertAll 1 (QuadTree.new sampleArea) sampleShapes = .done sampleLeaf ∧
    sampleLeaf.isLeaf = true ∧ sampleLeaf.elements.length = 11 := by
  decide!

/-- Witness for C6, amended: the eleven sample shapes, then `Triangle.at 8 3`. -/
theorem eleven_inserts_keep_leaf_witness :
    (∀ fuel, insertAll (fuel + 1) (QuadTree.new sampleArea) sampleShapes =
      .done sampleLeaf) ∧
    sampleLeaf.isLeaf = true ∧
    sampleLeaf.insert 3 (Triangle.at 8 3) = .done (true, sampleSplit) ∧
    (true = true ∧ sampleSplit.isLeaf = false ∧
      ∃ es k0 k1 k2 k3, sampleSplit = .mk sampleArea es (.ptr k0) (.ptr k1) (.ptr k2)
        (.ptr k3)) :=
  ⟨(eleven_inserts_keep_leaf sampleArea sampleShapes (by decide) (by decide!)).1,
   (eleven_inserts_keep_leaf sampleArea sampleShapes (by decide) (by decide!)).2.1,
   by decide!,
   (eleven_inserts_keep_leaf sampleArea sampleShapes (by decide) (by decide!)).2.2
     (Triangle.at 8 3) (by decide!) 3 true sampleSplit (by decide!)⟩

end C6

/-! ## C7: the query after eleven inserts -/

section C7

variable {T S : Type} [Boundable S T] [LinearOrder T] [Add T] [Div T] [OfNat T 2]
  [DecidableEq S]

/-- Claim C7.  For every root area, every point strictly inside it and every list of
eleven shapes that each fit the area: the inserts into an empty tree complete, and the
query at the point, `beginAt(x, y)` followed by `*it` and `++it` while the cursor differs
from `end()`, reads the eleven shapes, each once and in insertion order, and then stops
because the cursor equals `end()`.  Twelve rounds of fuel are enough. -/
theorem query_after_eleven_inserts (a : Rect T) (x y : T)
    (hin : a.xMin < x ∧ x < a.xMax ∧ a.yMin < y ∧ y < a.yMax) (shapes : List S)
    (hlen : shapes.length = 11) (hfit : ∀ s ∈ shapes, within s a = true)
    (fuel n : Nat) :
    ∃ t, insertAll (fuel + 1) (QuadTree.new a) shapes = .done t ∧
      t.query (n + 12) x y = .done shapes := by
  have hrun := insertAll_leaf a fuel shapes [] (by simp [hlen, MAX_OBJ]) hfit
  rw [List.nil_append] at hrun
  refine ⟨.mk a shapes .null .null .null .null, hrun, ?_⟩
  have hc : (QuadTree.mk a shapes .null .null .null .null : QuadTree T S).coversPoint x y
      = true := by
    simp [QuadTree.coversPoint, QuadTree.area, hin]
  have := QuadTree.query_leaf (t := QuadTree.mk a shapes .null .null .null .null) rfl hc n
  simpa [QuadTree.elements, hlen] using this

/-- Witness for C7: the eleven sample shapes and the query at `(1, 1)`. -/
theorem query_after_eleven_inserts_witness :
    ∃ t, insertAll 1 (QuadTree.new sampleArea) sampleShapes = .done t ∧
      t.query 12 1 1 = .done sampleShapes :=
  query_after_eleven_inserts sampleArea 1 1 (by decide!) sampleShapes (by decide)
    (by decide!) 0 0

end C7

/-! ## C8: points that the root does not cover -/

section C8

variable {T S : Type} [LinearOrder T] [DecidableEq S]

/-- Claim C8.  `coversPoint(x, y)` is true exactly when `xMin < x < xMax` and
`yMin < y < yMax`; and for every tree, whatever it stores, and every point on an edge of the
root area or outside it, `beginAt(x, y)` is a cursor with a null node that equals `end()`. -/
theorem beginAt_uncovered_is_end (t : QuadTree T S) (x y : T) :
    (t.coversPoint x y = true ↔
      (t.area.xMin < x ∧ x < t.area.xMax ∧ t.area.yMin < y ∧ y < t.area.yMax)) ∧
    (¬ (t.area.xMin < x ∧ x < t.area.xMax ∧ t.area.yMin < y ∧ y < t.area.yMax) →
      t.beginAt x y = .done ⟨some x, some y, none, none, none⟩ ∧
      (⟨some x, some y, none, none, none⟩ : cpoint_iterator T S).eq QuadTree.end = true) := by
  have hiff : t.coversPoint x y = true ↔
      (t.area.xMin < x ∧ x < t.area.xMax ∧ t.area.yMin < y ∧ y < t.area.yMax) := by
    simp [QuadTree.coversPoint, and_assoc]
  refine ⟨hiff, fun hn => ⟨?_, ?_⟩⟩
  · have hc : t.coversPoint x y = false := by
      rw [← Bool.not_eq_true, hiff]; exact hn
    simp [QuadTree.beginAt, hc]
  · simp [cpoint_iterator.eq, cpoint_iterator.ne, QuadTree.end]

/-- Witness for C8: the point `(0, 5)` lies on the left edge of the subdivided sample
tree. -/
theorem beginAt_uncovered_is_end_witness :
    ¬ (sampleSplit.area.xMin < (0 : ℚ) ∧ (0 : ℚ) < sampleSplit.area.xMax ∧
        sampleSplit.area.yMin < (5 : ℚ) ∧ (5 : ℚ) < sampleSplit.area.yMax) ∧
    sampleSplit.beginAt 0 5 = .done ⟨some 0, some 5, none, none, none⟩ ∧
    (⟨some 0, some 5, none, none, none⟩ : cpoint_iterator ℚ Triangle).eq QuadTree.end =
      true :=
  ⟨by decide!, (beginAt_uncovered_is_end sampleSplit 0 5).2 (by decide!)⟩

end C8

/-! ## C9: queries on a subdivision line of the root -/

section C9

variable {T S : Type} [Boundable S T] [LinearOrder T] [Add T] [Div T] [OfNat T 2]
  [DecidableEq S]

/-- Claim C9, amended.  For every tree built by inserts (and clears) whose root has been
subdivided and every point strictly inside the root area that lies on a subdivision midline
of the root, `x = (xMax + xMin) / 2` or `y = (yMax + yMin) / 2`: the coverage test of the
root matches the point and the coverage test of none of its four children does; when the
root holds elements of its own, `beginAt(x, y)` stands on the first of them and differs from
`end()`, and the query reads the root's own elements in insertion order: `*it` on the
cursor at index `i` is the element `i`, and `++` from an element that is not the last moves
to the next one. -/
theorem midline_query_starts_on_root (t : QuadTree T S) (hb : Built t)
    (hl : t.isLeaf = false) (x y : T)
    (hin : t.area.xMin < x ∧ x < t.area.xMax ∧ t.area.yMin < y ∧ y < t.area.yMax)
    (hmid : x = (t.area.xMax + t.area.xMin) / 2 ∨ y = (t.area.yMax + t.area.yMin) / 2) :
    t.coversPoint x y = true ∧
    (∃ es k0 k1 k2 k3, t = .mk t.area es (.ptr k0) (.ptr k1) (.ptr k2) (.ptr k3) ∧
      k0.coversPoint x y = false ∧ k1.coversPoint x y = false ∧
      k2.coversPoint x y = false ∧ k3.coversPoint x y = false) ∧
    (t.elements ≠ [] →
      t.beginAt x y = .done (cpoint_iterator.on x y t 0) ∧
      (cpoint_iterator.on x y t 0).eq QuadTree.end = false) ∧
    (∀ i shape, t.elements.get? i = some shape →
      (cpoint_iterator.on x y t i).deref = .done shape) ∧
    (∀ i fuel, i + 1 < t.elements.length →
      (cpoint_iterator.on x y t i).incr fuel = .done (cpoint_iterator.on x y t (i + 1))) := by
  have hc : t.coversPoint x y = true := by
    simp [QuadTree.coversPoint, hin]
  refine ⟨hc, ?_, ?_, ?_, fun i fuel h => cpoint_iterator.incr_on x y t i fuel h⟩
  · obtain ⟨es, k0, k1, k2, k3, e⟩ := QuadTree.four_children hb.invariant.1 hl
    have hca := hb.childAreas hl
    refine ⟨es, k0, k1, k2, k3, e, ?_⟩
    rw [e] at hca
    exact splitAreas_not_cover t.area x y hmid hca
  · intro hne
    have hlen : ¬ (0 = t.elements.length) := fun h0 => hne (List.length_eq_zero.mp h0.symm)
    constructor
    · simp [QuadTree.beginAt, hc, cpoint_iterator.on, hlen]
    · simp [cpoint_iterator.eq, cpoint_iterator.ne, cpoint_iterator.on, QuadTree.end]
  · intro i shape h
    simp only [cpoint_iterator.deref, cpoint_iterator.on, h]

/-- Counterexample to C9 as stated: in the subdivided tree `sampleOverflow`, built by twelve
inserts, the centre `(5, 5)` lies on both midlines of the root and strictly inside it; the
query there starts on the root's element `wideTriangle` and differs from `end()`.  In
`sampleSplit`, whose root holds no element, the cursor `beginAt(5, 5)` stays on the root
and differs from `end()` too. -/
theorem midline_query_differs_from_end :
    insertAll 3 (QuadTree.new sampleArea) (sampleShapes ++ [wideTriangle]) =
      .done sampleOverflow ∧
    sampleOverflow.isLeaf = false ∧ sampleOverflow.coversPoint 5 5 = true ∧
    (5 : ℚ) = (sampleOverflow.area.xMax + sampleOverflow.area.xMin) / 2 ∧
    sampleOverflow.beginAt 5 5 = .done (cpoint_iterator.on 5 5 sampleOverflow 0) ∧
    (cpoint_iterator.on 5 5 sampleOverflow 0).eq QuadTree.end = false ∧
    (cpoint_iterator.on 5 5 sampleOverflow 0).deref = .done wideTriangle ∧
    sampleSplit.beginAt 5 5 = .done (cpoint_iterator.on 5 5 sampleSplit 0) ∧
    (cpoint_iterator.on 5 5 sampleSplit 0).eq QuadTree.end = false := by
  decide!

/-- Witness for C9, amended: the tree `sampleOverflow` and its centre `(5, 5)`. -/
theorem midline_query_starts_on_root_witness :
    sampleOverflow.coversPoint 5 5 = true ∧
    (∃ es k0 k1 k2 k3,
      sampleOverflow = .mk sampleOverflow.area es (.ptr k0) (.ptr k1) (.ptr k2) (.ptr k3) ∧
      k0.coversPoint 5 5 = false ∧ k1.coversPoint 5 5 = false ∧
      k2.coversPoint 5 5 = false ∧ k3.coversPoint 5 5 = false) ∧
    (sampleOverflow.elements ≠ [] →
      sampleOverflow.beginAt 5 5 = .done (cpoint_iterator.on 5 5 sampleOverflow 0) ∧
      (cpoint_iterator.on 5 5 sampleOverflow 0).eq QuadTree.end = false) ∧
    (∀ i shape, sampleOverflow.elements.get? i = some shape →
      (cpoint_iterator.on 5 5 sampleOverflow i).deref = .done shape) ∧
    (∀ i fuel, i + 1 < sampleOverflow.elements.length →
      (cpoint_iterator.on 5 5 sampleOverflow i).incr fuel =
        .done (cpoint_iterator.on 5 5 sampleOverflow (i + 1))) :=
  midline_query_starts_on_root sampleOverflow sampleOverflow_built (by decide!) 5 5
    (by decide!) (by decide!)

end C9

/-! ## C10: termination of `operator++` -/

section C10

/-- Claim C10 fails on the code.  In the tree `sampleOverflow`, built by twelve inserts, the
query at the centre `(5, 5)` of the root starts on the root's own element `wideTriangle`; the
cursor differs from `end()`, and the call of `operator++` on it does not terminate: the root
is not a leaf and none of its children covers the point, so `nextNode` returns with the
cursor unchanged and the loop `while(it == end && node != nullptr)` goes on for ever. -/
theorem incr_does_not_terminate :
    insertAll 3 (QuadTree.new sampleArea) (sampleShapes ++ [wideTriangle]) =
      .done sampleOverflow ∧
    sampleOverflow.beginAt 5 5 = .done (cpoint_iterator.on 5 5 sampleOverflow 0) ∧
    (cpoint_iterator.on 5 5 sampleOverflow 0).ne QuadTree.end = true ∧
    (cpoint_iterator.on 5 5 sampleOverflow 0).deref = .done wideTriangle ∧
    (cpoint_iterator.on 5 5 sampleOverflow 1).nextNode =
      .done (cpoint_iterator.on 5 5 sampleOverflow 1) ∧
    (∀ fuel, (cpoint_iterator.on 5 5 sampleOverflow 0).incr fuel = .outOfFuel) ∧
    (∀ fuel, sampleOverflow.query fuel 5 5 = .outOfFuel) := by
  have hnext : (cpoint_iterator.on 5 5 sampleOverflow 1).nextNode =
      .done (cpoint_iterator.on 5 5 sampleOverflow 1) := by decide!
  have hincr : ∀ fuel, (cpoint_iterator.on 5 5 sampleOverflow 0).incr fuel = .outOfFuel :=
    fun fuel => cpoint_iterator.skipExhausted_stuck
      (c := cpoint_iterator.on 5 5 sampleOverflow 1) rfl rfl hnext fuel
  have hbegin : sampleOverflow.beginAt 5 5 =
      .done (cpoint_iterator.on 5 5 sampleOverflow 0) := by decide!
  have hderef : (cpoint_iterator.on 5 5 sampleOverflow 0).deref = .done wideTriangle := by
    decide!
  refine ⟨by decide!, hbegin, by decide!, hderef, hnext, hincr, fun fuel => ?_⟩
  simp only [QuadTree.query, hbegin, Outcome.bind]
  exact drain_of_incr_stuck (by decide!) hderef hincr fuel

end C10

/-! ## Copies -/

section CopyFacts

variable {T S : Type}

/-- The copy constructor builds a tree equal to the one it copies. -/
theorem QuadTree.copy_eq (t : QuadTree T S) : t.copy = t := by
  refine @QuadTree.rec T S (fun t => t.copy = t) (fun c => c.copy = c) ?_ ?_ ?_ t
  · intro a es c0 c1 c2 c3 h0 h1 h2 h3
    simp only [QuadTree.copy, h0, h1, h2, h3]
  · rfl
  · intro t h
    simp only [Node.copy, h]

end CopyFacts

/-! ## Objects that calls leave as they are -/

section MemoryFrame

variable {T S : Type}

theorem Mem.lt_length {m : Mem T S} {q : Nat} {o : Object T S} (h : m[q]? = some o) :
    q < m.length := by
  obtain ⟨h1, -⟩ := List.getElem?_eq_some.mp h
  exact h1

theorem Object.avoids_mk (R : Nat → Prop) (a : Rect T) (es : List S)
    (x0 x1 x2 x3 : Option Nat) :
    (Object.mk a es x0 x1 x2 x3).avoids R ↔
      (∀ k, x0 = some k → ¬ R k) ∧ (∀ k, x1 = some k → ¬ R k) ∧
      (∀ k, x2 = some k → ¬ R k) ∧ (∀ k, x3 = some k → ¬ R k) := by
  constructor
  · intro h
    exact ⟨fun k e => h 0 k e, fun k e => h 1 k e, fun k e => h 2 k e, fun k e => h 3 k e⟩
  · rintro ⟨h0, h1, h2, h3⟩ i k e
    rcases i with _ | _ | _ | i
    · exact h0 k e
    · exact h1 k e
    · exact h2 k e
    · exact h3 k e

/-- The memory guards the addresses below its length: no object lies outside them. -/
theorem Mem.guards_below (m : Mem T S) : Mem.Guards (fun q => q < m.length) m :=
  ⟨fun _ h => h, fun _ _ hq ho => absurd (Mem.lt_length ho) hq⟩

theorem Mem.Keeps.of_guards {R : Nat → Prop} {m : Mem T S} (h : Mem.Guards R m) :
    Mem.Keeps R m m :=
  ⟨fun _ _ => rfl, Nat.le_refl _, h⟩

theorem Mem.Keeps.andThen {R : Nat → Prop} {m m1 m2 : Mem T S} (h1 : Mem.Keeps R m m1)
    (h2 : Mem.Keeps R m1 m2) : Mem.Keeps R m m2 :=
  ⟨fun q hq => (h2.1 q hq).trans (h1.1 q hq), Nat.le_trans h1.2.1 h2.2.1, h2.2.2⟩

/-- New objects that do not point into `R` leave `R` as it is. -/
theorem Mem.keeps_append {R : Nat → Prop} {m : Mem T S} (hg : Mem.Guards R m)
    (extra : List (Object T S)) (hx : ∀ o ∈ extra, o.avoids R) :
    Mem.Keeps R m (m ++ extra) := by
  refine ⟨fun q hq => List.getElem?_append_left (hg.1 q hq), by simp, fun q hq => ?_, ?_⟩
  · exact Nat.lt_of_lt_of_le (hg.1 q hq) (by simp)
  · intro q o hq ho
    by_cases hlt : q < m.length
    · rw [List.getElem?_append_left hlt] at ho
      exact hg.2 q o hq ho
    · rw [List.getElem?_append_right (Nat.le_of_not_lt hlt)] at ho
      exact hx o (List.getElem?_mem ho)

/-- A write to an object outside `R` that does not make it point into `R` leaves `R` as it
is. -/
theorem Mem.keeps_set {R : Nat → Prop} {m : Mem T S} (hg : Mem.Guards R m) {p : Nat}
    (hp : ¬ R p) (o1 : Object T S) (h1 : o1.avoids R) : Mem.Keeps R m (m.set p o1) := by
  refine ⟨fun q hq => ?_, by simp, fun q hq => by simpa using hg.1 q hq, ?_⟩
  · have hne : p ≠ q := fun e => hp (e ▸ hq)
    exact List.getElem?_set_ne hne
  · intro q o hq ho
    by_cases e : p = q
    · subst e
      rw [List.getElem?_set] at ho
      simp only [if_true] at ho
      by_cases hlt : p < m.length
      · simp only [hlt, if_true, Option.some.injEq] at ho
        rw [← ho]; exact h1
      · simp [hlt] at ho
    · rw [List.getElem?_set_ne e] at ho
      exact hg.2 q o hq ho

/-- The copy constructor of `Node` leaves `R` as it is and yields no pointer into `R`, when
the copy constructor of `QuadTree` does. -/
theorem Mem.copySlot_keeps {R : Nat → Prop}
    {cp : Mem T S → Nat → Outcome (Mem T S × Nat)}
    (hcp : ∀ m k r, Mem.Guards R m → cp m k = .done r → Mem.Keeps R m r.1 ∧ ¬ R r.2)
    {m : Mem T S} (hg : Mem.Guards R m) {c : Option Nat} {r : Mem T S × Option Nat}
    (h : Mem.copySlot cp m c = .done r) :
    Mem.Keeps R m r.1 ∧ ∀ k, r.2 = some k → ¬ R k := by
  cases c with
  | none =>
    simp only [Mem.copySlot, Outcome.done.injEq] at h
    subst h
    exact ⟨Mem.Keeps.of_guards hg, fun k e => by cases e⟩
  | some k0 =>
    simp only [Mem.copySlot, Outcome.bind_eq_done, Outcome.done.injEq] at h
    obtain ⟨r0, h0, rfl⟩ := h
    obtain ⟨hk, hn⟩ := hcp m k0 r0 hg h0
    exact ⟨hk, fun k e => by cases e; exact hn⟩

theorem Mem.copySlots_keeps {R : Nat → Prop}
    {cp : Mem T S → Nat → Outcome (Mem T S × Nat)}
    (hcp : ∀ m k r, Mem.Guards R m → cp m k = .done r → Mem.Keeps R m r.1 ∧ ¬ R r.2)
    {m : Mem T S} (hg : Mem.Guards R m) {o : Object T S}
    {r : Mem T S × Option Nat × Option Nat × Option Nat × Option Nat}
    (h : Mem.copySlots cp m o = .done r) :
    Mem.Keeps R m r.1 ∧
      ∀ (a : Rect T) (es : List S),
        (Object.mk a es r.2.1 r.2.2.1 r.2.2.2.1 r.2.2.2.2).avoids R := by
  simp only [Mem.copySlots, Outcome.bind_eq_done, Outcome.done.injEq] at h
  obtain ⟨r0, h0, r1, h1, r2, h2, r3, h3, rfl⟩ := h
  obtain ⟨k0, n0⟩ := Mem.copySlot_keeps hcp hg h0
  obtain ⟨k1, n1⟩ := Mem.copySlot_keeps hcp k0.2.2 h1
  obtain ⟨k2, n2⟩ := Mem.copySlot_keeps hcp k1.2.2 h2
  obtain ⟨k3, n3⟩ := Mem.copySlot_keeps hcp k2.2.2 h3
  exact ⟨((k0.andThen k1).andThen k2).andThen k3,
    fun a es => (Object.avoids_mk R a es _ _ _ _).mpr ⟨n0, n1, n2, n3⟩⟩

theorem Mem.copy_succ (fuel : Nat) (m : Mem T S) (p : Nat) :
    Mem.copy (fuel + 1) m p =
      match m[p]? with
      | none => .undefined
      | some o =>
        (Mem.copySlots (Mem.copy fuel) m o).bind fun r =>
        .done (r.1 ++ [⟨o.area, o.elements, r.2.1, r.2.2.1, r.2.2.2.1, r.2.2.2.2⟩],
          r.1.length) := rfl

/-- The copy constructor of `QuadTree` writes to new objects only: it leaves `R` as it is,
and the object it builds lies outside `R`. -/
theorem Mem.copy_keeps (R : Nat → Prop) (fuel : Nat) :
    ∀ (m : Mem T S) (p : Nat) (r : Mem T S × Nat), Mem.Guards R m →
      Mem.copy fuel m p = .done r → Mem.Keeps R m r.1 ∧ ¬ R r.2 := by
  induction fuel with
  | zero => intro m p r _ h; simp [Mem.copy] at h
  | succ fuel ih =>
    intro m p r hg h
    rw [Mem.copy_succ] at h
    cases ho : m[p]? with
    | none => simp [ho] at h
    | some o =>
      simp only [ho, Outcome.bind_eq_done, Outcome.done.injEq] at h
      obtain ⟨r1, h1, rfl⟩ := h
      obtain ⟨k1, n1⟩ := Mem.copySlots_keeps ih hg h1
      refine ⟨k1.andThen (Mem.keeps_append k1.2.2 _ ?_), fun hr => ?_⟩
      · intro x hx
        simp only [List.mem_singleton] at hx
        subst hx
        exact n1 _ _
      · exact absurd (k1.2.2.1 _ hr) (Nat.lt_irrefl _)

end MemoryFrame

section MemoryInsert

variable {T S : Type}

theorem Object.avoids_congr {R : Nat → Prop} {o o1 : Object T S} (e0 : o1.c0 = o.c0)
    (e1 : o1.c1 = o.c1) (e2 : o1.c2 = o.c2) (e3 : o1.c3 = o.c3) (h : o.avoids R) :
    o1.avoids R := by
  intro i k e
  rcases i with _ | _ | _ | i
  · exact h 0 k (e0.symm.trans e)
  · exact h 1 k (e1.symm.trans e)
  · exact h 2 k (e2.symm.trans e)
  · exact h 3 k (e3.symm.trans e)

theorem Object.avoids_null (R : Nat → Prop) (a : Rect T) (es : List S) :
    (Object.mk a es none none none none).avoids R :=
  (Object.avoids_mk R a es _ _ _ _).mpr
    ⟨fun _ e => (by cases e), fun _ e => (by cases e), fun _ e => (by cases e),
     fun _ e => (by cases e)⟩

theorem Mem.push_back_keeps {R : Nat → Prop} {m : Mem T S} (hg : Mem.Guards R m) {p : Nat}
    (hp : ¬ R p) {shape : S} {m1 : Mem T S} (h : Mem.push_back m p shape = .done m1) :
    Mem.Keeps R m m1 := by
  simp only [Mem.push_back] at h
  cases ho : m[p]? with
  | none => simp [ho] at h
  | some o =>
    simp only [ho, Outcome.done.injEq] at h
    subst h
    exact Mem.keeps_set hg hp _ (Object.avoids_congr rfl rfl rfl rfl (hg.2 p o hp ho))

/-- The child loop of `insert` on an object outside `R` leaves `R` as it is, when the calls
on objects outside `R` do. -/
theorem Mem.insertChildren_keeps {R : Nat → Prop}
    {ins : Mem T S → Nat → S → Outcome (Bool × Mem T S)}
    (hins : ∀ m k s r, Mem.Guards R m → ¬ R k → ins m k s = .done r → Mem.Keeps R m r.2)
    {p : Nat} (hp : ¬ R p) (shape : S) (idxs : List Nat) :
    ∀ (m : Mem T S) (r : Bool × Mem T S), Mem.Guards R m →
      Mem.insertChildren ins p shape idxs m = .done r → Mem.Keeps R m r.2 := by
  induction idxs with
  | nil =>
    intro m r hg h
    simp only [Mem.insertChildren, Outcome.bind_eq_done, Outcome.done.injEq] at h
    obtain ⟨m1, h1, rfl⟩ := h
    exact Mem.push_back_keeps hg hp h1
  | cons i rest ih =>
    intro m r hg h
    simp only [Mem.insertChildren] at h
    cases ho : m[p]? with
    | none => simp [ho] at h
    | some o =>
      simp only [ho] at h
      cases hc : o.child i with
      | none => simp [hc] at h
      | some k =>
        simp only [hc, Outcome.bind_eq_done] at h
        obtain ⟨r1, h1, h2⟩ := h
        have hk : ¬ R k := hg.2 p o hp ho i k hc
        have k1 := hins m k shape r1 hg hk h1
        by_cases hb : r1.1 = true
        · simp only [hb, if_true, Outcome.done.injEq] at h2
          subst h2
          exact k1
        · simp only [hb, if_false] at h2
          exact k1.andThen (ih _ _ k1.2.2 h2)

theorem Mem.reinsert_frame {R : Nat → Prop}
    {ins : Mem T S → Nat → S → Outcome (Bool × Mem T S)}
    (hins : ∀ m k s r, Mem.Guards R m → ¬ R k → ins m k s = .done r → Mem.Keeps R m r.2)
    {n : Nat} (hn : ¬ R n) (es : List S) :
    ∀ (m m1 : Mem T S), Mem.Guards R m → Mem.reinsert ins n es m = .done m1 →
      Mem.Keeps R m m1 := by
  induction es with
  | nil =>
    intro m m1 hg h
    simp only [Mem.reinsert, Outcome.done.injEq] at h
    subst h
    exact Mem.Keeps.of_guards hg
  | cons e rest ih =>
    intro m m1 hg h
    simp only [Mem.reinsert, Outcome.bind_eq_done] at h
    obtain ⟨r, h1, h2⟩ := h
    have k1 := hins m n e r hg hn h1
    exact k1.andThen (ih _ _ k1.2.2 h2)

/-- The swap of two objects outside `R` leaves `R` as it is. -/
theorem Mem.swap_keeps {R : Nat → Prop} {cp : Mem T S → Nat → Outcome (Mem T S × Nat)}
    (hcp : ∀ m k r, Mem.Guards R m → cp m k = .done r → Mem.Keeps R m r.1 ∧ ¬ R r.2)
    {m : Mem T S} (hg : Mem.Guards R m) {a b : Nat} (ha : ¬ R a) (hb : ¬ R b)
    {m1 : Mem T S} (h : Mem.swap cp m a b = .done m1) : Mem.Keeps R m m1 := by
  simp only [Mem.swap] at h
  cases hoa : m[a]? with
  | none => simp [hoa] at h
  | some oa =>
    simp only [hoa, Outcome.bind_eq_done] at h
    obtain ⟨rt, ht, h⟩ := h
    obtain ⟨kt, -⟩ := Mem.copySlots_keeps hcp hg ht
    cases hob : rt.1[b]? with
    | none => simp [hob] at h
    | some ob =>
      simp only [hob, Outcome.bind_eq_done, Outcome.done.injEq] at h
      obtain ⟨ra, hra, rb, hrb, rfl⟩ := h
      obtain ⟨ka, na⟩ := Mem.copySlots_keeps hcp kt.2.2 hra
      have ks := Mem.keeps_set ka.2.2 ha _ (na ob.area ob.elements)
      obtain ⟨kb, nb⟩ := Mem.copySlots_keeps hcp ks.2.2 hrb
      exact (((kt.andThen ka).andThen ks).andThen kb).andThen
        (Mem.keeps_set kb.2.2 hb _ (nb oa.area oa.elements))

theorem Mem.splitObjects_avoids [Add T] [Div T] [OfNat T 2] {R : Nat → Prop}
    {m : Mem T S} (hg : Mem.Guards R m) (area : Rect T) :
    ∀ o ∈ (Mem.splitObjects area m.length : List (Object T S)), o.avoids R := by
  have hfresh : ∀ j, ¬ R (m.length + j) := fun j hr => by
    have := hg.1 _ hr
    omega
  intro o ho
  simp only [Mem.splitObjects, List.mem_cons, List.mem_singleton, List.not_mem_nil,
    or_false] at ho
  rcases ho with rfl | rfl | rfl | rfl | rfl
  · exact (Object.avoids_mk R _ _ _ _ _ _).mpr
      ⟨fun k e => (by cases e; exact hfresh 1), fun k e => (by cases e; exact hfresh 2),
       fun k e => (by cases e; exact hfresh 3), fun k e => (by cases e; exact hfresh 4)⟩
  · exact Object.avoids_null R _ _
  · exact Object.avoids_null R _ _
  · exact Object.avoids_null R _ _
  · exact Object.avoids_null R _ _

/-- The function `split` on an object outside `R` leaves `R` as it is. -/
theorem Mem.split_keeps [Add T] [Div T] [OfNat T 2] {R : Nat → Prop}
    {ins : Mem T S → Nat → S → Outcome (Bool × Mem T S)}
    {cp : Mem T S → Nat → Outcome (Mem T S × Nat)}
    (hins : ∀ m k s r, Mem.Guards R m → ¬ R k → ins m k s = .done r → Mem.Keeps R m r.2)
    (hcp : ∀ m k r, Mem.Guards R m → cp m k = .done r → Mem.Keeps R m r.1 ∧ ¬ R r.2)
    {m : Mem T S} (hg : Mem.Guards R m) {p : Nat} (hp : ¬ R p) {m1 : Mem T S}
    (h : Mem.split ins cp m p = .done m1) : Mem.Keeps R m m1 := by
  simp only [Mem.split] at h
  cases ho : m[p]? with
  | none => simp [ho] at h
  | some o =>
    simp only [ho, Outcome.bind_eq_done] at h
    obtain ⟨m2, h2, h3⟩ := h
    have hn : ¬ R m.length := fun hr => absurd (hg.1 _ hr) (Nat.lt_irrefl _)
    have ka := Mem.keeps_append hg (Mem.splitObjects o.area m.length)
      (Mem.splitObjects_avoids hg o.area)
    have kr := Mem.reinsert_frame hins hn o.elements _ _ ka.2.2 h2
    exact (ka.andThen kr).andThen (Mem.swap_keeps hcp kr.2.2 hp hn h3)

theorem Mem.clear_keeps {R : Nat → Prop} {m : Mem T S} (hg : Mem.Guards R m) {p : Nat}
    (hp : ¬ R p) {m1 : Mem T S} (h : Mem.clear m p = .done m1) : Mem.Keeps R m m1 := by
  simp only [Mem.clear] at h
  cases ho : m[p]? with
  | none => simp [ho] at h
  | some o =>
    simp only [ho, Outcome.done.injEq] at h
    subst h
    exact Mem.keeps_set hg hp _ (Object.avoids_null R _ _)

end MemoryInsert

section MemoryCalls

variable {T S : Type} [Boundable S T] [Add T] [Div T] [OfNat T 2]

theorem Mem.insert_unfold (fuel : Nat) (m : Mem T S) (p : Nat) (shape : S) :
    Mem.insert (fuel + 1) m p shape =
      match m[p]? with
      | none => .undefined
      | some o =>
        if !within shape o.area then .done (false, m)
        else if o.isLeaf then
          if o.elements.length ≤ MAX_OBJ then
            (Mem.push_back m p shape).bind fun m1 => .done (true, m1)
          else (Mem.split (Mem.insert fuel) (Mem.copy fuel) m p).bind fun m1 =>
            Mem.insertChildren (Mem.insert fuel) p shape [0, 1, 2, 3] m1
        else Mem.insertChildren (Mem.insert fuel) p shape [0, 1, 2, 3] m := rfl

/-- A call of `insert` on an object outside `R` writes to objects outside `R` and to new
objects only: it leaves `R` as it is. -/
theorem Mem.insert_keeps (R : Nat → Prop) (fuel : Nat) :
    ∀ (m : Mem T S) (p : Nat) (shape : S) (r : Bool × Mem T S), Mem.Guards R m → ¬ R p →
      Mem.insert fuel m p shape = .done r → Mem.Keeps R m r.2 := by
  induction fuel with
  | zero => intro m p shape r _ _ h; simp [Mem.insert] at h
  | succ fuel ih =>
    intro m p shape r hg hp h
    rw [Mem.insert_unfold] at h
    cases ho : m[p]? with
    | none => simp [ho] at h
    | some o =>
      simp only [ho] at h
      by_cases hw : within shape o.area = true
      · simp only [hw, Bool.not_true, Bool.false_eq_true, if_false] at h
        by_cases hl : o.isLeaf = true
        · simp only [hl, if_true] at h
          by_cases hn : o.elements.length ≤ MAX_OBJ
          · simp only [hn, if_true, Outcome.bind_eq_done, Outcome.done.injEq] at h
            obtain ⟨m1, h1, rfl⟩ := h
            exact Mem.push_back_keeps hg hp h1
          · simp only [hn, if_false, Outcome.bind_eq_done] at h
            obtain ⟨m1, h1, h2⟩ := h
            have k1 := Mem.split_keeps ih (Mem.copy_keeps R fuel) hg hp h1
            exact k1.andThen (Mem.insertChildren_keeps ih hp shape _ _ _ k1.2.2 h2)
        · simp only [hl, if_false] at h
          exact Mem.insertChildren_keeps ih hp shape _ _ _ hg h
      · have hf : within shape o.area = false := by simpa using hw
        simp only [hf, Bool.not_false, if_true, Outcome.done.injEq] at h
        subst h
        exact Mem.Keeps.of_guards hg

/-- A sequence of `insert` and `clear` calls on an object outside `R` leaves `R` as it
is. -/
theorem Mem.calls_keeps (R : Nat → Prop) (fuel : Nat) {p : Nat} (hp : ¬ R p)
    (calls : List (Call S)) :
    ∀ (m m1 : Mem T S), Mem.Guards R m → Mem.calls fuel p calls m = .done m1 →
      Mem.Keeps R m m1 := by
  induction calls with
  | nil =>
    intro m m1 hg h
    simp only [Mem.calls, Outcome.done.injEq] at h
    subst h
    exact Mem.Keeps.of_guards hg
  | cons c rest ih =>
    intro m m1 hg h
    simp only [Mem.calls, Outcome.bind_eq_done] at h
    obtain ⟨m2, h1, h2⟩ := h
    have k1 : Mem.Keeps R m m2 := by
      cases c with
      | insert shape =>
        simp only [Call.runAt, Outcome.bind_eq_done, Outcome.done.injEq] at h1
        obtain ⟨r, hr, rfl⟩ := h1
        exact Mem.insert_keeps R fuel m p shape r hg hp hr
      | clear => exact Mem.clear_keeps hg hp h1
    exact k1.andThen (ih _ _ k1.2.2 h2)

end MemoryCalls

section MemoryRead

variable {T S : Type}

theorem Mem.Extends.self (m : Mem T S) : Mem.Extends m m :=
  ⟨fun _ _ => rfl, Nat.le_refl _⟩

theorem Mem.Extends.andMore {m m1 m2 : Mem T S} (h1 : Mem.Extends m m1)
    (h2 : Mem.Extends m1 m2) : Mem.Extends m m2 :=
  ⟨fun q hq => (h2.1 q (Nat.lt_of_lt_of_le hq h1.2)).trans (h1.1 q hq),
   Nat.le_trans h1.2 h2.2⟩

theorem Mem.extends_append (m : Mem T S) (extra : List (Object T S)) :
    Mem.Extends m (m ++ extra) :=
  ⟨fun _ hq => List.getElem?_append_left hq, by simp⟩

/-- The copy constructor of `QuadTree` adds objects and changes none. -/
theorem Mem.copy_extends {fuel : Nat} {m : Mem T S} {p : Nat} {r : Mem T S × Nat}
    (h : Mem.copy fuel m p = .done r) : Mem.Extends m r.1 ∧ m.length ≤ r.2 := by
  have hk := Mem.copy_keeps (fun q => q < m.length) fuel m p r (Mem.guards_below m) h
  exact ⟨⟨hk.1.1, hk.1.2.1⟩, Nat.le_of_not_lt hk.2⟩

theorem Mem.copySlot_extends {fuel : Nat} {m : Mem T S} {c : Option Nat}
    {r : Mem T S × Option Nat} (h : Mem.copySlot (Mem.copy fuel) m c = .done r) :
    Mem.Extends m r.1 := by
  have hk := Mem.copySlot_keeps (Mem.copy_keeps (fun q => q < m.length) fuel)
    (Mem.guards_below m) h
  exact ⟨hk.1.1, hk.1.2.1⟩

theorem Mem.read_succ (fuel : Nat) (m : Mem T S) (p : Nat) :
    Mem.read (fuel + 1) m p =
      match m[p]? with
      | none => .undefined
      | some o =>
        (Mem.readSlot (Mem.read fuel m) o.c0).bind fun c0 =>
        (Mem.readSlot (Mem.read fuel m) o.c1).bind fun c1 =>
        (Mem.readSlot (Mem.read fuel m) o.c2).bind fun c2 =>
        (Mem.readSlot (Mem.read fuel m) o.c3).bind fun c3 =>
        .done (.mk o.area o.elements c0 c1 c2 c3) := rfl

/-- The memory holds an object at an address it holds a tree at. -/
theorem Mem.lt_length_of_read {fuel : Nat} {m : Mem T S} {p : Nat} {t : QuadTree T S}
    (h : Mem.read fuel m p = .done t) : p < m.length := by
  cases fuel with
  | zero => simp [Mem.read] at h
  | succ f =>
    rw [Mem.read_succ] at h
    cases ho : m[p]? with
    | none => simp [ho] at h
    | some o => exact Mem.lt_length ho

/-- A memory that has the objects of `m` as they are holds, at every address where `m` holds
a tree, what `m` holds there, to every depth. -/
theorem Mem.read_agree {m m1 : Mem T S} (hag : ∀ q, q < m.length → m1[q]? = m[q]?)
    (n : Nat) :
    ∀ (fuel0 p : Nat) (t : QuadTree T S), Mem.read fuel0 m p = .done t →
      Mem.read n m1 p = Mem.read n m p := by
  induction n with
  | zero => intro _ _ _ _; rfl
  | succ n ih =>
    intro fuel0 p t h
    cases fuel0 with
    | zero => simp [Mem.read] at h
    | succ f =>
      rw [Mem.read_succ] at h
      cases ho : m[p]? with
      | none => simp [ho] at h
      | some o =>
        have ho1 : m1[p]? = some o := (hag p (Mem.lt_length ho)).trans ho
        simp only [ho, Outcome.bind_eq_done, Outcome.done.injEq] at h
        obtain ⟨x0, h0, x1, h1, x2, h2, x3, h3, -⟩ := h
        have slot : ∀ (c : Option Nat) (x : Node T S),
            Mem.readSlot (Mem.read f m) c = .done x →
            Mem.readSlot (Mem.read n m1) c = Mem.readSlot (Mem.read n m) c := by
          intro c x hx
          cases c with
          | none => rfl
          | some k =>
            simp only [Mem.readSlot, Outcome.bind_eq_done] at hx
            obtain ⟨t1, ht1, -⟩ := hx
            simp only [Mem.readSlot, ih f k t1 ht1]
        rw [Mem.read_succ, Mem.read_succ]
        simp only [ho, ho1, slot _ _ h0, slot _ _ h1, slot _ _ h2, slot _ _ h3]

theorem Mem.readSlot_agree {m m1 : Mem T S} (hag : ∀ q, q < m.length → m1[q]? = m[q]?)
    {fuel : Nat} {c : Option Nat} {x : Node T S}
    (h : Mem.readSlot (Mem.read fuel m) c = .done x) :
    Mem.readSlot (Mem.read fuel m1) c = .done x := by
  cases c with
  | none => exact h
  | some k =>
    simp only [Mem.readSlot, Outcome.bind_eq_done] at h
    obtain ⟨t1, ht1, hx⟩ := h
    simp only [Mem.readSlot, Mem.read_agree hag fuel fuel k t1 ht1, ht1, Outcome.bind]
    exact hx

/-- Where the memory holds a tree, the copy constructor returns, with the depth bound the
tree is read with, and the memory then holds the same tree at the new object. -/
theorem Mem.copy_read (fuel : Nat) :
    ∀ (m : Mem T S) (p : Nat) (t : QuadTree T S), Mem.read fuel m p = .done t →
      ∃ r, Mem.copy fuel m p = .done r ∧ Mem.read fuel r.1 r.2 = .done t := by
  induction fuel with
  | zero => intro m p t h; simp [Mem.read] at h
  | succ f ih =>
    intro m p t h
    rw [Mem.read_succ] at h
    cases ho : m[p]? with
    | none => simp [ho] at h
    | some o =>
      simp only [ho, Outcome.bind_eq_done, Outcome.done.injEq] at h
      obtain ⟨x0, h0, x1, h1, x2, h2, x3, h3, rfl⟩ := h
      have slot : ∀ (m1 : Mem T S) (c : Option Nat) (x : Node T S), Mem.Extends m m1 →
          Mem.readSlot (Mem.read f m) c = .done x →
          ∃ r, Mem.copySlot (Mem.copy f) m1 c = .done r ∧
            Mem.readSlot (Mem.read f r.1) r.2 = .done x := by
        intro m1 c x hext hx
        cases c with
        | none => exact ⟨(m1, none), rfl, hx⟩
        | some k =>
          simp only [Mem.readSlot, Outcome.bind_eq_done] at hx
          obtain ⟨t1, ht1, hx⟩ := hx
          have ht1' : Mem.read f m1 k = .done t1 := by
            rw [Mem.read_agree hext.1 f f k t1 ht1]; exact ht1
          obtain ⟨r, hr, hrd⟩ := ih m1 k t1 ht1'
          refine ⟨(r.1, some r.2), ?_, ?_⟩
          · simp only [Mem.copySlot, hr, Outcome.bind]
          · simp only [Mem.readSlot, hrd, Outcome.bind]
            exact hx
      obtain ⟨r0, c0, d0⟩ := slot m o.c0 x0 (Mem.Extends.self m) h0
      have e0 := Mem.copySlot_extends c0
      obtain ⟨r1, c1, d1⟩ := slot r0.1 o.c1 x1 e0 h1
      have e1 := Mem.copySlot_extends c1
      obtain ⟨r2, c2, d2⟩ := slot r1.1 o.c2 x2 (e0.andMore e1) h2
      have e2 := Mem.copySlot_extends c2
      obtain ⟨r3, c3, d3⟩ := slot r2.1 o.c3 x3 ((e0.andMore e1).andMore e2) h3
      have e3 := Mem.copySlot_extends c3
      have ef := Mem.extends_append r3.1
        [⟨o.area, o.elements, r0.2, r1.2, r2.2, r3.2⟩]
      refine ⟨(r3.1 ++ [⟨o.area, o.elements, r0.2, r1.2, r2.2, r3.2⟩], r3.1.length), ?_, ?_⟩
      · rw [Mem.copy_succ]
        simp only [ho, Mem.copySlots, c0, c1, c2, c3, Outcome.bind]
      · rw [Mem.read_succ]
        simp only [List.getElem?_concat_length,
          Mem.readSlot_agree (((e1.andMore e2).andMore e3).andMore ef).1 d0,
          Mem.readSlot_agree ((e2.andMore e3).andMore ef).1 d1,
          Mem.readSlot_agree (e3.andMore ef).1 d2, Mem.readSlot_agree ef.1 d3, Outcome.bind]

/-- The same for the objects from the address `N` on, when they point to such objects
only. -/
theorem Mem.read_above {m1 m2 : Mem T S} (N : Nat)
    (hcl : ∀ q o, N ≤ q → m1[q]? = some o → ∀ i k, o.child i = some k → N ≤ k)
    (hag : ∀ q, N ≤ q → q < m1.length → m2[q]? = m1[q]?) (n : Nat) :
    ∀ (fuel0 p : Nat) (t : QuadTree T S), N ≤ p → Mem.read fuel0 m1 p = .done t →
      Mem.read n m2 p = Mem.read n m1 p := by
  induction n with
  | zero => intro _ _ _ _ _; rfl
  | succ n ih =>
    intro fuel0 p t hp h
    cases fuel0 with
    | zero => simp [Mem.read] at h
    | succ f =>
      rw [Mem.read_succ] at h
      cases ho : m1[p]? with
      | none => simp [ho] at h
      | some o =>
        have ho2 : m2[p]? = some o := (hag p hp (Mem.lt_length ho)).trans ho
        simp only [ho, Outcome.bind_eq_done, Outcome.done.injEq] at h
        obtain ⟨x0, h0, x1, h1, x2, h2, x3, h3, -⟩ := h
        have slot : ∀ (c : Option Nat) (x : Node T S), (∀ k, c = some k → N ≤ k) →
            Mem.readSlot (Mem.read f m1) c = .done x →
            Mem.readSlot (Mem.read n m2) c = Mem.readSlot (Mem.read n m1) c := by
          intro c x hc hx
          cases c with
          | none => rfl
          | some k =>
            simp only [Mem.readSlot, Outcome.bind_eq_done] at hx
            obtain ⟨t1, ht1, -⟩ := hx
            simp only [Mem.readSlot, ih f k t1 (hc k rfl) ht1]
        have s0 := slot o.c0 x0 (fun k e => hcl p o hp ho 0 k e) h0
        have s1 := slot o.c1 x1 (fun k e => hcl p o hp ho 1 k e) h1
        have s2 := slot o.c2 x2 (fun k e => hcl p o hp ho 2 k e) h2
        have s3 := slot o.c3 x3 (fun k e => hcl p o hp ho 3 k e) h3
        rw [Mem.read_succ, Mem.read_succ]
        simp only [ho, ho2, s0, s1, s2, s3]

theorem Mem.closed_spec {m : Mem T S} (h : Mem.closed m = true) :
    ∀ (q : Nat) (o : Object T S), m[q]? = some o → ∀ i k, o.child i = some k →
      k < m.length := by
  intro q o ho i k e
  simp only [Mem.closed, List.all_eq_true] at h
  have hm := h o (List.getElem?_mem ho)
  simp only [List.mem_cons, List.mem_singleton, List.not_mem_nil, or_false,
    forall_eq_or_imp, forall_eq] at hm
  obtain ⟨q0, q1, q2, q3⟩ := hm
  rcases i with _ | _ | _ | i
  · have e0 : o.c0 = some k := e
    simpa [e0] using q0
  · have e1 : o.c1 = some k := e
    simpa [e1] using q1
  · have e2 : o.c2 = some k := e
    simpa [e2] using q2
  · have e3 : o.c3 = some k := e
    simpa [e3] using q3

end MemoryRead

/-! ## C11: a copy is independent of the tree it was made from -/

section C11

variable {T S : Type} [Boundable S T] [LinearOrder T] [Add T] [Div T] [OfNat T 2]
  [DecidableEq S]

/-- The memory can hold objects that are not independent: in `sharedMem` the objects at the
addresses 0 and 5 hold the same tree and share their children, and an insert on the object
at address 5 changes the tree the memory holds at address 0. -/
theorem shared_children_change_together :
    Mem.read 2 sharedMem 0 = .done sampleOverflow ∧
    Mem.read 2 sharedMem 5 = .done sampleOverflow ∧
    ((Mem.insert 2 sharedMem 5 (Triangle.at 5 7)).bind fun r => Mem.read 2 r.2 0) =
      .done sampleFirstFit ∧
    sampleFirstFit ≠ sampleOverflow := by
  refine ⟨by decide!, by decide!, by decide!, by decide!⟩

/-- The calls on objects in memory compute what the calls on trees compute, on the runs
that build the sample trees: the inserts, made on a new object in memory, leave a memory
that holds at that object the tree the same inserts build from an empty tree; this
includes one subdivision (`sampleOverflow`) and two nested ones (`deepTree`, `gridTree`). -/
theorem memory_runs_build_sample_trees :
    ((Mem.calls 3 0 ((sampleShapes ++ [wideTriangle]).map Call.insert)
      [⟨sampleArea, [], none, none, none, none⟩]).bind fun m => Mem.read 3 m 0) =
      .done sampleOverflow ∧
    insertAll 3 (QuadTree.new sampleArea) (sampleShapes ++ [wideTriangle]) =
      .done sampleOverflow ∧
    ((Mem.calls 4 0 (deepShapes.map Call.insert)
      [⟨sampleArea, [], none, none, none, none⟩]).bind fun m => Mem.read 4 m 0) =
      .done deepTree ∧
    insertAll 4 (QuadTree.new sampleArea) deepShapes = .done deepTree ∧
    ((Mem.calls 4 0 (gridShapes.map Call.insert)
      [⟨sampleArea, [], none, none, none, none⟩]).bind fun m => Mem.read 4 m 0) =
      .done gridTree ∧
    insertAll 4 (QuadTree.new sampleArea) gridShapes = .done gridTree := by
  refine ⟨by decide!, by decide!, by decide!, by decide!, by decide!, by decide!⟩

/-- Claim C11.  Deep-copy independence, over a memory of `QuadTree` objects in which
`children[i].ptr` is an address and two pointers can hold the same address.  For every
memory `m` that holds the tree `A` at the address `a`: the copy constructor returns and
builds a new object `b`, at an address that was not in use; the memory then holds at `b` a
tree equal to `A` (same area, same elements and same children, recursively) and still holds
`A` at `a`.  After every sequence of `insert` and `clear` calls on `b`, every object the
memory had before the copy is as it was, so the memory still holds `A` at `a` and every
query against the object at `a` produces, for every point and every bound on the rounds,
what it produced before the copy.  Conversely, in a memory without dangling pointers, after
every sequence of calls on `a` the objects the copy constructor created are as they were,
and every query against the object at `b` produces what it produced right after the
copy. -/
theorem copy_is_independent (A : QuadTree T S) (m : Mem T S) (a fuel0 : Nat)
    (hA : Mem.read fuel0 m a = .done A) :
    A.copy = A ∧
    ∃ (m1 : Mem T S) (b : Nat),
      Mem.copy fuel0 m a = .done (m1, b) ∧ m.length ≤ b ∧ b ≠ a ∧
      Mem.read fuel0 m1 b = .done A ∧ Mem.read fuel0 m1 a = .done A ∧
      (∀ fuel calls m2, Mem.calls fuel b calls m1 = .done m2 →
        (∀ q, q < m.length → m2[q]? = m[q]?) ∧
        Mem.read fuel0 m2 a = .done A ∧
        ∀ n x y, Mem.query n m2 a x y = Mem.query n m a x y) ∧
      (Mem.closed m = true → ∀ fuel calls m2, Mem.calls fuel a calls m1 = .done m2 →
        (∀ q, m.length ≤ q → q < m1.length → m2[q]? = m1[q]?) ∧
        Mem.read fuel0 m2 b = .done A ∧
        ∀ n x y, Mem.query n m2 b x y = Mem.query n m1 b x y) := by
  refine ⟨A.copy_eq, ?_⟩
  obtain ⟨r, hc, hr⟩ := Mem.copy_read fuel0 m a A hA
  have hk := Mem.copy_keeps (fun q => q < m.length) fuel0 m a r (Mem.guards_below m) hc
  have ha : a < m.length := Mem.lt_length_of_read hA
  have hb : m.length ≤ r.2 := Nat.le_of_not_lt hk.2
  refine ⟨r.1, r.2, hc, hb, by omega, hr, ?_, ?_, ?_⟩
  · rw [Mem.read_agree hk.1.1 fuel0 fuel0 a A hA]; exact hA
  · intro fuel calls m2 h
    have kc := Mem.calls_keeps (fun q => q < m.length) fuel hk.2 calls r.1 m2 hk.1.2.2 h
    have hag : ∀ q, q < m.length → m2[q]? = m[q]? := (hk.1.andThen kc).1
    refine ⟨hag, ?_, fun n x y => ?_⟩
    · rw [Mem.read_agree hag fuel0 fuel0 a A hA]; exact hA
    · simp only [Mem.query, Mem.read_agree hag n fuel0 a A hA]
  · intro hcl fuel calls m2 h
    have hcl0 := Mem.closed_spec hcl
    have hg : Mem.Guards (fun q => m.length ≤ q ∧ q < r.1.length) r.1 := by
      refine ⟨fun q hq => hq.2, ?_⟩
      intro q o hq ho i k e hk2
      have hlt : q < m.length := by
        have := Mem.lt_length ho
        by_contra hge
        exact hq ⟨Nat.le_of_not_lt hge, this⟩
      have ho0 : m[q]? = some o := (hk.1.1 q hlt).symm.trans ho
      have := hcl0 q o ho0 i k e
      omega
    have kc := Mem.calls_keeps (fun q => m.length ≤ q ∧ q < r.1.length) fuel
      (fun hq => absurd ha (by omega)) calls r.1 m2 hg h
    have hag : ∀ q, m.length ≤ q → q < r.1.length → m2[q]? = r.1[q]? :=
      fun q h1 h2 => kc.1 q ⟨h1, h2⟩
    have hup : ∀ q o, m.length ≤ q → r.1[q]? = some o → ∀ i k, o.child i = some k →
        m.length ≤ k := by
      intro q o hq ho i k e
      exact Nat.le_of_not_lt (hk.1.2.2.2 q o (by omega) ho i k e)
    refine ⟨hag, ?_, fun n x y => ?_⟩
    · rw [Mem.read_above m.length hup hag fuel0 fuel0 r.2 A hb hr]; exact hr
    · simp only [Mem.query, Mem.read_above m.length hup hag n fuel0 r.2 A hb hr]

/-- Witness for C11: `sampleMem` holds `sampleOverflow` at address 0; the copy constructor
builds the copy at address 9; the copy is cleared and takes `wideTriangle` again, after
which the memory holds a leaf at address 9 and `sampleOverflow` at address 0 as before. -/
theorem copy_is_independent_witness :
    Mem.read 2 sampleMem 0 = .done sampleOverflow ∧
    Mem.copy 2 sampleMem 0 = .done (sampleCopied, 9) ∧
    ((Mem.calls 1 9 [Call.clear, Call.insert wideTriangle] sampleCopied).bind fun m2 =>
      (Mem.read 2 m2 9).bind fun tb => (Mem.read 2 m2 0).bind fun ta => .done (tb, ta)) =
      .done (QuadTree.leaf sampleArea [wideTriangle], sampleOverflow) ∧
    Mem.closed sampleMem = true ∧
    Mem.query 5 sampleMem 0 1 1 =
      .done [wideTriangle, Triangle.at 1 1, Triangle.at 2 2, Triangle.at 3 3] ∧
    (sampleOverflow.copy = sampleOverflow ∧
      ∃ (m1 : Mem ℚ Triangle) (b : Nat),
        Mem.copy 2 sampleMem 0 = .done (m1, b) ∧ sampleMem.length ≤ b ∧ b ≠ 0 ∧
        Mem.read 2 m1 b = .done sampleOverflow ∧ Mem.read 2 m1 0 = .done sampleOverflow ∧
        (∀ fuel calls m2, Mem.calls fuel b calls m1 = .done m2 →
          (∀ q, q < sampleMem.length → m2[q]? = sampleMem[q]?) ∧
          Mem.read 2 m2 0 = .done sampleOverflow ∧
          ∀ n x y, Mem.query n m2 0 x y = Mem.query n sampleMem 0 x y) ∧
        (Mem.closed sampleMem = true → ∀ fuel calls m2,
          Mem.calls fuel 0 calls m1 = .done m2 →
          (∀ q, sampleMem.length ≤ q → q < m1.length → m2[q]? = m1[q]?) ∧
          Mem.read 2 m2 b = .done sampleOverflow ∧
          ∀ n x y, Mem.query n m2 b x y = Mem.query n m1 b x y)) :=
  ⟨by decide!, by decide!, by decide!, by decide!, by decide!,
   copy_is_independent sampleOverflow sampleMem 0 2 (by decide!)⟩

end C11

/-! ## Inversion of `insert` -/

section Inversion

variable {T S : Type} [Boundable S T] [Add T] [Div T] [OfNat T 2]

/-- The ways the child loop of `insert` can complete: the first child that accepts the
shape takes it, after the children before it refused and stayed as they were; or the four
children refuse and the shape joins `elements`. -/
theorem insertChildren_cases {ins : QuadTree T S → S → Outcome (Bool × QuadTree T S)}
    (hins : InsertSpec ins) {a : Rect T} {es : List S} {c0 c1 c2 c3 : Node T S} {shape : S}
    {r : Bool × QuadTree T S}
    (h : insertChildren ins (.mk a es c0 c1 c2 c3) shape = .done r) :
    (∃ k0 k0', c0 = .ptr k0 ∧ ins k0 shape = .done (true, k0') ∧
      r = (true, .mk a es (.ptr k0') c1 c2 c3)) ∨
    (∃ k0 k1 k1', c0 = .ptr k0 ∧ ins k0 shape = .done (false, k0) ∧
      c1 = .ptr k1 ∧ ins k1 shape = .done (true, k1') ∧
      r = (true, .mk a es (.ptr k0) (.ptr k1') c2 c3)) ∨
    (∃ k0 k1 k2 k2', c0 = .ptr k0 ∧ ins k0 shape = .done (false, k0) ∧
      c1 = .ptr k1 ∧ ins k1 shape = .done (false, k1) ∧
      c2 = .ptr k2 ∧ ins k2 shape = .done (true, k2') ∧
      r = (true, .mk a es (.ptr k0) (.ptr k1) (.ptr k2') c3)) ∨
    (∃ k0 k1 k2 k3 k3', c0 = .ptr k0 ∧ ins k0 shape = .done (false, k0) ∧
      c1 = .ptr k1 ∧ ins k1 shape = .done (false, k1) ∧
      c2 = .ptr k2 ∧ ins k2 shape = .done (false, k2) ∧
      c3 = .ptr k3 ∧ ins k3 shape = .done (true, k3') ∧
      r = (true, .mk a es (.ptr k0) (.ptr k1) (.ptr k2) (.ptr k3'))) ∨
    (∃ k0 k1 k2 k3, c0 = .ptr k0 ∧ ins k0 shape = .done (false, k0) ∧
      c1 = .ptr k1 ∧ ins k1 shape = .done (false, k1) ∧
      c2 = .ptr k2 ∧ ins k2 shape = .done (false, k2) ∧
      c3 = .ptr k3 ∧ ins k3 shape = .done (false, k3) ∧
      r = (true, .mk a (es ++ [shape]) (.ptr k0) (.ptr k1) (.ptr k2) (.ptr k3))) := by
  have key : ∀ {c : Node T S} {q : Bool × Node T S}, c.insertWith ins shape = .done q →
      ∃ k k', c = .ptr k ∧ ins k shape = .done (q.1, k') ∧ q.2 = .ptr k' ∧
        (q.1 = false → k' = k) := by
    intro c q hq
    obtain ⟨k, k', e1, e2, e3⟩ := Node.insertWith_eq_done hq
    exact ⟨k, k', e1, e2, e3, fun hf => (hins.result e2).2 hf⟩
  obtain ⟨r0, h0, hrest⟩ := insertChildren_eq_done h
  obtain ⟨k0, k0', rfl, i0, e0, u0⟩ := key h0
  rcases hrest with ⟨b0, rfl⟩ | ⟨b0, r1, h1, hrest⟩
  · rw [b0] at i0; rw [e0]
    exact Or.inl ⟨k0, k0', rfl, i0, rfl⟩
  have := (u0 b0).symm; subst this
  rw [b0] at i0
  obtain ⟨k1, k1', rfl, i1, e1, u1⟩ := key h1
  rcases hrest with ⟨b1, rfl⟩ | ⟨b1, r2, h2, hrest⟩
  · rw [b1] at i1; rw [e0, e1]
    exact Or.inr (Or.inl ⟨k0, k1, k1', rfl, i0, rfl, i1, rfl⟩)
  have := (u1 b1).symm; subst this
  rw [b1] at i1
  obtain ⟨k2, k2', rfl, i2, e2, u2⟩ := key h2
  rcases hrest with ⟨b2, rfl⟩ | ⟨b2, r3, h3, hrest⟩
  · rw [b2] at i2; rw [e0, e1, e2]
    exact Or.inr (Or.inr (Or.inl ⟨k0, k1, k2, k2', rfl, i0, rfl, i1, rfl, i2, rfl⟩))
  have := (u2 b2).symm; subst this
  rw [b2] at i2
  obtain ⟨k3, k3', rfl, i3, e3, u3⟩ := key h3
  rcases hrest with ⟨b3, rfl⟩ | ⟨b3, rfl⟩
  · rw [b3] at i3; rw [e0, e1, e2, e3]
    exact Or.inr (Or.inr (Or.inr (Or.inl
      ⟨k0, k1, k2, k3, k3', rfl, i0, rfl, i1, rfl, i2, rfl, i3, rfl⟩)))
  have := (u3 b3).symm; subst this
  rw [b3] at i3; rw [e0, e1, e2, e3]
  exact Or.inr (Or.inr (Or.inr (Or.inr
    ⟨k0, k1, k2, k3, rfl, i0, rfl, i1, rfl, i2, rfl, i3, rfl⟩)))

/-- The ways a call of `insert` can complete: the shape does not fit; it is appended to a
leaf; the leaf is subdivided first; or the node is internal. -/
theorem QuadTree.insert_cases {fuel : Nat} {t : QuadTree T S} {shape : S}
    {r : Bool × QuadTree T S} (h : t.insert (fuel + 1) shape = .done r) :
    (within shape t.area = false ∧ r = (false, t)) ∨
    (within shape t.area = true ∧ t.isLeaf = true ∧ t.elements.length ≤ MAX_OBJ ∧
      r = (true, t.push_back shape)) ∨
    (within shape t.area = true ∧ t.isLeaf = true ∧ MAX_OBJ < t.elements.length ∧
      ∃ t1, reinsert (QuadTree.insert fuel) (splitTree t.area) t.elements = .done t1 ∧
        insertChildren (QuadTree.insert fuel) t1 shape = .done r) ∨
    (within shape t.area = true ∧ t.isLeaf = false ∧
      insertChildren (QuadTree.insert fuel) t shape = .done r) := by
  rw [QuadTree.insert_succ] at h
  by_cases hc : t.canContain shape = true
  · have hw : within shape t.area = true := hc
    simp only [hc, Bool.not_true, Bool.false_eq_true, if_false] at h
    by_cases hl : t.isLeaf = true
    · simp only [hl, if_true] at h
      by_cases hn : t.elements.length ≤ MAX_OBJ
      · simp only [hn, if_true, Outcome.done.injEq] at h
        exact Or.inr (Or.inl ⟨hw, hl, hn, h.symm⟩)
      · simp only [hn, if_false, Outcome.bind_eq_done, splitWith] at h
        exact Or.inr (Or.inr (Or.inl ⟨hw, hl, by omega, h⟩))
    · simp only [hl, if_false] at h
      exact Or.inr (Or.inr (Or.inr ⟨hw, by simpa using hl, h⟩))
  · have hc' : t.canContain shape = false := by simpa using hc
    simp only [hc', Bool.not_false, if_true, Outcome.done.injEq] at h
    exact Or.inl ⟨hc', h.symm⟩

end Inversion

/-! ## The nodes of a tree -/

section Nodes

variable {T S : Type}

theorem Outcome.bind_ne_undefined {α β : Type} {o : Outcome α} {f : α → Outcome β}
    (h1 : o ≠ .undefined) (h2 : ∀ a, o = .done a → f a ≠ .undefined) :
    o.bind f ≠ .undefined := by
  cases o with
  | done a => exact h2 a rfl
  | outOfFuel => simp [Outcome.bind]
  | undefined => exact absurd rfl h1

theorem QuadTree.mem_nodes_self (t : QuadTree T S) : t ∈ t.nodes := by
  obtain ⟨a, es, c0, c1, c2, c3⟩ := t
  simp [QuadTree.nodes]

theorem QuadTree.mem_nodes_mk {n : QuadTree T S} {a : Rect T} {es : List S}
    {c0 c1 c2 c3 : Node T S} :
    n ∈ (QuadTree.mk a es c0 c1 c2 c3).nodes ↔
      n = .mk a es c0 c1 c2 c3 ∨ n ∈ c0.nodes ∨ n ∈ c1.nodes ∨ n ∈ c2.nodes ∨
        n ∈ c3.nodes := by
  simp [QuadTree.nodes]

/-- Every node of a tree whose nodes all have all or none of their children is such a
tree. -/
theorem QuadTree.allOrNone_of_mem_nodes {t n : QuadTree T S} (h : t.allOrNone = true)
    (hn : n ∈ t.nodes) : n.allOrNone = true := by
  revert h hn
  refine @QuadTree.rec T S
    (fun t => t.allOrNone = true → n ∈ t.nodes → n.allOrNone = true)
    (fun c => c.allOrNone = true → n ∈ c.nodes → n.allOrNone = true) ?_ ?_ ?_ t
  · intro a es c0 c1 c2 c3 h0 h1 h2 h3 h hn
    rcases QuadTree.mem_nodes_mk.mp hn with e | e | e | e | e
    · rw [e]; exact h
    all_goals
      simp only [QuadTree.allOrNone, Bool.and_eq_true] at h
      first
        | exact h0 h.1.1.1.2 e
        | exact h1 h.1.1.2 e
        | exact h2 h.1.2 e
        | exact h3 h.2 e
  · intro _ hn
    simp [Node.nodes] at hn
  · intro t ih h hn
    exact ih h hn

/-- Every node of a tree whose elements are all within their nodes is such a tree. -/
theorem QuadTree.contained_of_mem_nodes [Boundable S T] {t n : QuadTree T S}
    (h : t.contained = true) (hn : n ∈ t.nodes) : n.contained = true := by
  revert h hn
  refine @QuadTree.rec T S
    (fun t => t.contained = true → n ∈ t.nodes → n.contained = true)
    (fun c => c.contained = true → n ∈ c.nodes → n.contained = true) ?_ ?_ ?_ t
  · intro a es c0 c1 c2 c3 h0 h1 h2 h3 h hn
    rcases QuadTree.mem_nodes_mk.mp hn with e | e | e | e | e
    · rw [e]; exact h
    all_goals
      simp only [QuadTree.contained, Bool.and_eq_true] at h
      first
        | exact h0 h.1.1.1.2 e
        | exact h1 h.1.1.2 e
        | exact h2 h.1.2 e
        | exact h3 h.2 e
  · intro _ hn
    simp [Node.nodes] at hn
  · intro t ih h hn
    exact ih h hn

/-- In a node that has all or none of its children, `isLeaf` tells whether the four slots
are null. -/
theorem QuadTree.childList_of_allOrNone {n : QuadTree T S} (h : n.allOrNone = true) :
    (n.childList.all (fun c => c.isNull) = true ∨
      n.childList.all (fun c => !c.isNull) = true) ∧
    (n.isLeaf = true ↔ n.childList.all (fun c => c.isNull) = true) := by
  obtain ⟨a, es, c0, c1, c2, c3⟩ := n
  cases c0 <;> cases c1 <;> cases c2 <;> cases c3 <;>
    simp_all [QuadTree.isLeaf, QuadTree.allOrNone, Node.isNull, QuadTree.childList]

/-- The child loop of `insert` dereferences no null child of a node that has its four
children, when the calls on the children dereference none. -/
theorem insertChildren_ne_undefined
    {ins : QuadTree T S → S → Outcome (Bool × QuadTree T S)}
    (hnf : ∀ t shape, t.allOrNone = true → ins t shape ≠ .undefined)
    {t : QuadTree T S} (hq : t.allOrNone = true) (hl : t.isLeaf = false) (shape : S) :
    insertChildren ins t shape ≠ .undefined := by
  obtain ⟨es, k0, k1, k2, k3, e⟩ := QuadTree.four_children hq hl
  rw [e] at hq ⊢
  simp only [QuadTree.allOrNone, Node.allOrNone, Bool.and_eq_true] at hq
  obtain ⟨⟨⟨⟨-, q0⟩, q1⟩, q2⟩, q3⟩ := hq
  have slot : ∀ k : QuadTree T S, k.allOrNone = true →
      (Node.ptr k).insertWith ins shape ≠ .undefined := by
    intro k hk
    exact Outcome.bind_ne_undefined (hnf k shape hk) (fun _ _ => by simp)
  simp only [insertChildren]
  refine Outcome.bind_ne_undefined (slot k0 q0) (fun r0 _ => ?_)
  split
  · simp
  refine Outcome.bind_ne_undefined (slot k1 q1) (fun r1 _ => ?_)
  split
  · simp
  refine Outcome.bind_ne_undefined (slot k2 q2) (fun r2 _ => ?_)
  split
  · simp
  refine Outcome.bind_ne_undefined (slot k3 q3) (fun r3 _ => ?_)
  split <;> simp

/-- The re-insertion loop of `split` keeps a property of trees that each call keeps. -/
theorem reinsert_keeps {ins : QuadTree T S → S → Outcome (Bool × QuadTree T S)}
    (P : QuadTree T S → Prop)
    (hstep : ∀ t shape r, ins t shape = .done r → P t → P r.2) (es : List S) :
    ∀ t t1 : QuadTree T S, reinsert ins t es = .done t1 → P t → P t1 := by
  induction es with
  | nil =>
    intro t t1 h hk
    simp only [reinsert, Outcome.done.injEq] at h
    rw [← h]; exact hk
  | cons e es ih =>
    intro t t1 h hk
    simp only [reinsert, Outcome.bind_eq_done] at h
    obtain ⟨r, h1, h2⟩ := h
    exact ih r.2 t1 h2 (hstep t e r h1 hk)

end Nodes

/-! ## No null child is dereferenced -/

section NoFault

variable {T S : Type} [Boundable S T] [Add T] [Div T] [OfNat T 2]

/-- The re-insertion loop of `split` dereferences no null child. -/
theorem reinsert_ne_undefined {ins : QuadTree T S → S → Outcome (Bool × QuadTree T S)}
    (hins : InsertSpec ins)
    (hnf : ∀ t shape, t.allOrNone = true → ins t shape ≠ .undefined) (es : List S) :
    ∀ t : QuadTree T S, t.allOrNone = true → reinsert ins t es ≠ .undefined := by
  induction es with
  | nil => intro t _; simp [reinsert]
  | cons e es ih =>
    intro t hq
    simp only [reinsert]
    exact Outcome.bind_ne_undefined (hnf t e hq)
      (fun r hr => ih r.2 (hins.allOrNone hr hq))

/-- On a tree whose nodes have all or none of their children, `insert` dereferences no
null child, whatever the depth of its calls. -/
theorem QuadTree.insert_ne_undefined (fuel : Nat) :
    ∀ (t : QuadTree T S) (shape : S), t.allOrNone = true →
      t.insert fuel shape ≠ .undefined := by
  induction fuel with
  | zero => intro t shape _; simp [QuadTree.insert]
  | succ fuel ih =>
    intro t shape hq
    have hins := QuadTree.insert_spec (T := T) (S := S) fuel
    rw [QuadTree.insert_succ]
    split
    · simp
    split
    · split
      · simp
      · refine Outcome.bind_ne_undefined ?_ (fun t1 h1 => ?_)
        · exact reinsert_ne_undefined hins ih t.elements _ (splitTree_facts t.area).2.2.1
        · obtain ⟨s1, s2, s3, s4, s5, s6⟩ := splitTree_facts (S := S) t.area
          obtain ⟨i1, i2, i6, i3, i4, i5⟩ := reinsert_spec hins h1
          exact insertChildren_ne_undefined ih (i3 s3) (i2 s2) shape
    · rename_i hl
      exact insertChildren_ne_undefined ih hq (by simpa using hl) shape

/-- A tree reachable with copies is a tree built without them, as a copy equals its
original. -/
theorem Reachable.built {t : QuadTree T S} (hr : Reachable t) : Built t := by
  induction hr with
  | new a => exact Built.new a
  | insert fuel shape b t' _ h ih => exact Built.insert fuel shape b t' ih h
  | clear _ ih => exact Built.clear ih
  | copy _ ih => rw [QuadTree.copy_eq]; exact ih

end NoFault

section NoFaultCursor

variable {T S : Type} [LinearOrder T]

/-- On a node that has all or none of its children, `nextNode` dereferences no null
child. -/
theorem cpoint_iterator.nextNode_ne_undefined {n : QuadTree T S} (hq : n.allOrNone = true)
    (x y : T) (it stop : Option Nat) :
    (⟨some x, some y, some n, it, stop⟩ : cpoint_iterator T S).nextNode ≠ .undefined := by
  obtain ⟨a, es, c0, c1, c2, c3⟩ := n
  cases c0 <;> cases c1 <;> cases c2 <;> cases c3 <;>
    simp_all [QuadTree.allOrNone, Node.isNull, cpoint_iterator.nextNode, QuadTree.isLeaf]
  simp only [cpoint_iterator.nextNodeLoop]
  repeat' split
  all_goals simp

end NoFaultCursor

/-! ## C12: every node has all or none of its children -/

section C12

variable {T S : Type} [Boundable S T] [LinearOrder T] [Add T] [Div T] [OfNat T 2]

/-- Claim C12.  Structural invariant: in every tree reachable from a freshly constructed
tree by `insert`, `clear` and copy, every node has its four child slots all null or all
set, so `isLeaf()`, which looks at slot 0 only, is true exactly when the four slots are
null; `insert` on the tree never dereferences a null child, whatever the shape and the
depth of its calls, and neither does `nextNode` on any node of the tree. -/
theorem children_all_or_none (t : QuadTree T S) (hr : Reachable t) :
    (∀ n ∈ t.nodes,
      (n.childList.all (fun c => c.isNull) = true ∨
        n.childList.all (fun c => !c.isNull) = true) ∧
      (n.isLeaf = true ↔ n.childList.all (fun c => c.isNull) = true)) ∧
    (∀ fuel shape, t.insert fuel shape ≠ .undefined) ∧
    (∀ n ∈ t.nodes, ∀ (x y : T) (it stop : Option Nat),
      (⟨some x, some y, some n, it, stop⟩ : cpoint_iterator T S).nextNode ≠ .undefined) := by
  have hq : t.allOrNone = true := hr.built.invariant.1
  refine ⟨fun n hn => ?_, fun fuel shape => ?_, fun n hn x y it stop => ?_⟩
  · exact QuadTree.childList_of_allOrNone (QuadTree.allOrNone_of_mem_nodes hq hn)
  · exact QuadTree.insert_ne_undefined fuel t shape hq
  · exact cpoint_iterator.nextNode_ne_undefined (QuadTree.allOrNone_of_mem_nodes hq hn)
      x y it stop

/-- The tree `deepTree` is reachable: it is the copy of the tree the twelve `deepShapes`
build. -/
theorem deepTree_reachable : Reachable deepTree := by
  have h : ∀ (shapes : List Triangle) (t t' : QuadTree ℚ Triangle), Reachable t →
      insertAll 4 t shapes = .done t' → Reachable t' := by
    intro shapes
    induction shapes with
    | nil =>
      intro t t' hr h
      simp only [insertAll, Outcome.done.injEq] at h
      rw [← h]; exact hr
    | cons e es ih =>
      intro t t' hr h
      simp only [insertAll, Outcome.bind_eq_done] at h
      obtain ⟨r, h1, h2⟩ := h
      exact ih r.2 t' (Reachable.insert 4 e r.1 r.2 hr h1) h2
  have hr := h deepShapes (QuadTree.new sampleArea) deepTree (Reachable.new sampleArea)
    (by decide!)
  have := Reachable.copy hr
  rwa [QuadTree.copy_eq] at this

/-- Witness for C12: the tree `deepTree`, with two levels of subdivision. -/
theorem children_all_or_none_witness :
    (∀ n ∈ deepTree.nodes,
      (n.childList.all (fun c => c.isNull) = true ∨
        n.childList.all (fun c => !c.isNull) = true) ∧
      (n.isLeaf = true ↔ n.childList.all (fun c => c.isNull) = true)) ∧
    (∀ fuel shape, deepTree.insert fuel shape ≠ .undefined) ∧
    (∀ n ∈ deepTree.nodes, ∀ (x y : ℚ) (it stop : Option Nat),
      (⟨some x, some y, some n, it, stop⟩ : cpoint_iterator ℚ Triangle).nextNode ≠
        .undefined) :=
  children_all_or_none deepTree deepTree_reachable

end C12

/-! ## C13: every element is within its node and within the ancestors of its node -/

section ContainedUnderMk

variable {T S : Type} [Boundable S T]

theorem QuadTree.containedUnder_mk (above : List (Rect T)) (a : Rect T) (es : List S)
    (c0 c1 c2 c3 : Node T S) :
    (QuadTree.mk a es c0 c1 c2 c3).containedUnder above = true ↔
      (∀ e ∈ es, within e a = true ∧ ∀ r ∈ above, within e r = true) ∧
      c0.containedUnder (a :: above) = true ∧ c1.containedUnder (a :: above) = true ∧
      c2.containedUnder (a :: above) = true ∧ c3.containedUnder (a :: above) = true := by
  simp only [QuadTree.containedUnder, Bool.and_eq_true, List.all_eq_true, and_assoc]

/-- The re-insertion loop of `split` keeps every element within its node and within the
ancestors of its node. -/
theorem reinsert_containedUnder
    {ins : QuadTree T S → S → Outcome (Bool × QuadTree T S)}
    (hstep : ∀ (above : List (Rect T)) t shape r, ins t shape = .done r →
      (∀ a ∈ above, within shape a = true) → t.containedUnder above = true →
      r.2.containedUnder above = true)
    (above : List (Rect T)) (es : List S) :
    ∀ t t1 : QuadTree T S, reinsert ins t es = .done t1 →
      (∀ e ∈ es, ∀ a ∈ above, within e a = true) → t.containedUnder above = true →
      t1.containedUnder above = true := by
  induction es with
  | nil =>
    intro t t1 h _ hk
    simp only [reinsert, Outcome.done.injEq] at h
    rw [← h]; exact hk
  | cons e es ih =>
    intro t t1 h hall hk
    simp only [reinsert, Outcome.bind_eq_done] at h
    obtain ⟨r, h1, h2⟩ := h
    exact ih r.2 t1 h2 (fun x hx => hall x (List.mem_cons_of_mem _ hx))
      (hstep above t e r h1 (hall e (List.mem_cons_self _ _)) hk)

end ContainedUnderMk

section ContainedUnder

variable {T S : Type} [Boundable S T] [Add T] [Div T] [OfNat T 2]

/-- The child loop of `insert` keeps every element within its node and within the
ancestors of its node, when the calls on the children do. -/
theorem insertChildren_containedUnder
    {ins : QuadTree T S → S → Outcome (Bool × QuadTree T S)} (hins : InsertSpec ins)
    (hstep : ∀ (above : List (Rect T)) t shape r, ins t shape = .done r →
      (∀ a ∈ above, within shape a = true) → t.containedUnder above = true →
      r.2.containedUnder above = true)
    {above : List (Rect T)} {t : QuadTree T S} {shape : S} {r : Bool × QuadTree T S}
    (h : insertChildren ins t shape = .done r) (hw : within shape t.area = true)
    (ha : ∀ a ∈ above, within shape a = true) (hk : t.containedUnder above = true) :
    r.2.containedUnder above = true := by
  obtain ⟨a, es, c0, c1, c2, c3⟩ := t
  have hw' : within shape a = true := hw
  have ha' : ∀ r ∈ a :: above, within shape r = true := by
    intro r hr
    rcases List.mem_cons.mp hr with e | e
    · rw [e]; exact hw'
    · exact ha r e
  rw [QuadTree.containedUnder_mk] at hk
  obtain ⟨q, q0, q1, q2, q3⟩ := hk
  rcases insertChildren_cases hins h with
    ⟨k0, k0', rfl, i0, rfl⟩ | ⟨k0, k1, k1', rfl, -, rfl, i1, rfl⟩ |
    ⟨k0, k1, k2, k2', rfl, -, rfl, -, rfl, i2, rfl⟩ |
    ⟨k0, k1, k2, k3, k3', rfl, -, rfl, -, rfl, -, rfl, i3, rfl⟩ |
    ⟨k0, k1, k2, k3, rfl, -, rfl, -, rfl, -, rfl, -, rfl⟩
  · exact (QuadTree.containedUnder_mk _ _ _ _ _ _ _).mpr
      ⟨q, hstep _ _ _ _ i0 ha' q0, q1, q2, q3⟩
  · exact (QuadTree.containedUnder_mk _ _ _ _ _ _ _).mpr
      ⟨q, q0, hstep _ _ _ _ i1 ha' q1, q2, q3⟩
  · exact (QuadTree.containedUnder_mk _ _ _ _ _ _ _).mpr
      ⟨q, q0, q1, hstep _ _ _ _ i2 ha' q2, q3⟩
  · exact (QuadTree.containedUnder_mk _ _ _ _ _ _ _).mpr
      ⟨q, q0, q1, q2, hstep _ _ _ _ i3 ha' q3⟩
  · refine (QuadTree.containedUnder_mk _ _ _ _ _ _ _).mpr ⟨?_, q0, q1, q2, q3⟩
    intro e he
    rcases List.mem_append.mp he with he | he
    · exact q e he
    · rw [List.mem_singleton.mp he]; exact ⟨hw', ha⟩

theorem splitTree_containedUnder (above : List (Rect T)) (a : Rect T) :
    (splitTree a : QuadTree T S).containedUnder above = true := by
  simp [splitTree, QuadTree.new, QuadTree.containedUnder, Node.containedUnder]

/-- A call of `insert` keeps every element within its node and within the ancestors of its
node, when the new shape is within these ancestors. -/
theorem QuadTree.insert_containedUnder (fuel : Nat) :
    ∀ (above : List (Rect T)) (t : QuadTree T S) (shape : S) (r : Bool × QuadTree T S),
      t.insert fuel shape = .done r → (∀ a ∈ above, within shape a = true) →
      t.containedUnder above = true → r.2.containedUnder above = true := by
  induction fuel with
  | zero => intro above t shape r h; simp [QuadTree.insert] at h
  | succ fuel ih =>
    intro above t shape r h ha hk
    have hins := QuadTree.insert_spec (T := T) (S := S) fuel
    rcases QuadTree.insert_cases h with ⟨-, rfl⟩ | ⟨hw, -, -, rfl⟩ |
      ⟨hw, -, -, t1, h1, h2⟩ | ⟨hw, -, h2⟩
    · exact hk
    · obtain ⟨a, es, c0, c1, c2, c3⟩ := t
      rw [QuadTree.containedUnder_mk] at hk
      refine (QuadTree.containedUnder_mk _ _ _ _ _ _ _).mpr ⟨?_, hk.2⟩
      intro e he
      rcases List.mem_append.mp he with he | he
      · exact hk.1 e he
      · rw [List.mem_singleton.mp he]; exact ⟨hw, ha⟩
    · have hes : ∀ e ∈ t.elements, within e t.area = true ∧ ∀ a ∈ above, within e a = true := by
        obtain ⟨a, es, c0, c1, c2, c3⟩ := t
        rw [QuadTree.containedUnder_mk] at hk
        exact hk.1
      have k1 : t1.containedUnder above = true :=
        reinsert_containedUnder ih above t.elements _ t1 h1
          (fun e he => (hes e he).2) (splitTree_containedUnder above t.area)
      have a1 : t1.area = t.area :=
        (reinsert_spec hins h1).1.trans (splitTree_facts t.area).1
      exact insertChildren_containedUnder hins ih h2 (by rw [a1]; exact hw) ha k1
    · exact insertChildren_containedUnder hins ih h2 hw ha hk

/-- In a tree a program can build, every element is within its node and within the
ancestors of its node. -/
theorem Built.containedUnder {t : QuadTree T S} (hb : Built t) :
    t.containedUnder [] = true := by
  induction hb with
  | new a => simp [QuadTree.new, QuadTree.containedUnder, Node.containedUnder]
  | insert fuel shape b t' _ h ih =>
    exact QuadTree.insert_containedUnder fuel [] _ shape _ h (by simp) ih
  | @clear t _ _ =>
    obtain ⟨a, es, c0, c1, c2, c3⟩ := t
    simp [QuadTree.clear, QuadTree.containedUnder, Node.containedUnder]

end ContainedUnder

section C13

variable {T S : Type} [Boundable S T] [Add T] [Div T] [OfNat T 2]

theorem deepTree_built : Built deepTree :=
  Built.insertAll 4 deepShapes (Built.new sampleArea) (by decide!)

/-- Claim C13.  Containment invariant: in every tree reachable from an empty tree by
inserts and clears, every shape in the elements of any node is `within` the area of that
node and `within` the area of every ancestor of that node.  `insert` preserves this, on
any node and under any ancestors whose areas the new shape is within, and so does
`split`. -/
theorem elements_within_node_and_ancestors (t : QuadTree T S) (hb : Built t) :
    t.containedUnder [] = true ∧ t.contained = true ∧
    (∀ (above : List (Rect T)) (n : QuadTree T S) fuel shape r,
      n.insert fuel shape = .done r → (∀ a ∈ above, within shape a = true) →
      n.containedUnder above = true → r.2.containedUnder above = true) ∧
    (∀ (above : List (Rect T)) (n : QuadTree T S) fuel n1,
      n.split fuel = .done n1 → n.containedUnder above = true →
      n1.containedUnder above = true) := by
  refine ⟨hb.containedUnder, hb.invariant.2, ?_, ?_⟩
  · intro above n fuel shape r h ha hk
    exact QuadTree.insert_containedUnder fuel above n shape r h ha hk
  · intro above n fuel n1 h hk
    have hes : ∀ e ∈ n.elements, ∀ a ∈ above, within e a = true := by
      obtain ⟨a, es, c0, c1, c2, c3⟩ := n
      rw [QuadTree.containedUnder_mk] at hk
      exact fun e he => (hk.1 e he).2
    exact reinsert_containedUnder (QuadTree.insert_containedUnder fuel) above n.elements _ n1
      h hes (splitTree_containedUnder above n.area)

/-- Witness for C13: the tree `deepTree`, with two levels of subdivision. -/
theorem elements_within_node_and_ancestors_witness :
    deepTree.containedUnder [] = true ∧ deepTree.contained = true :=
  ⟨(elements_within_node_and_ancestors deepTree deepTree_built).1,
   (elements_within_node_and_ancestors deepTree deepTree_built).2.1⟩

end C13

/-! ## C14: the elements an internal node holds itself fit none of its children -/

section OverflowMk

variable {T S : Type} [Boundable S T]

theorem QuadTree.overflowOnly_mk (a : Rect T) (es : List S) (c0 c1 c2 c3 : Node T S) :
    (QuadTree.mk a es c0 c1 c2 c3).overflowOnly = true ↔
      (c0.isNull = true ∨ ∀ e ∈ es, c0.refuses e = true ∧ c1.refuses e = true ∧
        c2.refuses e = true ∧ c3.refuses e = true) ∧
      c0.overflowOnly = true ∧ c1.overflowOnly = true ∧
      c2.overflowOnly = true ∧ c3.overflowOnly = true := by
  simp only [QuadTree.overflowOnly, QuadTree.isLeaf_mk, Bool.and_eq_true, Bool.or_eq_true,
    List.all_eq_true, and_assoc]

theorem Node.refuses_ptr (shape : S) (k : QuadTree T S) :
    (Node.ptr k).refuses shape = !within shape k.area := rfl

end OverflowMk

section Overflow

variable {T S : Type} [Boundable S T] [Add T] [Div T] [OfNat T 2]

/-- The child loop of `insert` keeps the elements of internal nodes out of the areas of
their children, when the calls on the children do. -/
theorem insertChildren_overflowOnly
    {ins : QuadTree T S → S → Outcome (Bool × QuadTree T S)} (hins : InsertSpec ins)
    (hstep : ∀ t shape r, ins t shape = .done r → t.overflowOnly = true →
      r.2.overflowOnly = true)
    {t : QuadTree T S} {shape : S} {r : Bool × QuadTree T S}
    (h : insertChildren ins t shape = .done r) (hk : t.overflowOnly = true) :
    r.2.overflowOnly = true := by
  obtain ⟨a, es, c0, c1, c2, c3⟩ := t
  rw [QuadTree.overflowOnly_mk] at hk
  obtain ⟨q, q0, q1, q2, q3⟩ := hk
  have same : ∀ {k k' : QuadTree T S} {b : Bool}, ins k shape = .done (b, k') →
      ∀ e, (Node.ptr k').refuses e = (Node.ptr k).refuses e := by
    intro k k' b hi e
    have := hins.area hi
    simp only at this
    rw [Node.refuses_ptr, Node.refuses_ptr, this]
  have no : ∀ {k : QuadTree T S}, ins k shape = .done (false, k) →
      (Node.ptr k).refuses shape = true := by
    intro k hi
    have := (hins.result hi).1
    simp only at this
    rw [Node.refuses_ptr, ← this]; rfl
  rcases insertChildren_cases hins h with
    ⟨k0, k0', rfl, i0, rfl⟩ | ⟨k0, k1, k1', rfl, -, rfl, i1, rfl⟩ |
    ⟨k0, k1, k2, k2', rfl, -, rfl, -, rfl, i2, rfl⟩ |
    ⟨k0, k1, k2, k3, k3', rfl, -, rfl, -, rfl, -, rfl, i3, rfl⟩ |
    ⟨k0, k1, k2, k3, rfl, j0, rfl, j1, rfl, j2, rfl, j3, rfl⟩
  · refine (QuadTree.overflowOnly_mk _ _ _ _ _ _).mpr ⟨Or.inr ?_, hstep _ _ _ i0 q0, q1, q2, q3⟩
    rcases q with q | q
    · simp [Node.isNull] at q
    · intro e he
      rw [same i0 e]; exact q e he
  · refine (QuadTree.overflowOnly_mk _ _ _ _ _ _).mpr ⟨Or.inr ?_, q0, hstep _ _ _ i1 q1, q2, q3⟩
    rcases q with q | q
    · simp [Node.isNull] at q
    · intro e he
      rw [same i1 e]; exact q e he
  · refine (QuadTree.overflowOnly_mk _ _ _ _ _ _).mpr ⟨Or.inr ?_, q0, q1, hstep _ _ _ i2 q2, q3⟩
    rcases q with q | q
    · simp [Node.isNull] at q
    · intro e he
      rw [same i2 e]; exact q e he
  · refine (QuadTree.overflowOnly_mk _ _ _ _ _ _).mpr ⟨Or.inr ?_, q0, q1, q2, hstep _ _ _ i3 q3⟩
    rcases q with q | q
    · simp [Node.isNull] at q
    · intro e he
      rw [same i3 e]; exact q e he
  · refine (QuadTree.overflowOnly_mk _ _ _ _ _ _).mpr ⟨Or.inr ?_, q0, q1, q2, q3⟩
    rcases q with q | q
    · simp [Node.isNull] at q
    · intro e he
      rcases List.mem_append.mp he with he | he
      · exact q e he
      · rw [List.mem_singleton.mp he]; exact ⟨no j0, no j1, no j2, no j3⟩

theorem splitTree_overflowOnly (a : Rect T) :
    (splitTree a : QuadTree T S).overflowOnly = true := by
  simp [splitTree, QuadTree.new, QuadTree.overflowOnly, Node.overflowOnly, QuadTree.isLeaf]

/-- A call of `insert` keeps the elements of internal nodes out of the areas of their
children. -/
theorem QuadTree.insert_overflowOnly (fuel : Nat) :
    ∀ (t : QuadTree T S) (shape : S) (r : Bool × QuadTree T S),
      t.insert fuel shape = .done r → t.overflowOnly = true →
      r.2.overflowOnly = true := by
  induction fuel with
  | zero => intro t shape r h; simp [QuadTree.insert] at h
  | succ fuel ih =>
    intro t shape r h hk
    have hins := QuadTree.insert_spec (T := T) (S := S) fuel
    rcases QuadTree.insert_cases h with ⟨-, rfl⟩ | ⟨-, hl, -, rfl⟩ |
      ⟨-, -, -, t1, h1, h2⟩ | ⟨-, -, h2⟩
    · exact hk
    · obtain ⟨a, es, c0, c1, c2, c3⟩ := t
      rw [QuadTree.overflowOnly_mk] at hk
      rw [QuadTree.isLeaf_mk] at hl
      exact (QuadTree.overflowOnly_mk _ _ _ _ _ _).mpr ⟨Or.inl hl, hk.2⟩
    · exact insertChildren_overflowOnly hins ih h2
        (reinsert_keeps (fun t => t.overflowOnly = true) ih t.elements _ t1 h1
          (splitTree_overflowOnly t.area))
    · exact insertChildren_overflowOnly hins ih h2 hk

/-- In a tree a program can build, the elements an internal node holds itself are within
the area of none of its children. -/
theorem Built.overflowOnly {t : QuadTree T S} (hb : Built t) : t.overflowOnly = true := by
  induction hb with
  | new a => simp [QuadTree.new, QuadTree.overflowOnly, Node.overflowOnly, QuadTree.isLeaf]
  | insert fuel shape b t' _ h ih => exact QuadTree.insert_overflowOnly fuel _ shape _ h ih
  | @clear t _ _ =>
    obtain ⟨a, es, c0, c1, c2, c3⟩ := t
    simp [QuadTree.clear, QuadTree.overflowOnly, Node.overflowOnly, QuadTree.isLeaf]

/-- An insert into an internal node appends the shape to the elements of the node exactly
when the four children refuse it; otherwise it leaves these elements as they are. -/
theorem QuadTree.insert_internal_elements {fuel : Nat} {n : QuadTree T S} {shape : S}
    {r : Bool × QuadTree T S} (hl : n.isLeaf = false) (hw : within shape n.area = true)
    (h : n.insert fuel shape = .done r) :
    (r.2.elements = n.elements ++ [shape] ↔
      n.childList.all (fun c => c.refuses shape) = true) ∧
    (r.2.elements = n.elements ∨ r.2.elements = n.elements ++ [shape]) := by
  cases fuel with
  | zero => simp [QuadTree.insert] at h
  | succ fuel =>
    have hins := QuadTree.insert_spec (T := T) (S := S) fuel
    rcases QuadTree.insert_cases h with ⟨hw', -⟩ | ⟨-, hl', -, -⟩ | ⟨-, hl', -, -⟩ | ⟨-, -, h2⟩
    · rw [hw] at hw'; cases hw'
    · rw [hl] at hl'; cases hl'
    · rw [hl] at hl'; cases hl'
    obtain ⟨a, es, c0, c1, c2, c3⟩ := n
    have yes : ∀ {k k' : QuadTree T S}, QuadTree.insert fuel k shape = .done (true, k') →
        (Node.ptr k).refuses shape = false := by
      intro k k' hi
      have := (hins.result hi).1
      simp only at this
      rw [Node.refuses_ptr, ← this]; rfl
    have no : ∀ {k : QuadTree T S}, QuadTree.insert fuel k shape = .done (false, k) →
        (Node.ptr k).refuses shape = true := by
      intro k hi
      have := (hins.result hi).1
      simp only at this
      rw [Node.refuses_ptr, ← this]; rfl
    rcases insertChildren_cases hins h2 with
      ⟨k0, k0', rfl, i0, rfl⟩ | ⟨k0, k1, k1', rfl, -, rfl, i1, rfl⟩ |
      ⟨k0, k1, k2, k2', rfl, -, rfl, -, rfl, i2, rfl⟩ |
      ⟨k0, k1, k2, k3, k3', rfl, -, rfl, -, rfl, -, rfl, i3, rfl⟩ |
      ⟨k0, k1, k2, k3, rfl, j0, rfl, j1, rfl, j2, rfl, j3, rfl⟩
    · simp [QuadTree.elements, QuadTree.childList, yes i0]
    · simp [QuadTree.elements, QuadTree.childList, yes i1]
    · simp [QuadTree.elements, QuadTree.childList, yes i2]
    · simp [QuadTree.elements, QuadTree.childList, yes i3]
    · simp [QuadTree.elements, QuadTree.childList, no j0, no j1, no j2, no j3]

end Overflow

section C14

variable {T S : Type} [Boundable S T] [Add T] [Div T] [OfNat T 2]

/-- Claim C14.  Overflow invariant: in every tree reachable from an empty tree by inserts
(and clears), every shape an internal node holds in its own elements is `within` the area
of that node and `within` the area of none of its four children.  Equivalently, an insert
of a fitting shape into an internal node appends the shape to the elements of the node
exactly when `within(shape, child area)` is false for the four children, and leaves these
elements as they are otherwise.  The invariant holds for what `split` redistributes: the
node `split` leaves has it. -/
theorem overflow_elements_fit_no_child (t : QuadTree T S) (hb : Built t) :
    t.overflowOnly = true ∧ t.contained = true ∧
    (∀ (n : QuadTree T S) fuel shape r, n.isLeaf = false → within shape n.area = true →
      n.insert fuel shape = .done r →
      (r.2.elements = n.elements ++ [shape] ↔
        n.childList.all (fun c => c.refuses shape) = true) ∧
      (r.2.elements = n.elements ∨ r.2.elements = n.elements ++ [shape])) ∧
    (∀ (n : QuadTree T S) fuel n1, n.split fuel = .done n1 → n1.overflowOnly = true) := by
  refine ⟨hb.overflowOnly, hb.invariant.2, ?_, ?_⟩
  · intro n fuel shape r hl hw h
    exact QuadTree.insert_internal_elements hl hw h
  · intro n fuel n1 h
    exact reinsert_keeps (fun t => t.overflowOnly = true) (QuadTree.insert_overflowOnly fuel)
      n.elements _ n1 h (splitTree_overflowOnly n.area)

/-- Witness for C14: the tree `sampleOverflow`, whose root holds `wideTriangle` itself. -/
theorem overflow_elements_fit_no_child_witness :
    sampleOverflow.overflowOnly = true ∧ sampleOverflow.contained = true ∧
    sampleOverflow.elements = [wideTriangle] ∧ sampleOverflow.isLeaf = false :=
  ⟨(overflow_elements_fit_no_child sampleOverflow sampleOverflow_built).1,
   (overflow_elements_fit_no_child sampleOverflow sampleOverflow_built).2.1, rfl, rfl⟩

end C14

/-! ## Inserts into a node whose four children are leaves -/

section Flat

variable {T S : Type} [Boundable S T] [Add T] [Div T] [OfNat T 2]

/-- A call of `insert` on a leaf with room left: the shape is appended when it fits. -/
theorem QuadTree.insert_leaf (fuel : Nat) (a : Rect T) (es : List S) (e : S)
    (hn : es.length ≤ MAX_OBJ) :
    (QuadTree.leaf a es).insert (fuel + 1) e =
      if within e a = true then .done (true, .leaf a (es ++ [e]))
      else .done (false, .leaf a es) := by
  by_cases hw : within e a = true
  · simp [QuadTree.insert_succ, QuadTree.leaf, QuadTree.canContain, QuadTree.area, hw,
      QuadTree.isLeaf, QuadTree.elements, hn, QuadTree.push_back]
  · simp [QuadTree.insert_succ, QuadTree.leaf, QuadTree.canContain, QuadTree.area, hw]

/-- A call of `insert` on a node whose four children are leaves with room left: the first
child whose area contains the shape appends it, and when there is none the node does. -/
theorem QuadTree.insert_flat (fuel : Nat) (a a0 a1 a2 a3 : Rect T) (ov e0 e1 e2 e3 : List S)
    (e : S) (hw : within e a = true) (h0 : e0.length ≤ MAX_OBJ) (h1 : e1.length ≤ MAX_OBJ)
    (h2 : e2.length ≤ MAX_OBJ) (h3 : e3.length ≤ MAX_OBJ) :
    (QuadTree.mk a ov (.ptr (.leaf a0 e0)) (.ptr (.leaf a1 e1)) (.ptr (.leaf a2 e2))
        (.ptr (.leaf a3 e3))).insert (fuel + 2) e =
      .done (true,
        if within e a0 = true then
          .mk a ov (.ptr (.leaf a0 (e0 ++ [e]))) (.ptr (.leaf a1 e1)) (.ptr (.leaf a2 e2))
            (.ptr (.leaf a3 e3))
        else if within e a1 = true then
          .mk a ov (.ptr (.leaf a0 e0)) (.ptr (.leaf a1 (e1 ++ [e]))) (.ptr (.leaf a2 e2))
            (.ptr (.leaf a3 e3))
        else if within e a2 = true then
          .mk a ov (.ptr (.leaf a0 e0)) (.ptr (.leaf a1 e1)) (.ptr (.leaf a2 (e2 ++ [e])))
            (.ptr (.leaf a3 e3))
        else if within e a3 = true then
          .mk a ov (.ptr (.leaf a0 e0)) (.ptr (.leaf a1 e1)) (.ptr (.leaf a2 e2))
            (.ptr (.leaf a3 (e3 ++ [e])))
        else
          .mk a (ov ++ [e]) (.ptr (.leaf a0 e0)) (.ptr (.leaf a1 e1)) (.ptr (.leaf a2 e2))
            (.ptr (.leaf a3 e3))) := by
  rw [QuadTree.insert_succ]
  simp only [QuadTree.canContain, QuadTree.area, hw, Bool.not_true, Bool.false_eq_true,
    if_false, QuadTree.isLeaf, insertChildren, Node.insertWith,
    QuadTree.insert_leaf fuel a0 e0 e h0, QuadTree.insert_leaf fuel a1 e1 e h1,
    QuadTree.insert_leaf fuel a2 e2 e h2, QuadTree.insert_leaf fuel a3 e3 e h3]
  by_cases w0 : within e a0 = true
  · simp [w0, Outcome.bind]
  by_cases w1 : within e a1 = true
  · simp [w0, w1, Outcome.bind]
  by_cases w2 : within e a2 = true
  · simp [w0, w1, w2, Outcome.bind]
  by_cases w3 : within e a3 = true
  · simp [w0, w1, w2, w3, Outcome.bind]
  · simp [w0, w1, w2, w3, Outcome.bind]

/-- The loop of `split` over copies of a shape that `children[0]` accepts: they all go to
`children[0]`. -/
theorem reinsert_replicate_first (fuel : Nat) (a a0 a1 a2 a3 : Rect T) (p : S)
    (hw : within p a = true) (hw0 : within p a0 = true) :
    ∀ k n, n + k ≤ MAX_OBJ + 1 →
      reinsert (QuadTree.insert (fuel + 2))
        (.mk a [] (.ptr (.leaf a0 (List.replicate n p))) (.ptr (.leaf a1 []))
          (.ptr (.leaf a2 [])) (.ptr (.leaf a3 []))) (List.replicate k p) =
      .done (.mk a [] (.ptr (.leaf a0 (List.replicate (n + k) p))) (.ptr (.leaf a1 []))
          (.ptr (.leaf a2 [])) (.ptr (.leaf a3 []))) := by
  intro k
  induction k with
  | zero => intro n _; simp [reinsert]
  | succ k ih =>
    intro n hn
    have hlen : (List.replicate n p).length ≤ MAX_OBJ := by
      rw [List.length_replicate]; omega
    rw [List.replicate_succ, reinsert,
      QuadTree.insert_flat fuel a a0 a1 a2 a3 [] _ [] [] [] p hw hlen (by simp) (by simp)
        (by simp)]
    simp only [hw0, if_true, Outcome.bind]
    rw [← List.replicate_succ', ih (n + 1) (by omega)]
    have : n + 1 + k = n + (k + 1) := by omega
    rw [this]

/-- The loop of `split` over copies of a shape that `children[0]` and `children[1]` refuse
and `children[2]` accepts: they all go to `children[2]`. -/
theorem reinsert_replicate_third (fuel : Nat) (a a0 a1 a2 a3 : Rect T) (p : S)
    (hw : within p a = true) (hw0 : within p a0 = false) (hw1 : within p a1 = false)
    (hw2 : within p a2 = true) :
    ∀ k n, n + k ≤ MAX_OBJ + 1 →
      reinsert (QuadTree.insert (fuel + 2))
        (.mk a [] (.ptr (.leaf a0 [])) (.ptr (.leaf a1 []))
          (.ptr (.leaf a2 (List.replicate n p))) (.ptr (.leaf a3 []))) (List.replicate k p) =
      .done (.mk a [] (.ptr (.leaf a0 [])) (.ptr (.leaf a1 []))
          (.ptr (.leaf a2 (List.replicate (n + k) p))) (.ptr (.leaf a3 []))) := by
  intro k
  induction k with
  | zero => intro n _; simp [reinsert]
  | succ k ih =>
    intro n hn
    have hlen : (List.replicate n p).length ≤ MAX_OBJ := by
      rw [List.length_replicate]; omega
    rw [List.replicate_succ, reinsert,
      QuadTree.insert_flat fuel a a0 a1 a2 a3 [] [] [] _ [] p hw (by simp) (by simp) hlen
        (by simp)]
    simp only [hw0, hw1, hw2, if_true, Bool.false_eq_true, if_false, Outcome.bind]
    rw [← List.replicate_succ', ih (n + 1) (by omega)]
    have : n + 1 + k = n + (k + 1) := by omega
    rw [this]

end Flat

section SplitOnce

variable {T S : Type} [Boundable S T] [Add T] [Div T] [OfNat T 2]

/-- The loop of `split` over at most as many fitting shapes as the leaves below have room
for: it completes with two levels of calls and leaves the four children leaves. -/
theorem reinsert_flat (a a0 a1 a2 a3 : Rect T) (es : List S) :
    ∀ ov e0 e1 e2 e3 : List S,
      ov.length + e0.length + e1.length + e2.length + e3.length + es.length ≤ MAX_OBJ + 1 →
      (∀ e ∈ es, within e a = true) →
      ∃ ov1 e01 e11 e21 e31 : List S, ∀ fuel,
        reinsert (QuadTree.insert (fuel + 2))
          (.mk a ov (.ptr (.leaf a0 e0)) (.ptr (.leaf a1 e1)) (.ptr (.leaf a2 e2))
            (.ptr (.leaf a3 e3))) es =
        .done (.mk a ov1 (.ptr (.leaf a0 e01)) (.ptr (.leaf a1 e11)) (.ptr (.leaf a2 e21))
            (.ptr (.leaf a3 e31))) := by
  induction es with
  | nil =>
    intro ov e0 e1 e2 e3 _ _
    exact ⟨ov, e0, e1, e2, e3, fun fuel => rfl⟩
  | cons e rest ih =>
    intro ov e0 e1 e2 e3 hlen hfit
    simp only [List.length_cons] at hlen
    have hw : within e a = true := hfit e (List.mem_cons_self _ _)
    have hrest : ∀ x ∈ rest, within x a = true := fun x hx =>
      hfit x (List.mem_cons_of_mem _ hx)
    have step := fun fuel => QuadTree.insert_flat fuel a a0 a1 a2 a3 ov e0 e1 e2 e3 e hw
      (by omega) (by omega) (by omega) (by omega)
    by_cases w0 : within e a0 = true
    · obtain ⟨ov1, e01, e11, e21, e31, hrun⟩ := ih ov (e0 ++ [e]) e1 e2 e3
        (by simp only [List.length_append, List.length_cons, List.length_nil]; omega) hrest
      refine ⟨ov1, e01, e11, e21, e31, fun fuel => ?_⟩
      rw [reinsert, step fuel]
      simp only [w0, if_true, Outcome.bind]
      exact hrun fuel
    by_cases w1 : within e a1 = true
    · obtain ⟨ov1, e01, e11, e21, e31, hrun⟩ := ih ov e0 (e1 ++ [e]) e2 e3
        (by simp only [List.length_append, List.length_cons, List.length_nil]; omega) hrest
      refine ⟨ov1, e01, e11, e21, e31, fun fuel => ?_⟩
      rw [reinsert, step fuel]
      simp only [w0, w1, if_true, if_false, Outcome.bind]
      exact hrun fuel
    by_cases w2 : within e a2 = true
    · obtain ⟨ov1, e01, e11, e21, e31, hrun⟩ := ih ov e0 e1 (e2 ++ [e]) e3
        (by simp only [List.length_append, List.length_cons, List.length_nil]; omega) hrest
      refine ⟨ov1, e01, e11, e21, e31, fun fuel => ?_⟩
      rw [reinsert, step fuel]
      simp only [w0, w1, w2, if_true, if_false, Outcome.bind]
      exact hrun fuel
    by_cases w3 : within e a3 = true
    · obtain ⟨ov1, e01, e11, e21, e31, hrun⟩ := ih ov e0 e1 e2 (e3 ++ [e])
        (by simp only [List.length_append, List.length_cons, List.length_nil]; omega) hrest
      refine ⟨ov1, e01, e11, e21, e31, fun fuel => ?_⟩
      rw [reinsert, step fuel]
      simp only [w0, w1, w2, w3, if_true, if_false, Outcome.bind]
      exact hrun fuel
    · obtain ⟨ov1, e01, e11, e21, e31, hrun⟩ := ih (ov ++ [e]) e0 e1 e2 e3
        (by simp only [List.length_append, List.length_cons, List.length_nil]; omega) hrest
      refine ⟨ov1, e01, e11, e21, e31, fun fuel => ?_⟩
      rw [reinsert, step fuel]
      simp only [w0, w1, w2, w3, if_false, Outcome.bind]
      exact hrun fuel

end SplitOnce

/-! ## C15: the capacity of a leaf -/

section CapacityMk

variable {T S : Type}

theorem QuadTree.leafCapacity_mk (a : Rect T) (es : List S) (c0 c1 c2 c3 : Node T S) :
    (QuadTree.mk a es c0 c1 c2 c3).leafCapacity = true ↔
      (c0.isNull = true → es.length ≤ MAX_OBJ + 1) ∧
      c0.leafCapacity = true ∧ c1.leafCapacity = true ∧
      c2.leafCapacity = true ∧ c3.leafCapacity = true := by
  simp only [QuadTree.leafCapacity, QuadTree.isLeaf_mk, Bool.and_eq_true, Bool.or_eq_true,
    Bool.not_eq_true', decide_eq_true_eq, and_assoc]
  cases c0.isNull <;> simp

end CapacityMk

section CapacitySplit

variable {T S : Type} [Add T] [Div T] [OfNat T 2]

theorem splitTree_leafCapacity (a : Rect T) :
    (splitTree a : QuadTree T S).leafCapacity = true := by
  simp [splitTree, QuadTree.new, QuadTree.leafCapacity, Node.leafCapacity, QuadTree.isLeaf]

end CapacitySplit

section Capacity

variable {T S : Type} [Boundable S T] [Add T] [Div T] [OfNat T 2]

/-- The child loop of `insert` keeps the leaves within their capacity, when the calls on
the children do. -/
theorem insertChildren_leafCapacity
    {ins : QuadTree T S → S → Outcome (Bool × QuadTree T S)} (hins : InsertSpec ins)
    (hstep : ∀ t shape r, ins t shape = .done r → t.leafCapacity = true →
      r.2.leafCapacity = true)
    {t : QuadTree T S} {shape : S} {r : Bool × QuadTree T S}
    (h : insertChildren ins t shape = .done r) (hk : t.leafCapacity = true) :
    r.2.leafCapacity = true := by
  obtain ⟨a, es, c0, c1, c2, c3⟩ := t
  rw [QuadTree.leafCapacity_mk] at hk
  obtain ⟨-, q0, q1, q2, q3⟩ := hk
  have nn : ∀ k : QuadTree T S, (Node.ptr k).isNull = true → es.length ≤ MAX_OBJ + 1 := by
    intro k hk; simp [Node.isNull] at hk
  have nn' : ∀ k : QuadTree T S,
      (Node.ptr k).isNull = true → (es ++ [shape]).length ≤ MAX_OBJ + 1 := by
    intro k hk; simp [Node.isNull] at hk
  rcases insertChildren_cases hins h with
    ⟨k0, k0', rfl, i0, rfl⟩ | ⟨k0, k1, k1', rfl, -, rfl, i1, rfl⟩ |
    ⟨k0, k1, k2, k2', rfl, -, rfl, -, rfl, i2, rfl⟩ |
    ⟨k0, k1, k2, k3, k3', rfl, -, rfl, -, rfl, -, rfl, i3, rfl⟩ |
    ⟨k0, k1, k2, k3, rfl, -, rfl, -, rfl, -, rfl, -, rfl⟩
  · exact (QuadTree.leafCapacity_mk _ _ _ _ _ _).mpr ⟨nn _, hstep _ _ _ i0 q0, q1, q2, q3⟩
  · exact (QuadTree.leafCapacity_mk _ _ _ _ _ _).mpr ⟨nn _, q0, hstep _ _ _ i1 q1, q2, q3⟩
  · exact (QuadTree.leafCapacity_mk _ _ _ _ _ _).mpr ⟨nn _, q0, q1, hstep _ _ _ i2 q2, q3⟩
  · exact (QuadTree.leafCapacity_mk _ _ _ _ _ _).mpr ⟨nn _, q0, q1, q2, hstep _ _ _ i3 q3⟩
  · exact (QuadTree.leafCapacity_mk _ _ _ _ _ _).mpr ⟨nn' _, q0, q1, q2, q3⟩

/-- A call of `insert` keeps the leaves within their capacity. -/
theorem QuadTree.insert_leafCapacity (fuel : Nat) :
    ∀ (t : QuadTree T S) (shape : S) (r : Bool × QuadTree T S),
      t.insert fuel shape = .done r → t.leafCapacity = true →
      r.2.leafCapacity = true := by
  induction fuel with
  | zero => intro t shape r h; simp [QuadTree.insert] at h
  | succ fuel ih =>
    intro t shape r h hk
    have hins := QuadTree.insert_spec (T := T) (S := S) fuel
    rcases QuadTree.insert_cases h with ⟨-, rfl⟩ | ⟨-, -, hn, rfl⟩ |
      ⟨-, -, -, t1, h1, h2⟩ | ⟨-, -, h2⟩
    · exact hk
    · obtain ⟨a, es, c0, c1, c2, c3⟩ := t
      rw [QuadTree.leafCapacity_mk] at hk
      refine (QuadTree.leafCapacity_mk _ _ _ _ _ _).mpr ⟨fun _ => ?_, hk.2⟩
      simp only [QuadTree.elements] at hn
      simp only [List.length_append, List.length_cons, List.length_nil]
      omega
    · exact insertChildren_leafCapacity hins ih h2
        (reinsert_keeps (fun t => t.leafCapacity = true) ih t.elements _ t1 h1
          (splitTree_leafCapacity t.area))
    · exact insertChildren_leafCapacity hins ih h2 hk

/-- In a tree a program can build, every leaf holds at most `MAX_OBJ + 1` elements. -/
theorem Built.leafCapacity {t : QuadTree T S} (hb : Built t) : t.leafCapacity = true := by
  induction hb with
  | new a => simp [QuadTree.new, QuadTree.leafCapacity, Node.leafCapacity, QuadTree.isLeaf]
  | insert fuel shape b t' _ h ih => exact QuadTree.insert_leafCapacity fuel _ shape _ h ih
  | @clear t _ _ =>
    obtain ⟨a, es, c0, c1, c2, c3⟩ := t
    simp [QuadTree.clear, QuadTree.leafCapacity, Node.leafCapacity, QuadTree.isLeaf]

end Capacity

section C15

variable {T S : Type} [Boundable S T] [Add T] [Div T] [OfNat T 2]

/-- Claim C15.  Leaf capacity invariant: in every tree reachable from an empty tree by
inserts and clears, every leaf holds at most `MAX_OBJ + 1 = 11` elements; a leaf that holds
at most `MAX_OBJ = 10` elements accepts a fitting shape by appending it and stays a leaf;
and a leaf that holds 11 elements is subdivided by the next insert of a fitting shape:
whenever that insert returns, it returns `true` and the node is no longer a leaf; and when
the eleven elements fit the area of the leaf, the call of `split` in that insert returns,
with two levels of calls, a node that is no longer a leaf, with which the insert goes on. -/
theorem leaf_holds_at_most_eleven (t : QuadTree T S) (hb : Built t) :
    t.leafCapacity = true ∧
    (∀ (n : QuadTree T S) fuel shape, n.isLeaf = true → n.elements.length ≤ MAX_OBJ →
      within shape n.area = true →
      n.insert (fuel + 1) shape = .done (true, n.push_back shape) ∧
      (n.push_back shape).isLeaf = true ∧
      (n.push_back shape).elements = n.elements ++ [shape]) ∧
    (∀ (n : QuadTree T S) fuel shape r, n.isLeaf = true →
      n.elements.length = MAX_OBJ + 1 → within shape n.area = true →
      n.insert fuel shape = .done r → r.1 = true ∧ r.2.isLeaf = false) ∧
    (∀ (n : QuadTree T S) shape, n.isLeaf = true → n.contained = true →
      n.elements.length = MAX_OBJ + 1 → within shape n.area = true →
      ∃ t1 : QuadTree T S, t1.isLeaf = false ∧ t1.area = n.area ∧
        ∀ fuel, n.split (fuel + 2) = .done t1 ∧
          n.insert (fuel + 3) shape =
            insertChildren (QuadTree.insert (fuel + 2)) t1 shape) := by
  refine ⟨hb.leafCapacity, ?_, ?_, ?_⟩
  · intro n fuel shape hl hn hw
    have hc : n.canContain shape = true := hw
    refine ⟨by simp [QuadTree.insert_succ, hc, hl, hn], ?_, ?_⟩
    · rw [(n.push_back_facts shape).2.1]; exact hl
    · obtain ⟨a, es, c0, c1, c2, c3⟩ := n
      rfl
  · intro n fuel shape r hl hn hw h
    cases fuel with
    | zero => simp [QuadTree.insert] at h
    | succ fuel =>
      have hins := QuadTree.insert_spec (T := T) (S := S) fuel
      rcases QuadTree.insert_cases h with ⟨hw', -⟩ | ⟨-, -, hn', -⟩ |
        ⟨-, -, -, t1, h1, h2⟩ | ⟨-, hl', -⟩
      · rw [hw] at hw'; cases hw'
      · omega
      · exact ⟨insertChildren_fst h2, (insertChildren_spec hins h2).2.2.1⟩
      · rw [hl] at hl'; cases hl'
  · intro n shape hl hk hn hw
    obtain ⟨ov, e0, e1, e2, e3, hrun⟩ := reinsert_flat n.area
      ⟨(n.area.xMax + n.area.xMin) / 2, n.area.xMax, (n.area.yMax + n.area.yMin) / 2,
        n.area.xMax⟩
      ⟨n.area.xMin, (n.area.xMax + n.area.xMin) / 2, (n.area.yMax + n.area.yMin) / 2,
        n.area.xMax⟩
      ⟨n.area.xMin, (n.area.xMax + n.area.xMin) / 2, n.area.yMin,
        (n.area.yMax + n.area.yMin) / 2⟩
      ⟨(n.area.xMax + n.area.xMin) / 2, n.area.xMax, n.area.yMin,
        (n.area.yMax + n.area.yMin) / 2⟩ n.elements [] [] [] [] []
      (by simp only [List.length_nil]; omega) (QuadTree.contained_elements hk)
    obtain ⟨t1, hsplit, hleaf, harea⟩ : ∃ t1 : QuadTree T S,
        (∀ fuel, n.split (fuel + 2) = .done t1) ∧ t1.isLeaf = false ∧ t1.area = n.area :=
      ⟨_, hrun, rfl, rfl⟩
    refine ⟨t1, hleaf, harea, fun fuel => ⟨hsplit fuel, ?_⟩⟩
    have hc : n.canContain shape = true := hw
    have hs : splitWith (QuadTree.insert (fuel + 2)) n = .done t1 := hsplit fuel
    have hlen : ¬ n.elements.length ≤ MAX_OBJ := by omega
    rw [QuadTree.insert_succ]
    simp only [hc, hl, hlen, hs, Outcome.bind, Bool.not_true, Bool.false_eq_true, if_false,
      if_true]

/-- Witness for C15: `deepTree` keeps its leaves within their capacity; the leaf
`sampleLeaf`, which holds eleven elements, is subdivided by the insert of
`Triangle.at 8 3`. -/
theorem leaf_holds_at_most_eleven_witness :
    deepTree.leafCapacity = true ∧
    sampleLeaf.insert 3 (Triangle.at 8 3) = .done (true, sampleSplit) ∧
    ((true, sampleSplit).1 = true ∧ (true, sampleSplit).2.isLeaf = false) :=
  ⟨(leaf_holds_at_most_eleven deepTree deepTree_built).1, by decide!,
   (leaf_holds_at_most_eleven deepTree deepTree_built).2.2.1 sampleLeaf 3 (Triangle.at 8 3)
     (true, sampleSplit) (by decide!) (by decide!) (by decide!) (by decide!)⟩

end C15

/-! ## C16: the first child that accepts a shape takes it -/

section C16

variable {T S : Type} [Boundable S T] [Add T] [Div T] [OfNat T 2]

/-- Claim C16.  First-fit placement: for every internal node `n` of a tree reachable from an
empty tree by inserts and clears and every shape that fits the area of `n`, if `insert`
returns and the area of some child contains the shape, then there is a lowest index `i`
among 0, 1, 2, 3 of a child whose area contains the shape; `insert` returns `true`, the
subtree of child `i` gains exactly the shape, the three other children are unchanged and so
are the area and the own elements of `n`.  The index depends on the order of the children
only. -/
theorem first_fit_placement (t : QuadTree T S) (hb : Built t) (n : QuadTree T S)
    (hn : n ∈ t.nodes) (hl : n.isLeaf = false) (shape : S)
    (hw : within shape n.area = true) (fuel : Nat) (r : Bool × QuadTree T S)
    (h : n.insert fuel shape = .done r)
    (hc : n.childList.any (fun c => !c.refuses shape) = true) :
    ∃ i, i < 4 ∧
      (n.childList.getD i .null).refuses shape = false ∧
      (∀ j, j < i → (n.childList.getD j .null).refuses shape = true) ∧
      r.1 = true ∧ r.2.area = n.area ∧ r.2.elements = n.elements ∧
      ((r.2.childList.getD i .null).shapes : Multiset S) =
        shape ::ₘ ((n.childList.getD i .null).shapes : Multiset S) ∧
      (∀ j, j ≠ i → r.2.childList.getD j .null = n.childList.getD j .null) := by
  have hq := QuadTree.allOrNone_of_mem_nodes hb.invariant.1 hn
  have hk := QuadTree.contained_of_mem_nodes hb.invariant.2 hn
  cases fuel with
  | zero => simp [QuadTree.insert] at h
  | succ fuel =>
    have hins := QuadTree.insert_spec (T := T) (S := S) fuel
    rcases QuadTree.insert_cases h with ⟨hw', -⟩ | ⟨-, hl', -, -⟩ | ⟨-, hl', -, -⟩ | ⟨-, -, h2⟩
    · rw [hw] at hw'; cases hw'
    · rw [hl] at hl'; cases hl'
    · rw [hl] at hl'; cases hl'
    obtain ⟨a, es, c0, c1, c2, c3⟩ := n
    simp only [QuadTree.allOrNone, Bool.and_eq_true] at hq
    simp only [QuadTree.contained, Bool.and_eq_true] at hk
    obtain ⟨⟨⟨⟨-, q0⟩, q1⟩, q2⟩, q3⟩ := hq
    obtain ⟨⟨⟨⟨-, p0⟩, p1⟩, p2⟩, p3⟩ := hk
    have yes : ∀ {k k' : QuadTree T S}, QuadTree.insert fuel k shape = .done (true, k') →
        (Node.ptr k).refuses shape = false := by
      intro k k' e
      have := (hins.result e).1
      simp only [Node.refuses_ptr, Bool.not_eq_false']
      exact this.symm
    have no : ∀ {k k' : QuadTree T S}, QuadTree.insert fuel k shape = .done (false, k') →
        (Node.ptr k).refuses shape = true := by
      intro k k' e
      have := (hins.result e).1
      simp only [Node.refuses_ptr, Bool.not_eq_true']
      exact this.symm
    have grow : ∀ {k k' : QuadTree T S}, QuadTree.insert fuel k shape = .done (true, k') →
        (Node.ptr k).allOrNone = true → (Node.ptr k).contained = true →
        ((Node.ptr k').shapes : Multiset S) = shape ::ₘ ((Node.ptr k).shapes : Multiset S) := by
      intro k k' e qa qc
      simp only [Node.allOrNone] at qa
      simp only [Node.contained] at qc
      simpa [Node.shapes] using hins.shapes e qa qc rfl
    rcases insertChildren_cases hins h2 with
      ⟨k0, k0', rfl, i0, rfl⟩ | ⟨k0, k1, k1', rfl, i0, rfl, i1, rfl⟩ |
      ⟨k0, k1, k2, k2', rfl, i0, rfl, i1, rfl, i2, rfl⟩ |
      ⟨k0, k1, k2, k3, k3', rfl, i0, rfl, i1, rfl, i2, rfl, i3, rfl⟩ |
      ⟨k0, k1, k2, k3, rfl, i0, rfl, i1, rfl, i2, rfl, i3, rfl⟩
    · refine ⟨0, by omega, yes i0, fun j hj => by omega, rfl, rfl, rfl, grow i0 q0 p0, ?_⟩
      intro j hj
      rcases j with _ | _ | _ | _ | j <;> simp_all [QuadTree.childList]
    · refine ⟨1, by omega, yes i1, ?_, rfl, rfl, rfl, grow i1 q1 p1, ?_⟩
      · intro j hj
        obtain rfl : j = 0 := by omega
        exact no i0
      · intro j hj
        rcases j with _ | _ | _ | _ | j <;> simp_all [QuadTree.childList]
    · refine ⟨2, by omega, yes i2, ?_, rfl, rfl, rfl, grow i2 q2 p2, ?_⟩
      · intro j hj
        rcases j with _ | _ | j
        · exact no i0
        · exact no i1
        · omega
      · intro j hj
        rcases j with _ | _ | _ | _ | j <;> simp_all [QuadTree.childList]
    · refine ⟨3, by omega, yes i3, ?_, rfl, rfl, rfl, grow i3 q3 p3, ?_⟩
      · intro j hj
        rcases j with _ | _ | _ | j
        · exact no i0
        · exact no i1
        · exact no i2
        · omega
      · intro j hj
        rcases j with _ | _ | _ | _ | j <;> simp_all [QuadTree.childList]
    · exfalso
      have n0 := no i0
      have n1 := no i1
      have n2 := no i2
      have n3 := no i3
      simp [QuadTree.childList, n0, n1, n2, n3] at hc

/-- Witness for C16: `Triangle.at 5 7` lies in the areas of `children[0]` and `children[1]`
of `sampleOverflow`; `children[0]` takes it. -/
theorem first_fit_placement_witness :
    sampleOverflow.insert 2 (Triangle.at 5 7) = .done (true, sampleFirstFit) ∧
    (sampleOverflow.childList.getD 1 .null).refuses (Triangle.at 5 7) = false ∧
    ∃ i, i < 4 ∧
      (sampleOverflow.childList.getD i .null).refuses (Triangle.at 5 7) = false ∧
      (∀ j, j < i → (sampleOverflow.childList.getD j .null).refuses (Triangle.at 5 7) = true) ∧
      (true, sampleFirstFit).1 = true ∧ (true, sampleFirstFit).2.area = sampleOverflow.area ∧
      (true, sampleFirstFit).2.elements = sampleOverflow.elements ∧
      (((true, sampleFirstFit).2.childList.getD i .null).shapes : Multiset Triangle) =
        Triangle.at 5 7 ::ₘ ((sampleOverflow.childList.getD i .null).shapes : Multiset Triangle) ∧
      (∀ j, j ≠ i → (true, sampleFirstFit).2.childList.getD j .null =
        sampleOverflow.childList.getD j .null) :=
  ⟨by decide!, by decide!,
   first_fit_placement sampleOverflow sampleOverflow_built sampleOverflow
     (QuadTree.mem_nodes_self _) (by decide!) (Triangle.at 5 7) (by decide!) 2
     (true, sampleFirstFit) (by decide!) (by decide!)⟩

end C16

/-! ## C17: at most one child covers a point -/

section C17

variable {T S : Type} [LinearOrder T] [Add T] [Div T] [OfNat T 2]

/-- Claim C17.  For every area `a`, square or not, over a linearly ordered type and every
point `(x, y)`: among four nodes that have the areas `split` gives the children of a node
with area `a`, at most one covers the point in the sense of `coversPoint`; so whenever one
of them covers the point, the child loop of `nextNode` moves the cursor to that very node.
The four children of the tree `split` builds have these areas. -/
theorem at_most_one_child_covers (a : Rect T) (x y : T) :
    (splitTree a : QuadTree T S).childAreas = splitAreas a ∧
    ∀ k0 k1 k2 k3 : QuadTree T S,
      [some k0.area, some k1.area, some k2.area, some k3.area] = splitAreas a →
      ([k0, k1, k2, k3].filter (fun k => k.coversPoint x y)).length ≤ 1 ∧
      ∀ (c : cpoint_iterator T S) (k : QuadTree T S), k ∈ [k0, k1, k2, k3] →
        k.coversPoint x y = true →
        c.nextNodeLoop x y [.ptr k0, .ptr k1, .ptr k2, .ptr k3] =
          .done { c with node := some k, it := some 0, stop := some k.elements.length } := by
  refine ⟨rfl, ?_⟩
  intro k0 k1 k2 k3 h
  have hs : splitAreas a =
      [some ⟨(a.xMax + a.xMin) / 2, a.xMax, (a.yMax + a.yMin) / 2, a.xMax⟩,
       some ⟨a.xMin, (a.xMax + a.xMin) / 2, (a.yMax + a.yMin) / 2, a.xMax⟩,
       some ⟨a.xMin, (a.xMax + a.xMin) / 2, a.yMin, (a.yMax + a.yMin) / 2⟩,
       some ⟨(a.xMax + a.xMin) / 2, a.xMax, a.yMin, (a.yMax + a.yMin) / 2⟩] := rfl
  rw [hs] at h
  simp only [List.cons.injEq, Option.some.injEq, and_true] at h
  obtain ⟨h0, h1, h2, h3⟩ := h
  have v0 : k0.coversPoint x y = true →
      (a.xMax + a.xMin) / 2 < x ∧ (a.yMax + a.yMin) / 2 < y := by
    simp only [QuadTree.coversPoint, h0, Bool.and_eq_true, decide_eq_true_eq]; tauto
  have v1 : k1.coversPoint x y = true →
      x < (a.xMax + a.xMin) / 2 ∧ (a.yMax + a.yMin) / 2 < y := by
    simp only [QuadTree.coversPoint, h1, Bool.and_eq_true, decide_eq_true_eq]; tauto
  have v2 : k2.coversPoint x y = true →
      x < (a.xMax + a.xMin) / 2 ∧ y < (a.yMax + a.yMin) / 2 := by
    simp only [QuadTree.coversPoint, h2, Bool.and_eq_true, decide_eq_true_eq]; tauto
  have v3 : k3.coversPoint x y = true →
      (a.xMax + a.xMin) / 2 < x ∧ y < (a.yMax + a.yMin) / 2 := by
    simp only [QuadTree.coversPoint, h3, Bool.and_eq_true, decide_eq_true_eq]; tauto
  have n01 : k0.coversPoint x y = true → k1.coversPoint x y = false := fun p =>
    by_contra fun q => lt_asymm (v0 p).1 (v1 (by simpa using q)).1
  have n02 : k0.coversPoint x y = true → k2.coversPoint x y = false := fun p =>
    by_contra fun q => lt_asymm (v0 p).1 (v2 (by simpa using q)).1
  have n03 : k0.coversPoint x y = true → k3.coversPoint x y = false := fun p =>
    by_contra fun q => lt_asymm (v0 p).2 (v3 (by simpa using q)).2
  have n12 : k1.coversPoint x y = true → k2.coversPoint x y = false := fun p =>
    by_contra fun q => lt_asymm (v1 p).2 (v2 (by simpa using q)).2
  have n13 : k1.coversPoint x y = true → k3.coversPoint x y = false := fun p =>
    by_contra fun q => lt_asymm (v1 p).1 (v3 (by simpa using q)).1
  have n23 : k2.coversPoint x y = true → k3.coversPoint x y = false := fun p =>
    by_contra fun q => lt_asymm (v2 p).1 (v3 (by simpa using q)).1
  clear v0 v1 v2 v3 h0 h1 h2 h3 hs
  refine ⟨?_, ?_⟩
  · simp only [List.filter_cons, List.filter_nil]
    rcases Bool.eq_false_or_eq_true (k0.coversPoint x y) with e0 | e0 <;>
    rcases Bool.eq_false_or_eq_true (k1.coversPoint x y) with e1 | e1 <;>
    rcases Bool.eq_false_or_eq_true (k2.coversPoint x y) with e2 | e2 <;>
    rcases Bool.eq_false_or_eq_true (k3.coversPoint x y) with e3 | e3 <;>
    simp_all
  · intro c k hk hcov
    simp only [List.mem_cons, List.mem_singleton, List.not_mem_nil, or_false] at hk
    rcases hk with rfl | rfl | rfl | rfl
    · simp [cpoint_iterator.nextNodeLoop, hcov]
    · have e0 : k0.coversPoint x y = false := by
        by_contra q; exact absurd hcov (by simp [n01 (by simpa using q)])
      simp [cpoint_iterator.nextNodeLoop, hcov, e0]
    · have e0 : k0.coversPoint x y = false := by
        by_contra q; exact absurd hcov (by simp [n02 (by simpa using q)])
      have e1 : k1.coversPoint x y = false := by
        by_contra q; exact absurd hcov (by simp [n12 (by simpa using q)])
      simp [cpoint_iterator.nextNodeLoop, hcov, e0, e1]
    · have e0 : k0.coversPoint x y = false := by
        by_contra q; exact absurd hcov (by simp [n03 (by simpa using q)])
      have e1 : k1.coversPoint x y = false := by
        by_contra q; exact absurd hcov (by simp [n13 (by simpa using q)])
      have e2 : k2.coversPoint x y = false := by
        by_contra q; exact absurd hcov (by simp [n23 (by simpa using q)])
      simp [cpoint_iterator.nextNodeLoop, hcov, e0, e1, e2]

/-- Witness for C17: the four quadrants of `sampleArea` and the point `(1, 1)`, which only
the lower left quadrant covers. -/
theorem at_most_one_child_covers_witness :
    [some (QuadTree.new ⟨5, 10, 5, 10⟩ : QuadTree ℚ Triangle).area,
      some (QuadTree.new ⟨0, 5, 5, 10⟩ : QuadTree ℚ Triangle).area,
      some (QuadTree.new ⟨0, 5, 0, 5⟩ : QuadTree ℚ Triangle).area,
      some (QuadTree.new ⟨5, 10, 0, 5⟩ : QuadTree ℚ Triangle).area] = splitAreas sampleArea ∧
    ([(QuadTree.new ⟨5, 10, 5, 10⟩ : QuadTree ℚ Triangle), .new ⟨0, 5, 5, 10⟩,
      .new ⟨0, 5, 0, 5⟩, .new ⟨5, 10, 0, 5⟩].filter
        (fun k => k.coversPoint 1 1)).length ≤ 1 ∧
    (QuadTree.new ⟨0, 5, 0, 5⟩ : QuadTree ℚ Triangle).coversPoint 1 1 = true :=
  ⟨by decide!,
   ((at_most_one_child_covers sampleArea 1 1).2 (.new ⟨5, 10, 5, 10⟩) (.new ⟨0, 5, 5, 10⟩)
     (.new ⟨0, 5, 0, 5⟩) (.new ⟨5, 10, 0, 5⟩) (by decide!)).1,
   by decide!⟩

end C17

/-! ## C18: coincident points subdivide without bound -/

section Cluster

theorem within_clusterPoint (r : Rect ℚ) :
    within clusterPoint r = true ↔ r.xMin ≤ 1 ∧ 1 ≤ r.xMax ∧ r.yMin ≤ 1 ∧ 1 ≤ r.yMax := by
  simp only [within, Triangle.within, Triangle.points, clusterPoint, Triangle.at,
    List.all_cons, List.all_nil, Bool.and_true, Bool.and_self, Bool.not_eq_true',
    Bool.or_eq_false_iff, decide_eq_false_iff_not, not_lt, and_assoc]

theorem within_clusterPoint_false (r : Rect ℚ) (h : 1 < r.xMin ∨ 1 < r.yMin) :
    within clusterPoint r = false := by
  rw [← Bool.not_eq_true, within_clusterPoint]
  rintro ⟨h1, -, h3, -⟩
  rcases h with h | h
  · exact absurd h1 (not_le.mpr h)
  · exact absurd h3 (not_le.mpr h)

/-- The subdivision of a full leaf of copies of `clusterPoint` over a square on the
diagonal that contains the point: the eleven copies go to one child, over a square on the
diagonal that contains the point. -/
theorem clusterLeafAt_split (fuel : Nat) (lo hi : ℚ) (h1 : lo ≤ 1) (h2 : 1 ≤ hi) :
    (clusterLeafAt lo hi).split (fuel + 2) =
      .done (if (hi + lo) / 2 ≤ 1 then
          .mk ⟨lo, hi, lo, hi⟩ [] (.ptr (clusterLeafAt ((hi + lo) / 2) hi))
            (.ptr (.leaf ⟨lo, (hi + lo) / 2, (hi + lo) / 2, hi⟩ []))
            (.ptr (.leaf ⟨lo, (hi + lo) / 2, lo, (hi + lo) / 2⟩ []))
            (.ptr (.leaf ⟨(hi + lo) / 2, hi, lo, (hi + lo) / 2⟩ []))
        else
          .mk ⟨lo, hi, lo, hi⟩ [] (.ptr (.leaf ⟨(hi + lo) / 2, hi, (hi + lo) / 2, hi⟩ []))
            (.ptr (.leaf ⟨lo, (hi + lo) / 2, (hi + lo) / 2, hi⟩ []))
            (.ptr (clusterLeafAt lo ((hi + lo) / 2)))
            (.ptr (.leaf ⟨(hi + lo) / 2, hi, lo, (hi + lo) / 2⟩ []))) := by
  have hw : within clusterPoint (⟨lo, hi, lo, hi⟩ : Rect ℚ) = true :=
    (within_clusterPoint _).mpr ⟨h1, h2, h1, h2⟩
  have hs : (clusterLeafAt lo hi).split (fuel + 2) =
      reinsert (QuadTree.insert (fuel + 2))
        (.mk ⟨lo, hi, lo, hi⟩ []
          (.ptr (.leaf ⟨(hi + lo) / 2, hi, (hi + lo) / 2, hi⟩ (List.replicate 0 clusterPoint)))
          (.ptr (.leaf ⟨lo, (hi + lo) / 2, (hi + lo) / 2, hi⟩ []))
          (.ptr (.leaf ⟨lo, (hi + lo) / 2, lo, (hi + lo) / 2⟩ (List.replicate 0 clusterPoint)))
          (.ptr (.leaf ⟨(hi + lo) / 2, hi, lo, (hi + lo) / 2⟩ [])))
        (List.replicate 11 clusterPoint) := rfl
  rw [hs]
  by_cases hm : (hi + lo) / 2 ≤ 1
  · rw [if_pos hm]
    exact reinsert_replicate_first fuel _ _ _ _ _ clusterPoint hw
      ((within_clusterPoint _).mpr ⟨hm, h2, hm, h2⟩) 11 0 (by decide)
  · rw [if_neg hm]
    have hm' : 1 < (hi + lo) / 2 := not_le.mp hm
    exact reinsert_replicate_third fuel _ _ _ _ _ clusterPoint hw
      (within_clusterPoint_false _ (Or.inl hm')) (within_clusterPoint_false _ (Or.inr hm'))
      ((within_clusterPoint _).mpr ⟨h1, hm'.le, h1, hm'.le⟩) 11 0 (by decide)

/-- No depth of nested calls completes the insert of `clusterPoint` into a full leaf of
copies of it. -/
theorem clusterLeafAt_insert (fuel : Nat) :
    ∀ lo hi : ℚ, lo ≤ 1 → 1 ≤ hi →
      (clusterLeafAt lo hi).insert fuel clusterPoint = .outOfFuel := by
  induction fuel with
  | zero => intro lo hi _ _; rfl
  | succ fuel ih =>
    intro lo hi h1 h2
    have hw : within clusterPoint (⟨lo, hi, lo, hi⟩ : Rect ℚ) = true :=
      (within_clusterPoint _).mpr ⟨h1, h2, h1, h2⟩
    have hstart : (clusterLeafAt lo hi).insert (fuel + 1) clusterPoint =
        ((clusterLeafAt lo hi).split fuel).bind fun t1 =>
          insertChildren (QuadTree.insert fuel) t1 clusterPoint := by
      rw [QuadTree.insert_succ]
      simp [clusterLeafAt, QuadTree.leaf, QuadTree.canContain, QuadTree.area, hw,
        QuadTree.isLeaf, QuadTree.elements, MAX_OBJ, QuadTree.split]
    rw [hstart]
    rcases fuel with _ | _ | fuel
    · rfl
    · simp [QuadTree.split, splitWith, clusterLeafAt, QuadTree.leaf, QuadTree.elements,
        QuadTree.area, List.replicate, reinsert, QuadTree.insert_succ, QuadTree.canContain,
        splitTree, hw, QuadTree.isLeaf, insertChildren, Node.insertWith, QuadTree.insert,
        Outcome.bind]
    · rw [clusterLeafAt_split fuel lo hi h1 h2]
      by_cases hm : (hi + lo) / 2 ≤ 1
      · rw [if_pos hm]
        simp only [Outcome.bind, insertChildren, Node.insertWith, ih _ _ hm h2]
      · rw [if_neg hm]
        have hm' : 1 < (hi + lo) / 2 := not_le.mp hm
        have w0 := within_clusterPoint_false
          (⟨(hi + lo) / 2, hi, (hi + lo) / 2, hi⟩ : Rect ℚ) (Or.inl hm')
        have w1 := within_clusterPoint_false
          (⟨lo, (hi + lo) / 2, (hi + lo) / 2, hi⟩ : Rect ℚ) (Or.inr hm')
        simp only [Outcome.bind, insertChildren, Node.insertWith,
          QuadTree.insert_leaf (T := ℚ) (fuel + 1) _ [] clusterPoint (by simp), w0, w1,
          Bool.false_eq_true, if_false, ih _ _ h1 hm'.le]

end Cluster

section C18

/-- Claim C18.  Unbounded subdivision: over exact arithmetic, with the root area
`[0, 10] × [0, 10]` and point-like shapes, eleven inserts of the point `(1, 1)` into an
empty tree return and leave a leaf that holds the eleven copies; the twelfth insert of the
same point completes with no bound on the depth of the nested calls, and so does no run of
the twelve inserts.  At every level, over every square on the diagonal that contains the
point, `split` itself returns, and it moves the eleven copies into one single child, which
is again a full leaf over a square on the diagonal that contains the point, while the three
other children are empty leaves. -/
theorem coincident_points_subdivide_forever :
    (∀ fuel, insertAll (fuel + 1) (QuadTree.new sampleArea) (List.replicate 11 clusterPoint) =
      .done clusterLeaf) ∧
    (∀ fuel, clusterLeaf.insert fuel clusterPoint = .outOfFuel) ∧
    (∀ fuel r, clusterLeaf.insert fuel clusterPoint ≠ .done r) ∧
    (∀ fuel, insertAll fuel (QuadTree.new sampleArea) (List.replicate 12 clusterPoint) =
      .outOfFuel) ∧
    (∀ fuel (lo hi : ℚ), lo ≤ 1 → 1 ≤ hi →
      ∃ (lo1 hi1 : ℚ) (c0 c1 c2 c3 : Node ℚ Triangle), lo1 ≤ 1 ∧ 1 ≤ hi1 ∧
        (clusterLeafAt lo hi).split (fuel + 2) = .done (.mk ⟨lo, hi, lo, hi⟩ [] c0 c1 c2 c3) ∧
        Node.ptr (clusterLeafAt lo1 hi1) ∈ [c0, c1, c2, c3] ∧
        ∀ c ∈ [c0, c1, c2, c3], c = .ptr (clusterLeafAt lo1 hi1) ∨ ∃ r, c = .ptr (.new r)) := by
  have h11 : ∀ fuel, insertAll (fuel + 1) (QuadTree.new sampleArea)
      (List.replicate 11 clusterPoint) = .done clusterLeaf := by
    intro fuel
    exact insertAll_leaf sampleArea fuel (List.replicate 11 clusterPoint) [] (by decide)
      (by decide!)
  have hnever : ∀ fuel, clusterLeaf.insert fuel clusterPoint = .outOfFuel := fun fuel =>
    clusterLeafAt_insert fuel 0 10 (by norm_num) (by norm_num)
  refine ⟨h11, hnever, ?_, ?_, ?_⟩
  · intro fuel r h
    rw [hnever fuel] at h
    cases h
  · intro fuel
    cases fuel with
    | zero => rfl
    | succ fuel =>
      have hsplit : List.replicate 12 clusterPoint =
          List.replicate 11 clusterPoint ++ [clusterPoint] := rfl
      have happ : ∀ (xs ys : List Triangle) (t t1 : QuadTree ℚ Triangle),
          insertAll (fuel + 1) t xs = .done t1 →
          insertAll (fuel + 1) t (xs ++ ys) = insertAll (fuel + 1) t1 ys := by
        intro xs ys
        induction xs with
        | nil => intro t t1 h; simp only [insertAll, Outcome.done.injEq] at h; rw [h]; rfl
        | cons x xs ih =>
          intro t t1 h
          simp only [insertAll, List.cons_append] at h ⊢
          obtain ⟨r, hr, h⟩ := Outcome.bind_eq_done.mp h
          rw [hr]
          simp only [Outcome.bind]
          exact ih _ _ h
      rw [hsplit, happ _ _ _ _ (h11 fuel)]
      simp only [insertAll, hnever (fuel + 1), Outcome.bind]
  · intro fuel lo hi h1 h2
    by_cases hm : (hi + lo) / 2 ≤ 1
    · refine ⟨(hi + lo) / 2, hi, .ptr (clusterLeafAt ((hi + lo) / 2) hi),
        .ptr (.leaf ⟨lo, (hi + lo) / 2, (hi + lo) / 2, hi⟩ []),
        .ptr (.leaf ⟨lo, (hi + lo) / 2, lo, (hi + lo) / 2⟩ []),
        .ptr (.leaf ⟨(hi + lo) / 2, hi, lo, (hi + lo) / 2⟩ []), hm, h2, ?_, ?_, ?_⟩
      · rw [clusterLeafAt_split fuel lo hi h1 h2, if_pos hm]
      · simp
      · intro c hc
        simp only [List.mem_cons, List.mem_singleton, List.not_mem_nil, or_false] at hc
        rcases hc with rfl | rfl | rfl | rfl
        · exact Or.inl rfl
        · exact Or.inr ⟨_, rfl⟩
        · exact Or.inr ⟨_, rfl⟩
        · exact Or.inr ⟨_, rfl⟩
    · refine ⟨lo, (hi + lo) / 2, .ptr (.leaf ⟨(hi + lo) / 2, hi, (hi + lo) / 2, hi⟩ []),
        .ptr (.leaf ⟨lo, (hi + lo) / 2, (hi + lo) / 2, hi⟩ []),
        .ptr (clusterLeafAt lo ((hi + lo) / 2)),
        .ptr (.leaf ⟨(hi + lo) / 2, hi, lo, (hi + lo) / 2⟩ []), h1, (not_le.mp hm).le,
        ?_, ?_, ?_⟩
      · rw [clusterLeafAt_split fuel lo hi h1 h2, if_neg hm]
      · simp
      · intro c hc
        simp only [List.mem_cons, List.mem_singleton, List.not_mem_nil, or_false] at hc
        rcases hc with rfl | rfl | rfl | rfl
        · exact Or.inr ⟨_, rfl⟩
        · exact Or.inr ⟨_, rfl⟩
        · exact Or.inl rfl
        · exact Or.inr ⟨_, rfl⟩

/-- Witness for C18: the first subdivision of `clusterLeaf`, whose centre is `(5, 5)`, moves
the eleven copies to a child over a square on the diagonal that contains `(1, 1)`. -/
theorem coincident_points_subdivide_forever_witness :
    (0 : ℚ) ≤ 1 ∧ (1 : ℚ) ≤ 10 ∧
    ∃ (lo1 hi1 : ℚ) (c0 c1 c2 c3 : Node ℚ Triangle), lo1 ≤ 1 ∧ 1 ≤ hi1 ∧
      (clusterLeafAt 0 10).split (0 + 2) = .done (.mk ⟨0, 10, 0, 10⟩ [] c0 c1 c2 c3) ∧
      Node.ptr (clusterLeafAt lo1 hi1) ∈ [c0, c1, c2, c3] ∧
      ∀ c ∈ [c0, c1, c2, c3], c = .ptr (clusterLeafAt lo1 hi1) ∨ ∃ r, c = .ptr (.new r) :=
  ⟨by norm_num, by norm_num,
   coincident_points_subdivide_forever.2.2.2.2 0 0 10 (by norm_num) (by norm_num)⟩

end C18

/-! ## C19: the elements of a node keep the order of the inserts -/

section OrderMk

variable {T S : Type}

theorem QuadTree.sublist_mk {g : List S} {a : Rect T} {es : List S}
    {c0 c1 c2 c3 : Node T S} :
    (∀ n ∈ (QuadTree.mk a es c0 c1 c2 c3).nodes, n.elements.Sublist g) ↔
      es.Sublist g ∧ (∀ n ∈ c0.nodes, n.elements.Sublist g) ∧
      (∀ n ∈ c1.nodes, n.elements.Sublist g) ∧ (∀ n ∈ c2.nodes, n.elements.Sublist g) ∧
      (∀ n ∈ c3.nodes, n.elements.Sublist g) := by
  constructor
  · intro h
    exact ⟨h _ (QuadTree.mem_nodes_mk.mpr (Or.inl rfl)),
      fun n hn => h n (QuadTree.mem_nodes_mk.mpr (Or.inr (Or.inl hn))),
      fun n hn => h n (QuadTree.mem_nodes_mk.mpr (Or.inr (Or.inr (Or.inl hn)))),
      fun n hn => h n (QuadTree.mem_nodes_mk.mpr (Or.inr (Or.inr (Or.inr (Or.inl hn))))),
      fun n hn => h n (QuadTree.mem_nodes_mk.mpr (Or.inr (Or.inr (Or.inr (Or.inr hn)))))⟩
  · rintro ⟨h, h0, h1, h2, h3⟩ n hn
    rcases QuadTree.mem_nodes_mk.mp hn with rfl | e | e | e | e
    · exact h
    · exact h0 n e
    · exact h1 n e
    · exact h2 n e
    · exact h3 n e

theorem Node.nodes_ptr (k : QuadTree T S) : (Node.ptr k).nodes = k.nodes := by
  simp [Node.nodes]

theorem splitTree_sublist [Add T] [Div T] [OfNat T 2] (a : Rect T) :
    ∀ n ∈ (splitTree a : QuadTree T S).nodes, n.elements.Sublist [] := by
  intro n hn
  simp only [splitTree, QuadTree.new, QuadTree.nodes, Node.nodes, List.append_nil,
    List.mem_cons, List.mem_append, List.mem_singleton, List.not_mem_nil, or_false] at hn
  rcases hn with rfl | rfl | rfl | rfl | rfl <;> exact List.Sublist.refl _

/-- The loop of `split` keeps the elements of every node in the order of the list it
runs over. -/
theorem reinsert_sublist
    {ins : QuadTree T S → S → Outcome (Bool × QuadTree T S)}
    (hstep : ∀ t shape r, ins t shape = .done r → ∀ g : List S,
      (∀ n ∈ t.nodes, n.elements.Sublist g) →
      ∀ n ∈ r.2.nodes, n.elements.Sublist (g ++ [shape])) (es : List S) :
    ∀ (t t1 : QuadTree T S) (g : List S), reinsert ins t es = .done t1 →
      (∀ n ∈ t.nodes, n.elements.Sublist g) →
      ∀ n ∈ t1.nodes, n.elements.Sublist (g ++ es) := by
  induction es with
  | nil =>
    intro t t1 g h hg
    simp only [reinsert, Outcome.done.injEq] at h
    subst h
    simpa using hg
  | cons e rest ih =>
    intro t t1 g h hg
    simp only [reinsert] at h
    obtain ⟨r, hr, h⟩ := Outcome.bind_eq_done.mp h
    have := ih r.2 t1 (g ++ [e]) h (hstep _ _ _ hr g hg)
    simpa using this

end OrderMk

section Order

variable {T S : Type} [Boundable S T] [Add T] [Div T] [OfNat T 2]

/-- The child loop of `insert` keeps the elements of every node in the order of the
inserts, when the calls on the children do. -/
theorem insertChildren_sublist
    {ins : QuadTree T S → S → Outcome (Bool × QuadTree T S)} (hins : InsertSpec ins)
    (hstep : ∀ t shape r, ins t shape = .done r → ∀ g : List S,
      (∀ n ∈ t.nodes, n.elements.Sublist g) →
      ∀ n ∈ r.2.nodes, n.elements.Sublist (g ++ [shape]))
    {t : QuadTree T S} {shape : S} {r : Bool × QuadTree T S}
    (h : insertChildren ins t shape = .done r) (g : List S)
    (hg : ∀ n ∈ t.nodes, n.elements.Sublist g) :
    ∀ n ∈ r.2.nodes, n.elements.Sublist (g ++ [shape]) := by
  obtain ⟨a, es, c0, c1, c2, c3⟩ := t
  rw [QuadTree.sublist_mk] at hg
  obtain ⟨q, q0, q1, q2, q3⟩ := hg
  have up : ∀ {c : Node T S}, (∀ n ∈ c.nodes, n.elements.Sublist g) →
      ∀ n ∈ c.nodes, n.elements.Sublist (g ++ [shape]) :=
    fun hc n hn => (hc n hn).trans (List.sublist_append_left g [shape])
  have st : ∀ {k k' : QuadTree T S} {b : Bool}, ins k shape = .done (b, k') →
      (∀ n ∈ (Node.ptr k).nodes, n.elements.Sublist g) →
      ∀ n ∈ (Node.ptr k').nodes, n.elements.Sublist (g ++ [shape]) := by
    intro k k' b e hk
    rw [Node.nodes_ptr] at hk ⊢
    exact hstep _ _ _ e g hk
  have q' : es.Sublist (g ++ [shape]) := q.trans (List.sublist_append_left g [shape])
  rcases insertChildren_cases hins h with
    ⟨k0, k0', rfl, i0, rfl⟩ | ⟨k0, k1, k1', rfl, -, rfl, i1, rfl⟩ |
    ⟨k0, k1, k2, k2', rfl, -, rfl, -, rfl, i2, rfl⟩ |
    ⟨k0, k1, k2, k3, k3', rfl, -, rfl, -, rfl, -, rfl, i3, rfl⟩ |
    ⟨k0, k1, k2, k3, rfl, -, rfl, -, rfl, -, rfl, -, rfl⟩
  · exact QuadTree.sublist_mk.mpr ⟨q', st i0 q0, up q1, up q2, up q3⟩
  · exact QuadTree.sublist_mk.mpr ⟨q', up q0, st i1 q1, up q2, up q3⟩
  · exact QuadTree.sublist_mk.mpr ⟨q', up q0, up q1, st i2 q2, up q3⟩
  · exact QuadTree.sublist_mk.mpr ⟨q', up q0, up q1, up q2, st i3 q3⟩
  · exact QuadTree.sublist_mk.mpr
      ⟨List.Sublist.append q (List.Sublist.refl _), up q0, up q1, up q2, up q3⟩

/-- A call of `insert` keeps the elements of every node in the order of the inserts. -/
theorem QuadTree.insert_sublist (fuel : Nat) :
    ∀ (t : QuadTree T S) (shape : S) (r : Bool × QuadTree T S),
      t.insert fuel shape = .done r → ∀ g : List S,
      (∀ n ∈ t.nodes, n.elements.Sublist g) →
      ∀ n ∈ r.2.nodes, n.elements.Sublist (g ++ [shape]) := by
  induction fuel with
  | zero => intro t shape r h; simp [QuadTree.insert] at h
  | succ fuel ih =>
    intro t shape r h g hg
    have hins := QuadTree.insert_spec (T := T) (S := S) fuel
    rcases QuadTree.insert_cases h with ⟨-, rfl⟩ | ⟨-, -, -, rfl⟩ |
      ⟨-, -, -, t1, h1, h2⟩ | ⟨-, -, h2⟩
    · exact fun n hn => (hg n hn).trans (List.sublist_append_left g [shape])
    · obtain ⟨a, es, c0, c1, c2, c3⟩ := t
      rw [QuadTree.sublist_mk] at hg
      obtain ⟨q, q0, q1, q2, q3⟩ := hg
      have up : ∀ {c : Node T S}, (∀ n ∈ c.nodes, n.elements.Sublist g) →
          ∀ n ∈ c.nodes, n.elements.Sublist (g ++ [shape]) :=
        fun hc n hn => (hc n hn).trans (List.sublist_append_left g [shape])
      exact QuadTree.sublist_mk.mpr
        ⟨List.Sublist.append q (List.Sublist.refl _), up q0, up q1, up q2, up q3⟩
    · have hroot : t.elements.Sublist g := hg t (QuadTree.mem_nodes_self t)
      have s1 := reinsert_sublist ih t.elements _ t1 [] h1 (splitTree_sublist t.area)
      refine insertChildren_sublist hins ih h2 g ?_
      intro n hn
      exact (by simpa using s1 n hn : n.elements.Sublist t.elements).trans hroot
    · exact insertChildren_sublist hins ih h2 g hg

/-- A run of inserts keeps the elements of every node in the order of the inserts of the
shapes that fit the root. -/
theorem insertAll_sublist (fuel : Nat) (shapes : List S) :
    ∀ (t t1 : QuadTree T S) (g : List S), insertAll fuel t shapes = .done t1 →
      (∀ n ∈ t.nodes, n.elements.Sublist g) →
      ∀ n ∈ t1.nodes, n.elements.Sublist (g ++ shapes.filter (fun s => within s t.area)) := by
  induction shapes with
  | nil =>
    intro t t1 g h hg
    simp only [insertAll, Outcome.done.injEq] at h
    subst h
    simpa using hg
  | cons e rest ih =>
    intro t t1 g h hg
    simp only [insertAll] at h
    obtain ⟨r, hr, h⟩ := Outcome.bind_eq_done.mp h
    have hins := QuadTree.insert_spec (T := T) (S := S) fuel
    have ha : r.2.area = t.area := hins.area hr
    have hres := hins.result hr
    by_cases hw : within e t.area = true
    · have := ih r.2 t1 (g ++ [e]) h (QuadTree.insert_sublist fuel _ _ _ hr g hg)
      rw [ha] at this
      simpa [List.filter_cons, hw] using this
    · have hf : r.1 = false := by rw [hres.1]; simpa using hw
      have hsame : r.2 = t := hres.2 hf
      rw [hsame] at h
      have := ih t t1 g h hg
      simpa [List.filter_cons, hw] using this

end Order

section C19

variable {T S : Type} [Boundable S T] [Add T] [Div T] [OfNat T 2]

/-- Claim C19.  Insertion order is preserved in every node: when the shapes of a list `h`
are inserted one by one into an empty tree and every insert returns, the elements of every
node of the resulting tree are, in order, a subsequence of the shapes of `h` that fit the
root area, which are the accepted ones.  In particular the redistribution by `split` never
reorders shapes: the elements of every node of the tree `split` leaves are, in order, a
subsequence of the elements of the node before. -/
theorem node_elements_keep_insertion_order (a : Rect T) (h : List S) (fuel : Nat)
    (t : QuadTree T S) (hrun : insertAll fuel (QuadTree.new a) h = .done t) :
    (∀ n ∈ t.nodes, n.elements.Sublist (h.filter (fun s => within s a))) ∧
    (∀ (t0 t1 : QuadTree T S) (fuel0 : Nat), t0.split fuel0 = .done t1 →
      ∀ n ∈ t1.nodes, n.elements.Sublist t0.elements) := by
  constructor
  · have hnew : ∀ n ∈ (QuadTree.new a : QuadTree T S).nodes, n.elements.Sublist [] := by
      intro n hn
      simp only [QuadTree.new, QuadTree.nodes, Node.nodes, List.append_nil,
        List.mem_singleton] at hn
      subst hn
      exact List.Sublist.refl _
    have := insertAll_sublist fuel h _ t [] hrun hnew
    simpa [QuadTree.new, QuadTree.area] using this
  · intro t0 t1 fuel0 hs n hn
    have := reinsert_sublist (QuadTree.insert_sublist fuel0) t0.elements _ t1 [] hs
      (splitTree_sublist t0.area) n hn
    simpa using this

/-- Witness for C19: the twelve inserts that build `sampleSplit`. -/
theorem node_elements_keep_insertion_order_witness :
    insertAll 3 (QuadTree.new sampleArea) (sampleShapes ++ [Triangle.at 8 3]) =
      .done sampleSplit ∧
    (∀ n ∈ sampleSplit.nodes, n.elements.Sublist
      ((sampleShapes ++ [Triangle.at 8 3]).filter (fun s => within s sampleArea))) ∧
    (∀ (t0 t1 : QuadTree ℚ Triangle) (fuel0 : Nat), t0.split fuel0 = .done t1 →
      ∀ n ∈ t1.nodes, n.elements.Sublist t0.elements) :=
  ⟨by decide!,
   node_elements_keep_insertion_order sampleArea (sampleShapes ++ [Triangle.at 8 3]) 3
     sampleSplit (by decide!)⟩

end C19

/-! ## C20: `split` returns and subdivides one level only -/

section C20

variable {T S : Type} [Boundable S T] [Add T] [Div T] [OfNat T 2]

/-- Claim C20.  The function `split` itself always returns and never nests: called on a
leaf with area `a` that holds at most `MAX_OBJ + 1 = 11` elements, all fitting `a`, it
completes with two levels of calls of `insert`, whatever the bound on the depth is beyond
that, so the redistribution triggers no further subdivision; the result is an internal node
with the same area whose four children are leaves over the areas `split` computes, and the
own elements of the node and the elements of the four children are together exactly the old
elements. -/
theorem split_returns_without_nesting (a : Rect T) (es : List S)
    (hn : es.length ≤ MAX_OBJ + 1) (hw : ∀ e ∈ es, within e a = true) :
    ∃ (ov e0 e1 e2 e3 : List S) (a0 a1 a2 a3 : Rect T),
      (∀ fuel, (QuadTree.leaf a es).split (fuel + 2) =
        .done (.mk a ov (.ptr (.leaf a0 e0)) (.ptr (.leaf a1 e1)) (.ptr (.leaf a2 e2))
          (.ptr (.leaf a3 e3)))) ∧
      [some a0, some a1, some a2, some a3] = splitAreas a ∧
      ((ov ++ (e0 ++ (e1 ++ (e2 ++ e3))) : List S) : Multiset S) = (es : Multiset S) := by
  obtain ⟨ov, e0, e1, e2, e3, hrun⟩ := reinsert_flat a
    ⟨(a.xMax + a.xMin) / 2, a.xMax, (a.yMax + a.yMin) / 2, a.xMax⟩
    ⟨a.xMin, (a.xMax + a.xMin) / 2, (a.yMax + a.yMin) / 2, a.xMax⟩
    ⟨a.xMin, (a.xMax + a.xMin) / 2, a.yMin, (a.yMax + a.yMin) / 2⟩
    ⟨(a.xMax + a.xMin) / 2, a.xMax, a.yMin, (a.yMax + a.yMin) / 2⟩ es [] [] [] [] []
    (by simpa using hn) hw
  refine ⟨ov, e0, e1, e2, e3, _, _, _, _, fun fuel => hrun fuel, rfl, ?_⟩
  have hs : reinsert (QuadTree.insert 2) (splitTree a : QuadTree T S) es = .done _ := hrun 0
  have facts := splitTree_facts (S := S) a
  have := (reinsert_spec (QuadTree.insert_spec 2) hs).2.2.2.2.2 facts.2.2.1 facts.2.2.2.1
    (by rw [facts.1]; exact hw)
  rw [facts.2.2.2.2.1] at this
  simpa [QuadTree.shapes, Node.shapes, QuadTree.leaf] using this

/-- Witness for C20: the subdivision of `sampleLeaf`, which holds eleven elements. -/
theorem split_returns_without_nesting_witness :
    sampleShapes.length ≤ MAX_OBJ + 1 ∧ (∀ e ∈ sampleShapes, within e sampleArea = true) ∧
    ∃ (ov e0 e1 e2 e3 : List Triangle) (a0 a1 a2 a3 : Rect ℚ),
      (∀ fuel, (QuadTree.leaf sampleArea sampleShapes).split (fuel + 2) =
        .done (.mk sampleArea ov (.ptr (.leaf a0 e0)) (.ptr (.leaf a1 e1))
          (.ptr (.leaf a2 e2)) (.ptr (.leaf a3 e3)))) ∧
      [some a0, some a1, some a2, some a3] = splitAreas sampleArea ∧
      ((ov ++ (e0 ++ (e1 ++ (e2 ++ e3))) : List Triangle) : Multiset Triangle) =
        (sampleShapes : Multiset Triangle) :=
  ⟨by decide, by decide!,
   split_returns_without_nesting sampleArea sampleShapes (by decide) (by decide!)⟩

end C20

end tree
